import Mathlib

/-!
Shallow embedding of the graph-construction pipeline of `graph1d/generate_graphs.py`
(point-cloud resampling, Dijkstra shortest paths, boundary/junction edge synthesis,
partitioning, field assembly), together with theorems settling the specification
claims about it.

Conventions of the embedding:
* numpy integer arrays become `List ℤ`; per-point 3D coordinates become `Pt = ℚ × ℚ × ℚ`;
* the floating-point Euclidean edge length `np.linalg.norm(points[a] - points[b])`
  is abstracted as an explicit parameter `elen : Pt → Pt → ℚ` (for configurations of
  collinear points that differ in a single coordinate the Euclidean norm is exactly
  `|x_a - x_b|`, which is rational; concrete instantiations below use such
  configurations so that the abstraction is exact);
* `np.infty` becomes `⊤ : WithTop ℚ`;
* Python exceptions (IndexError from a failed `[0][0]` lookup, KeyError from a dict,
  the ValueError raised by `dijkstra_algorithm`) become an `Except PyErr` result;
* Python/numpy indexing with possibly negative indices is modelled by `pyGet`.
-/

deriving instance DecidableEq for Except

namespace Grom

/-- A 3D point with exact rational coordinates. -/
abbrev Pt : Type := ℚ × ℚ × ℚ

/-- Python exception outcomes that the embedded code can raise. -/
inductive PyErr where
  | indexError
  | valueError
  | keyError
deriving DecidableEq, Repr

/-- Python/numpy-style element access: nonnegative indices address from the front,
negative indices address from the end, anything out of range is an IndexError. -/
def pyGet {α : Type} (l : List α) (i : ℤ) : Option α :=
  if 0 ≤ i then l[i.toNat]?
  else if 0 ≤ (l.length : ℤ) + i then l[((l.length : ℤ) + i).toNat]?
  else none

/-- `pyGet` in the `Except` monad. -/
def pyGetE {α : Type} (l : List α) (i : ℤ) : Except PyErr α :=
  match pyGet l i with
  | some x => Except.ok x
  | none => Except.error PyErr.indexError

/-- Plain positional access in the `Except` monad (index known nonnegative). -/
def listGetE {α : Type} (l : List α) (k : ℕ) : Except PyErr α :=
  match l[k]? with
  | some x => Except.ok x
  | none => Except.error PyErr.indexError

/-- Positions at which two equal-length integer arrays agree:
`np.where(a == b)[0]`. -/
def npWhereEqPos (a b : List ℤ) : List ℕ :=
  (List.range a.length).filter (fun k => decide (a[k]? = b[k]?))

/-- Remove the elements at the given (in-range, nonnegative) positions:
`np.delete(l, ps)` for a position list produced by `np.where`. -/
def npDeletePos {α : Type} (l : List α) (ps : List ℕ) : List α :=
  (l.enum.filter (fun kx => decide (kx.1 ∉ ps))).map Prod.snd

/-- Structural monadic map in the `Except` monad (elementwise `List.mapM`). -/
def mapE {α β : Type} (f : α → Except PyErr β) : List α → Except PyErr (List β)
  | [] => Except.ok []
  | x :: xs => do
    let y ← f x
    let ys ← mapE f xs
    Except.ok (y :: ys)

/-- Normalize a possibly negative numpy index against length `n`. -/
def npNormIdx (n : ℕ) (i : ℤ) : Option ℕ :=
  if 0 ≤ i ∧ i < (n : ℤ) then some i.toNat
  else if -(n : ℤ) ≤ i ∧ i < 0 then some ((n : ℤ) + i).toNat
  else none

/-- `np.delete(l, idxs)` for a user-supplied integer index list: negative indices
count from the end, out-of-range indices raise IndexError, duplicates are removed
once. -/
def npDeleteIdx {α : Type} (l : List α) (idxs : List ℤ) : Except PyErr (List α) := do
  let ps ← mapE (fun i =>
    match npNormIdx l.length i with
    | some p => Except.ok p
    | none => Except.error PyErr.indexError) idxs
  Except.ok (npDeletePos l ps)

/-- First position satisfying a predicate (`np.where(...)[0][0]` without the
trailing indexing). -/
def firstIdx {α : Type} (p : α → Bool) : List α → Option ℕ
  | [] => none
  | x :: xs => if p x then some 0 else (firstIdx p xs).map (· + 1)

/-- Truncation toward zero, Python `int()` on an exact value. `Rat.floor` is used
rather than `Int.floor` so that the definition reduces inside the kernel. -/
def pyInt (q : ℚ) : ℤ := if 0 ≤ q then Rat.floor q else -(Rat.floor (-q))

theorem ratFloor_eq_floor (q : ℚ) : Rat.floor q = ⌊q⌋ := by
  rw [Rat.floor_def', Rat.floor_def]

theorem pyInt_of_nonneg {q : ℚ} (h : 0 ≤ q) : pyInt q = ⌊q⌋ := by
  rw [pyInt, if_pos h, ratFloor_eq_floor]

/-- Kernel-computable absolute value on `ℚ`. -/
def qabs (q : ℚ) : ℚ := if q < 0 then -q else q

theorem qabs_eq_abs (q : ℚ) : qabs q = |q| := by
  rw [qabs]
  by_cases h : q < 0
  · rw [if_pos h, abs_of_neg h]
  · rw [if_neg h, abs_of_nonneg (le_of_not_lt h)]

/-- The float literal 1e-13 as an exact rational. -/
def eps13 : ℚ := 1 / 10 ^ 13

/-- The float literal 1e-12 as an exact rational. -/
def eps12 : ℚ := 1 / 10 ^ 12

/-- The `indices` dictionary `{'inlet': ..., 'outlets': ...}`. -/
structure Indices where
  inlet : List ℤ
  outlets : List ℤ
deriving DecidableEq, Repr

/-- Result record of a successful `resample_points` run. -/
structure ResampleOut where
  sampled : List ℤ
  pts : List Pt
  edges1 : List ℤ
  edges2 : List ℤ
deriving DecidableEq, Repr

/-- Inner helper `modify_edges` of `resample_points` (generate_graphs.py lines
138-146): rewrite every occurrence of `ipoint_to_delete` in both edge arrays to
`ipoint_to_replace`. -/
def modify_edges (edges1 edges2 : List ℤ) (ipoint_to_delete ipoint_to_replace : ℤ) :
    List ℤ × List ℤ :=
  (edges1.map (fun x => if x = ipoint_to_delete then ipoint_to_replace else x),
   edges2.map (fun x => if x = ipoint_to_delete then ipoint_to_replace else x))

/-- Embedding of `remove_points` (lines 112-133): rewrite deleted indices to their
replacements, drop self-loop edges, and renumber the surviving points densely. -/
def remove_points (idxs_to_delete idxs_to_replace : List ℤ)
    (edges1 edges2 : List ℤ) (npoints : ℕ) :
    Except PyErr (List ℤ × List ℤ × List ℤ) := do
  if idxs_to_replace.length < idxs_to_delete.length then
    throw PyErr.indexError
  let st := (List.zip idxs_to_delete idxs_to_replace).foldl
    (fun (st : List ℤ × List ℤ) dr =>
      (st.1.map (fun x => if x = dr.1 then dr.2 else x),
       st.2.map (fun x => if x = dr.1 then dr.2 else x)))
    (edges1, edges2)
  let delPos := npWhereEqPos st.1 st.2
  let e1 := npDeletePos st.1 delPos
  let e2 := npDeletePos st.2 delPos
  let sampled ← npDeleteIdx ((List.range npoints).map Int.ofNat) idxs_to_delete
  let e1 ← mapE (fun x =>
    match firstIdx (fun s => decide (s = x)) sampled with
    | some k => Except.ok (Int.ofNat k)
    | none => Except.error PyErr.indexError) e1
  let e2 ← mapE (fun x =>
    match firstIdx (fun s => decide (s = x)) sampled with
    | some k => Except.ok (Int.ofNat k)
    | none => Except.error PyErr.indexError) e2
  Except.ok (sampled, e1, e2)

/-- State threaded through the cap-removal and decimation loops of
`resample_points`: current edge arrays and the accumulated
`ipoints_to_delete` / `ipoints_to_replace` lists. -/
structure DecimState where
  edges1 : List ℤ
  edges2 : List ℤ
  dels : List ℤ
  reps : List ℤ
deriving DecidableEq, Repr

/-- Current length of every edge: `np.linalg.norm(points[edges1] - points[edges2], axis=1)`. -/
def edgeDiffs (elen : Pt → Pt → ℚ) (points : List Pt) (e1 e2 : List ℤ) :
    Except PyErr (List ℚ) :=
  mapE (fun k => do
    let a ← listGetE e1 k
    let b ← listGetE e2 k
    let pa ← pyGetE points a
    let pb ← pyGetE points b
    Except.ok (elen pa pb)) (List.range e1.length)

/-- `np.min` over an array that may contain `inf`; ValueError on an empty array. -/
def npMinInf (l : List (WithTop ℚ)) : Except PyErr (WithTop ℚ) :=
  if l.isEmpty then Except.error PyErr.valueError else Except.ok (l.foldl min ⊤)

/-- The predicate `np.abs(diff - mdiff) < 1e-12` under IEEE semantics: any
comparison involving `inf - inf` (NaN) or an infinite difference is false. -/
def tolPred (mdiff : WithTop ℚ) (d : WithTop ℚ) : Bool :=
  d.recTopCoe false (fun x => mdiff.recTopCoe false (fun m => decide (qabs (x - m) < eps12)))

/-- One iteration of the edge-collapse decimation loop of `resample_points`
(lines 170-189): mask already-collapsed edges to `inf`, find the global minimum,
take the first edge within `1e-12` of it, and collapse it, deleting its
destination and rewriting to its source unless the destination is a protected
outlet (in which case the source is deleted). -/
def decimStep (elen : Pt → Pt → ℚ) (points : List Pt) (new_outlets : List ℤ)
    (st : DecimState) : Except PyErr DecimState := do
  let diffs ← edgeDiffs elen points st.edges1 st.edges2
  let masked : List (WithTop ℚ) :=
    diffs.map (fun d => if d < eps13 then (⊤ : WithTop ℚ) else (d : WithTop ℚ))
  let mdiff ← npMinInf masked
  let mind ← (match firstIdx (tolPred mdiff) masked with
    | some k => Except.ok k
    | none => Except.error PyErr.indexError)
  let a ← listGetE st.edges1 mind
  let b ← listGetE st.edges2 mind
  let dl := if b ∈ new_outlets then a else b
  let rp := if b ∈ new_outlets then b else a
  let e := modify_edges st.edges1 st.edges2 dl rp
  Except.ok ⟨e.1, e.2, st.dels ++ [dl], st.reps ++ [rp]⟩

/-- The decimation loop, run for the exact Python iteration count as fuel. -/
def decimLoop (elen : Pt → Pt → ℚ) (points : List Pt) (new_outlets : List ℤ) :
    ℕ → DecimState → Except PyErr DecimState
  | 0, st => Except.ok st
  | fuel + 1, st => do
    let st2 ← decimStep elen points new_outlets st
    decimLoop elen points new_outlets fuel st2

/-- State of the cap-removal loop (lines 152-163). -/
structure CapState where
  edges1 : List ℤ
  edges2 : List ℤ
  dels : List ℤ
  reps : List ℤ
deriving DecidableEq, Repr

/-- Cap removal (lines 152-163): for each offset `ip < remove_caps`, collapse
`inlet + ip` into `inlet + remove_caps` for every inlet and `outlet - ip` into
`outlet - remove_caps` for every outlet. -/
def capRemoval (indices : Indices) (remove_caps : ℕ) (edges1 edges2 : List ℤ) :
    CapState :=
  (List.range remove_caps).foldl
    (fun st ip =>
      let ipz : ℤ := Int.ofNat ip
      let rcz : ℤ := Int.ofNat remove_caps
      let st := indices.inlet.foldl
        (fun (st : CapState) inlet =>
          let e := modify_edges st.edges1 st.edges2 (inlet + ipz) (inlet + rcz)
          ⟨e.1, e.2, st.dels ++ [inlet + ipz], st.reps ++ [inlet + rcz]⟩) st
      indices.outlets.foldl
        (fun (st : CapState) outlet =>
          let e := modify_edges st.edges1 st.edges2 (outlet - ipz) (outlet - rcz)
          ⟨e.1, e.2, st.dels ++ [outlet - ipz], st.reps ++ [outlet - rcz]⟩) st)
    ⟨edges1, edges2, [], []⟩

/-- Shallow embedding of `resample_points` (lines 135-198). The function mutates
its `indices` argument in place (line 168) before the decimation loop, so the
embedding returns the mutated indices record alongside the normal result or the
raised exception. -/
def resample_points (elen : Pt → Pt → ℚ) (points : List Pt)
    (edges1 edges2 : List ℤ) (indices : Indices) (perc_points_to_keep : ℚ)
    (remove_caps : ℕ) : Indices × Except PyErr ResampleOut :=
  let npoints := points.length
  let npoints_to_keep : ℤ := pyInt ((npoints : ℚ) * perc_points_to_keep)
  let cap := capRemoval indices remove_caps edges1 edges2
  let new_outlets := indices.outlets.map (fun o => o - (Int.ofNat remove_caps))
  let indices2 : Indices := { indices with outlets := new_outlets }
  let fuel := ((npoints : ℤ) - npoints_to_keep).toNat
  let res : Except PyErr ResampleOut := do
    let st ← decimLoop elen points new_outlets fuel
      ⟨cap.edges1, cap.edges2, cap.dels, cap.reps⟩
    let r ← remove_points st.dels st.reps st.edges1 st.edges2 npoints
    let pts ← npDeleteIdx points st.dels
    Except.ok ⟨r.1, pts, r.2.1, r.2.2⟩
  (indices2, res)

/-- Edge length for point configurations that differ only in the first
coordinate: there the Euclidean norm is exactly `|x_a - x_b|`. Used to
instantiate `elen` on concrete collinear inputs. -/
def axisLen (p q : Pt) : ℚ := qabs (p.1 - q.1)

/-- Write `l[i] = v` with Python/numpy index semantics. -/
def pySet {α : Type} (l : List α) (i : ℤ) (v : α) : Option (List α) :=
  match npNormIdx l.length i with
  | some p => some (l.set p v)
  | none => none

/-- `pySet` in the `Except` monad. -/
def pySetE {α : Type} (l : List α) (i : ℤ) (v : α) : Except PyErr (List α) :=
  match pySet l i v with
  | some r => Except.ok r
  | none => Except.error PyErr.indexError

/-- The minimum-selection loop of `dijkstra_algorithm` (lines 209-214): scan
`tovisit`, remembering the position of the smallest tentative distance seen so
far; `minindex` stays `-1` when every tentative distance is infinite. -/
def dijkMinIdx (tovisit : List ℤ) (dists : List (WithTop ℚ)) :
    Except PyErr (ℤ × WithTop ℚ) :=
  (List.range tovisit.length).foldlM
    (fun (acc : ℤ × WithTop ℚ) iinde => do
      let node ← listGetE tovisit iinde
      let d ← pyGetE dists node
      if d < acc.2 then Except.ok (Int.ofNat iinde, d) else Except.ok acc)
    ((-1 : ℤ), (⊤ : WithTop ℚ))

/-- The relaxation loop of `dijkstra_algorithm` (lines 222-228), in the order
the neighbors are produced; only neighbors still in `tovisit` are relaxed. -/
def relaxAll (elen : Pt → Pt → ℚ) (nodes : List Pt) (cur : ℤ) :
    List ℤ → List ℤ → List (WithTop ℚ) → List ℤ →
    Except PyErr (List (WithTop ℚ) × List ℤ)
  | [], _, dists, prevs => Except.ok (dists, prevs)
  | neib :: rest, tovisit, dists, prevs => do
    if neib ∈ tovisit then
      let dcur ← pyGetE dists cur
      let pc ← pyGetE nodes cur
      let pn ← pyGetE nodes neib
      let alt := dcur + ((elen pc pn : ℚ) : WithTop ℚ)
      let dn ← pyGetE dists neib
      if alt < dn then
        let dists2 ← pySetE dists neib alt
        let prevs2 ← pySetE prevs neib cur
        relaxAll elen nodes cur rest tovisit dists2 prevs2
      else
        relaxAll elen nodes cur rest tovisit dists prevs
    else
      relaxAll elen nodes cur rest tovisit dists prevs

/-- Out-neighbors of `cur`:
`b_edges[np.where(b_edges[:,0] == curindex)[0], 1]` (line 220). -/
def outNeighbors (edges1 edges2 : List ℤ) (cur : ℤ) : List ℤ :=
  ((List.zip edges1 edges2).filter (fun ab => decide (ab.1 = cur))).map Prod.snd

/-- The main loop of `dijkstra_algorithm` (lines 208-228), with the exact number
of iterations (`tovisit` loses one element per iteration) supplied as fuel. -/
def dijkLoop (elen : Pt → Pt → ℚ) (nodes : List Pt) (edges1 edges2 : List ℤ) :
    ℕ → List ℤ → List (WithTop ℚ) → List ℤ →
    Except PyErr (List (WithTop ℚ) × List ℤ)
  | 0, tovisit, dists, prevs =>
    if tovisit.isEmpty then Except.ok (dists, prevs)
    else Except.error PyErr.indexError
  | fuel + 1, tovisit, dists, prevs =>
    if tovisit.isEmpty then Except.ok (dists, prevs)
    else do
      let m ← dijkMinIdx tovisit dists
      let cur ← pyGetE tovisit m.1
      let tv ← npDeleteIdx tovisit [m.1]
      let inb := outNeighbors edges1 edges2 cur
      let dp ← relaxAll elen nodes cur inb tv dists prevs
      dijkLoop elen nodes edges1 edges2 fuel tv dp.1 dp.2

/-- Shallow embedding of `dijkstra_algorithm` (lines 200-237). The `ValueError`
raised when some distance is still infinite after the queue empties becomes
`Except.error PyErr.valueError`. -/
def dijkstra_algorithm (elen : Pt → Pt → ℚ) (nodes : List Pt)
    (edges1 edges2 : List ℤ) (index : ℤ) :
    Except PyErr (List (WithTop ℚ) × List ℤ) := do
  let nnodes := nodes.length
  let tovisit := (List.range nnodes).map Int.ofNat
  let dists0 := List.replicate nnodes (⊤ : WithTop ℚ)
  let prevs0 := List.replicate nnodes (-1 : ℤ)
  let dists0 ← pySetE dists0 index (0 : ℚ)
  let dp ← dijkLoop elen nodes edges1 edges2 nnodes tovisit dists0 prevs0
  if dp.1.isEmpty then
    throw PyErr.valueError
  else if (⊤ : WithTop ℚ) ∈ dp.1 then
    throw PyErr.valueError
  else
    Except.ok dp

/-- Componentwise difference of two points. -/
def ptSub (p q : Pt) : Pt := (p.1 - q.1, p.2.1 - q.2.1, p.2.2 - q.2.2)

/-- Scale a point componentwise. -/
def ptSmul (c : ℚ) (p : Pt) : Pt := (c * p.1, c * p.2.1, c * p.2.2)

/-- Componentwise negation of a point. -/
def ptNeg (p : Pt) : Pt := (-p.1, -p.2.1, -p.2.2)

/-- Result record of `generate_boundary_edges`. -/
structure BoundaryOut where
  bedges1 : List ℤ
  bedges2 : List ℤ
  rel_positions : List Pt
  dists : List (WithTop ℚ)
  types : List ℤ
deriving DecidableEq, Repr

/-- `np.min` in the `Except` monad (ValueError on an empty array). -/
def npMinW (l : List (WithTop ℚ)) : Except PyErr (WithTop ℚ) :=
  if l.isEmpty then Except.error PyErr.valueError else Except.ok (l.foldl min ⊤)

/-- Indices visited by `i = start; while i < bound: ...; i = i + step`
(fuel-based; `step` is `npoints ≥ 1` at every use site). -/
def strideIdxs : ℕ → ℕ → ℕ → ℕ → List ℕ
  | 0, _, _, _ => []
  | fuel + 1, start, step, bound =>
    if start < bound then start :: strideIdxs fuel (start + step) step bound
    else []

/-- `np.delete` for a list of nonnegative positions, with the numpy bounds
check (an out-of-range position raises IndexError). -/
def npDeletePosE {α : Type} (l : List α) (ps : List ℕ) : Except PyErr (List α) :=
  if ps.all (fun p => decide (p < l.length)) then Except.ok (npDeletePos l ps)
  else Except.error PyErr.indexError

/-- The edge-to-delete list built for one target point `ipoint` by the
filtering loop of `generate_boundary_edges` (lines 267-277): the kept flat
index is `ipoint + minidx * npoints`; it is also deleted when the minimum
distance is below `1e-12`. -/
def boundaryDeleteFor (dlist : List (WithTop ℚ)) (npoints ipoint : ℕ) :
    Except PyErr (List ℕ) := do
  let curIdxs := strideIdxs (dlist.length + 1) ipoint npoints dlist.length
  let cur_dists ← mapE (fun f => listGetE dlist f) curIdxs
  let min_dist ← npMinW cur_dists
  let minidx ← (match firstIdx (fun d => decide (d = min_dist)) cur_dists with
    | some k => Except.ok k
    | none => Except.error PyErr.indexError)
  let kept := ipoint + minidx * npoints
  let head : List ℕ := if min_dist < ((eps12 : ℚ) : WithTop ℚ) then [kept] else []
  Except.ok (head ++ curIdxs.filter (fun i => decide (i ≠ kept)))

/-- Shallow embedding of `generate_boundary_edges` (lines 239-286): emit one
candidate edge from every boundary point to every target point, then delete all
but the edge from the graph-closest boundary point (and also that edge when its
distance is numerically zero). -/
def generate_boundary_edges (elen : Pt → Pt → ℚ) (points : List Pt)
    (indices : Indices) (edges1 edges2 : List ℤ) : Except PyErr BoundaryOut := do
  let npoints := points.length
  let idxs := indices.inlet ++ indices.outlets
  let acc ← idxs.foldlM
    (fun (acc : BoundaryOut) index => do
      let dp ← dijkstra_algorithm elen points edges1 edges2 index
      let type : ℤ := if index ∈ indices.inlet then 1 else 2
      (List.range npoints).foldlM
        (fun (acc : BoundaryOut) ipoint => do
          let pi ← listGetE points ipoint
          let pb ← pyGetE points index
          let rp0 := ptSub pi pb
          let nrp := elen pi pb
          let rp := if eps12 < nrp then ptSmul (1 / nrp) rp0 else rp0
          let dv ← listGetE dp.1 ipoint
          Except.ok ⟨acc.bedges1 ++ [index], acc.bedges2 ++ [Int.ofNat ipoint],
            acc.rel_positions ++ [rp], acc.dists ++ [dv], acc.types ++ [type]⟩)
        acc)
    (⟨[], [], [], [], []⟩ : BoundaryOut)
  let edges_to_delete ← (List.range npoints).foldlM
    (fun (ps : List ℕ) ipoint => do
      let new ← boundaryDeleteFor acc.dists npoints ipoint
      Except.ok (ps ++ new))
    ([] : List ℕ)
  let b1 ← npDeletePosE acc.bedges1 edges_to_delete
  let b2 ← npDeletePosE acc.bedges2 edges_to_delete
  let rel ← npDeletePosE acc.rel_positions edges_to_delete
  let ds ← npDeletePosE acc.dists edges_to_delete
  let tys ← npDeletePosE acc.types edges_to_delete
  Except.ok ⟨b1, b2, rel, ds, tys⟩

/-- Lookup in a Python dict modelled as an association list with unique keys. -/
def dictGet (d : List (ℤ × ℤ)) (k : ℤ) : Option ℤ :=
  (d.find? (fun kv => decide (kv.1 = k))).map Prod.snd

/-- Python dict assignment: an existing key keeps its position (its value is
replaced), a new key is appended, preserving iteration order. -/
def dictSet (d : List (ℤ × ℤ)) (k v : ℤ) : List (ℤ × ℤ) :=
  if (d.find? (fun kv => decide (kv.1 = k))).isSome then
    d.map (fun kv => if kv.1 = k then (k, v) else kv)
  else d ++ [(k, v)]

/-- Same as `dictGet` for the per-inlet distance dict of `create_junction_edges`. -/
def dictGetD (d : List (ℤ × List (WithTop ℚ))) (k : ℤ) : Option (List (WithTop ℚ)) :=
  (d.find? (fun kv => decide (kv.1 = k))).map Prod.snd

/-- Same as `dictSet` for the per-inlet distance dict. -/
def dictSetD (d : List (ℤ × List (WithTop ℚ))) (k : ℤ) (v : List (WithTop ℚ)) :
    List (ℤ × List (WithTop ℚ)) :=
  if (d.find? (fun kv => decide (kv.1 = k))).isSome then
    d.map (fun kv => if kv.1 = k then (k, v) else kv)
  else d ++ [(k, v)]

/-- State of the junction-detection loop of `create_junction_edges`
(lines 306-323). -/
structure JunScanSt where
  juncts_inlets : List (ℤ × ℤ)
  jun_inlet_mask : List ℤ
  jun_mask : List ℤ
  jedges1 : List ℤ
  jedges2 : List ℤ
deriving DecidableEq, Repr

/-- One iteration of the junction-detection loop, at point `ipoint`. The three
branches are the `if`/`elif`/`elif` chain of lines 307-323; `bif_id[ipoint-1]`
uses Python negative indexing at `ipoint = 0`. -/
def junScanStep (bif_id : List ℤ) (ipoint : ℕ) (st : JunScanSt) :
    Except PyErr JunScanSt := do
  let bi ← pyGetE bif_id (Int.ofNat ipoint)
  let bnext ← pyGetE bif_id (Int.ofNat ipoint + 1)
  if (bi = -1 ∧ bnext ≠ -1) ∨ (ipoint = 0 ∧ bi ≠ -1) then
    if dictGet st.juncts_inlets bnext = none then
      Except.ok { st with
        juncts_inlets := dictSet st.juncts_inlets bnext (Int.ofNat ipoint),
        jun_inlet_mask := st.jun_inlet_mask.set ipoint 1,
        jun_mask := st.jun_mask.set ipoint 1 }
    else
      Except.ok st
  else do
    let bprev ← pyGetE bif_id (Int.ofNat ipoint - 1)
    if bi ≠ -1 ∧ bprev ≠ -1 ∧ bprev ≠ bi then
      match dictGet st.juncts_inlets bprev with
      | some v => Except.ok { st with juncts_inlets := dictSet st.juncts_inlets bi v }
      | none => Except.error PyErr.keyError
    else if bi = -1 ∧ bprev ≠ -1 then
      match dictGet st.juncts_inlets bprev with
      | some v => Except.ok { st with
          jedges1 := st.jedges1 ++ [v],
          jedges2 := st.jedges2 ++ [Int.ofNat ipoint],
          jun_mask := st.jun_mask.set ipoint 1 }
      | none => Except.error PyErr.keyError
    else
      Except.ok st

/-- Result record of `create_junction_edges`. -/
structure JunctionOut where
  jedges1 : List ℤ
  jedges2 : List ℤ
  jrel_position : List Pt
  jdistance : List (WithTop ℚ)
  types : List ℤ
  mask_inlets : List ℤ
  mask_all : List ℤ
deriving DecidableEq, Repr

/-- Shallow embedding of `create_junction_edges` (lines 299-346): scan the
bifurcation-ID sequence recording junction inlets and emitting inlet-to-exit
edges, run Dijkstra from every recorded inlet, attach relative positions and
graph distances, then mirror every edge. -/
def create_junction_edges (elen : Pt → Pt → ℚ) (points : List Pt)
    (bif_id : List ℤ) (edges1 edges2 : List ℤ) : Except PyErr JunctionOut := do
  let npoints := bif_id.length
  let st0 : JunScanSt :=
    ⟨[], List.replicate npoints 0, List.replicate npoints 0, [], []⟩
  let st ← (List.range (npoints - 1)).foldlM
    (fun st ipoint => junScanStep bif_id ipoint st) st0
  let dists ← st.juncts_inlets.foldlM
    (fun (dists : List (ℤ × List (WithTop ℚ))) kv => do
      let dp ← dijkstra_algorithm elen points edges1 edges2 kv.2
      Except.ok (dictSetD dists kv.2 dp.1))
    ([] : List (ℤ × List (WithTop ℚ)))
  let feats ← mapE
    (fun iedg => do
      let a ← listGetE st.jedges1 iedg
      let b ← listGetE st.jedges2 iedg
      let pa ← pyGetE points a
      let pb ← pyGetE points b
      let da ← (match dictGetD dists a with
        | some d => Except.ok d
        | none => Except.error PyErr.keyError)
      let dv ← pyGetE da b
      Except.ok (ptSub pb pa, dv)) (List.range st.jedges1.length)
  let jrel := feats.map Prod.fst
  let jdist := feats.map Prod.snd
  let je1 := st.jedges1 ++ st.jedges2
  let je2 := st.jedges2 ++ st.jedges1
  let jrel2 := jrel ++ jrel.map ptNeg
  let jdist2 := jdist ++ jdist
  let types : List ℤ := List.replicate je1.length 3
  Except.ok ⟨je1, je2, jrel2, jdist2, types, st.jun_inlet_mask, st.jun_mask⟩

/-- Numbering dict of the partition BFS: association list, most recent
assignment first. -/
def dictGetN (d : List (ℤ × ℕ)) (k : ℤ) : Option ℕ :=
  (d.find? (fun kv => decide (kv.1 = k))).map Prod.snd

/-- State of the BFS of `create_partition` (lines 432-454). -/
structure BfsSt where
  sampling : List ℤ
  new_edges1 : List ℤ
  new_edges2 : List ℤ
  queue : List ℤ
  count : ℕ
  numbering : List (ℤ × ℕ)
deriving DecidableEq, Repr

/-- Expansion of one BFS node `j`: traverse every edge leaving `j` in edge-list
order (lines 443-452). -/
def bfsExpand (edges2 : List ℤ) (inlets : List ℤ) (j : ℤ) (iedges : List ℕ)
    (st : BfsSt) : Option BfsSt :=
  iedges.foldl
    (fun ost iedg => do
      let st ← ost
      let next ← edges2[iedg]?
      let numbering := (next, st.count) :: st.numbering
      let nj ← dictGetN numbering j
      let nn ← dictGetN numbering next
      some { st with
        sampling := st.sampling ++ [next],
        new_edges1 := st.new_edges1 ++ [Int.ofNat nj],
        new_edges2 := st.new_edges2 ++ [Int.ofNat nn],
        count := st.count + 1,
        numbering := numbering,
        queue := if next ∈ inlets then st.queue else st.queue ++ [next] })
    (some st)

/-- BFS main loop of `create_partition`, fuel-bounded (`none` doubles for both
a lookup failure and non-termination, which cannot occur on tree inputs). -/
def bfsLoop (edges1 edges2 : List ℤ) (inlets : List ℤ) :
    ℕ → BfsSt → Option BfsSt
  | 0, st => if st.queue.isEmpty then some st else none
  | fuel + 1, st =>
    match st.queue with
    | [] => some st
    | j :: rest => do
      let iedges := (List.range edges1.length).filter
        (fun k => decide (edges1[k]? = some j))
      let st2 ← bfsExpand edges2 inlets j iedges { st with queue := rest }
      bfsLoop edges1 edges2 inlets fuel st2

/-- Shallow embedding of the inner `create_partition` (lines 432-454): rooted
BFS following the directed edge list, stopping (but still recording) when
another chosen inlet is reached, with a fresh dense local numbering. -/
def create_partition (edges1 edges2 : List ℤ) (starting_point : ℤ)
    (inlets : List ℤ) (fuel : ℕ) : Option (List ℤ × List ℤ × List ℤ) := do
  let st0 : BfsSt := ⟨[starting_point], [], [], [starting_point], 1,
    [(starting_point, 0)]⟩
  let st ← bfsLoop edges1 edges2 inlets fuel st0
  some (st.new_edges1, st.new_edges2, st.sampling)

/-- `np.random.randint(low, high)` driven by an oracle value `r`: any element of
`[low, high)` is reachable by a suitable oracle; an empty range raises. -/
def randint (low high : ℤ) (r : ℕ) : Except PyErr ℤ :=
  if high ≤ low then Except.error PyErr.valueError
  else Except.ok (low + (Int.ofNat (r % (high - low).toNat)))

/-- The `while True` walk of the inlet-selection loop (lines 472-480): follow
the first out-edge until a leaf (returns `none`, Python `next == -1`) or a
junction-labelled point (returns that point). Fuel exhaustion, impossible on
tree inputs, is reported as a ValueError. -/
def inletWalk (bif_id edges1 edges2 : List ℤ) : ℕ → ℤ → Except PyErr (Option ℤ)
  | 0, _ => Except.error PyErr.valueError
  | fuel + 1, j =>
    match (List.range edges1.length).find? (fun k => decide (edges1[k]? = some j)) with
    | none => Except.ok none
    | some iedg => do
      let j2 ← listGetE edges2 iedg
      let bj ← pyGetE bif_id j2
      if bj ≠ -1 then Except.ok (some j2)
      else inletWalk bif_id edges1 edges2 fuel j2

/-- The root-selection loop of `create_partitions` (lines 459-482): scan points
in order, and after each junction-exit transition append one oracle-chosen point
strictly between the exit and the next junction entry, until
`max_num_partitions` roots are collected. Returns the chosen roots and the
number of oracle draws consumed. -/
def selectInletsLoop (bif_id edges1 edges2 : List ℤ) (maxp : ℕ) (orand : ℕ → ℕ)
    (wfuel : ℕ) : ℕ → ℕ → ℕ → List ℤ → Except PyErr (List ℤ × ℕ)
  | 0, _, c, inlets => Except.ok (inlets, c)
  | todo + 1, ipoint, c, inlets =>
    if inlets.length = maxp then Except.ok (inlets, c)
    else do
      let bi ← pyGetE bif_id (Int.ofNat ipoint)
      if bi ≠ -1 then do
        let bn ← pyGetE bif_id (Int.ofNat ipoint + 1)
        if bn = -1 then do
          let r ← inletWalk bif_id edges1 edges2 wfuel (Int.ofNat ipoint)
          match r with
          | some nxt => do
            let v ← randint (Int.ofNat ipoint + 1) nxt (orand c)
            selectInletsLoop bif_id edges1 edges2 maxp orand wfuel todo
              (ipoint + 1) (c + 1) (inlets ++ [v])
          | none =>
            selectInletsLoop bif_id edges1 edges2 maxp orand wfuel todo
              (ipoint + 1) c inlets
        else
          selectInletsLoop bif_id edges1 edges2 maxp orand wfuel todo
            (ipoint + 1) c inlets
      else
        selectInletsLoop bif_id edges1 edges2 maxp orand wfuel todo
          (ipoint + 1) c inlets

/-- `random.sample(pop, k)` driven by an oracle: draw `k` elements without
replacement, each draw indexing the remaining population by the oracle value;
raises when the population is exhausted early (Python raises when
`k > len(pop)`). -/
def pySample (osamp : ℕ → ℕ) : ℕ → List ℤ → ℕ → Except PyErr (List ℤ)
  | 0, _, _ => Except.ok []
  | k + 1, pop, c =>
    if pop.length = 0 then Except.error PyErr.valueError
    else do
      let i := osamp c % pop.length
      let x ← listGetE pop i
      let rest ← pySample osamp k (pop.eraseIdx i) (c + 1)
      Except.ok (x :: rest)

/-- One partition as assembled by `create_partitions` (the per-point field
arrays of `point_data` are sliced by the same `sampling` list as `pts` and are
not separately modelled). -/
structure PartOut where
  edges1 : List ℤ
  edges2 : List ℤ
  pts : List Pt
  sampling : List ℤ
deriving DecidableEq, Repr

/-- Shallow embedding of `create_partitions` (lines 429-509). In the script the
function's second parameter is the `point_data` dict and the bifurcation IDs are
re-read from the module-level `point_data` (line 456), which is the same object
at the single call site; the embedding therefore takes the bifurcation-ID array
directly. Randomness is an explicit oracle pair. -/
def create_partitions (points : List Pt) (bif_id : List ℤ)
    (edges1 edges2 : List ℤ) (max_num_partitions : ℕ) (orand osamp : ℕ → ℕ)
    (fuel : ℕ) : Except PyErr (List PartOut) := do
  let npoints := bif_id.length
  let sel ← selectInletsLoop bif_id edges1 edges2 max_num_partitions orand fuel
    npoints 0 0 [0]
  let inlets := sel.1
  let inlets ←
    if inlets.length < max_num_partitions then do
      let available := ((List.range npoints).filter
        (fun i => decide (bif_id[i]? = some (-1)))).map Int.ofNat
      let n_new := min (max_num_partitions - inlets.length) 2
      let extra ← pySample osamp n_new available 0
      Except.ok (inlets ++ extra)
    else Except.ok inlets
  let parts ← mapE (fun s => do
    match create_partition edges1 edges2 s inlets fuel with
    | some r => do
      let pts ← mapE (fun i => pyGetE points i) r.2.2
      Except.ok (⟨r.1, r.2.1, pts, r.2.2⟩ : PartOut)
    | none => Except.error PyErr.valueError) inlets
  Except.ok (parts.filter (fun p => decide (1 < p.edges1.length)))

/-- Result record of `add_fields`: the time-series tensor as its list of
per-timestep columns (`field_t[:, 0, k]`), and the per-point `dt` array. -/
structure FieldsOut where
  tensor : List (List ℚ)
  dt : List ℚ
deriving DecidableEq, Repr

/-- Insertion step of a sort; on rationals this agrees elementwise with
Python `list.sort()`. -/
def insertSorted (x : ℚ) : List ℚ → List ℚ
  | [] => [x]
  | y :: ys => if Rat.blt x y then x :: y :: ys else y :: insertSorted x ys

/-- `sorted(l)` for rational keys. -/
def pySorted (l : List ℚ) : List ℚ := l.foldr insertSorted []

/-- `l[::s]` for `s ≥ 1`. -/
def npSliceStep {α : Type} (l : List α) (s : ℕ) : List α :=
  (l.enum.filter (fun kx => decide (kx.1 % s = 0))).map Prod.snd

/-- Shallow embedding of `add_fields` (lines 85-103). `field` is the Python
dict in its iteration (= insertion) order, mapping a numeric timestep key to the
per-point value array; `num_nodes` is `graph.num_nodes()`. The attached tensor
is returned as `FieldsOut`. -/
def add_fields (field : List (ℚ × List ℚ)) (num_nodes : ℕ)
    (subsample_time : ℕ) : Except PyErr FieldsOut := do
  if subsample_time = 0 then throw PyErr.valueError
  let timesteps := pySorted (field.map Prod.fst)
  let t0 ← listGetE timesteps 0
  let t1 ← listGetE timesteps 1
  let dt := (t1 - t0) * (subsample_time : ℚ)
  let npoints ← (match field.head? with
    | some kv => Except.ok kv.2.length
    | none => Except.error PyErr.indexError)
  let cols ← mapE (fun kv =>
    if kv.2.length = npoints then Except.ok kv.2
    else Except.error PyErr.valueError) field
  Except.ok ⟨npSliceStep cols subsample_time, List.replicate num_nodes dt⟩

/-- Real Euclidean norm of a rational 3-vector, the idealization of
`np.linalg.norm`. -/
noncomputable def norm3 (v : Pt) : ℝ :=
  Real.sqrt ((v.1 : ℝ) ^ 2 + (v.2.1 : ℝ) ^ 2 + (v.2.2 : ℝ) ^ 2)

/-- Shallow embedding of `generate_edge_features` (lines 74-83): each edge's
relative position is divided by its Euclidean norm with no zero guard (in Lean
a zero norm yields the zero vector where numpy would produce NaNs), and the
norm itself is the per-edge distance. -/
noncomputable def generate_edge_features (points : List Pt)
    (edges1 edges2 : List ℤ) :
    Except PyErr (List (ℝ × ℝ × ℝ) × List ℝ) := do
  let l ← mapE (fun i => do
    let a ← listGetE edges1 i
    let b ← listGetE edges2 i
    let pa ← pyGetE points a
    let pb ← pyGetE points b
    let diff := ptSub pb pa
    let nd := norm3 diff
    Except.ok ((((diff.1 : ℝ) / nd, (diff.2.1 : ℝ) / nd, (diff.2.2 : ℝ) / nd)), nd))
    (List.range edges1.length)
  Except.ok (l.map Prod.fst, l.map Prod.snd)

/-- Kernel-computable minimum of two rationals (`np.min` of a pair). -/
def qmin (a b : ℚ) : ℚ := if Rat.blt b a then b else a

/-- Embedding of the driver's resampling retry loop (lines 538-551): each
attempt passes fresh copies of the original `points`, `edges1`, `edges2` but
the same `indices` object, which `resample_points` mutates in place; on
failure the keep fraction is doubled and capped at 1 and the loop retries. -/
def resampleRetry (elen : Pt → Pt → ℚ) (points0 : List Pt) (e10 e20 : List ℤ) :
    ℕ → ℚ → Indices → Option (ℚ × Indices × ResampleOut)
  | 0, _, _ => none
  | fuel + 1, perc, ind =>
    match resample_points elen points0 e10 e20 ind perc 3 with
    | (ind2, Except.ok r) => some (perc, ind2, r)
    | (ind2, Except.error _) =>
      resampleRetry elen points0 e10 e20 fuel (qmin (perc * 2) 1) ind2

/-! ### Generic lemmas about the embedded monadic combinators -/

@[simp] theorem ok_bind {α β : Type} (a : α) (f : α → Except PyErr β) :
    (Except.ok a >>= f) = f a := rfl

@[simp] theorem error_bind {α β : Type} (e : PyErr) (f : α → Except PyErr β) :
    ((Except.error e : Except PyErr α) >>= f) = Except.error e := rfl

@[simp] theorem pure_eq_ok {α : Type} (a : α) :
    (pure a : Except PyErr α) = Except.ok a := rfl

@[simp] theorem throw_eq_error {α : Type} (e : PyErr) :
    (throw e : Except PyErr α) = Except.error e := rfl

theorem pyGetE_some {α : Type} {l : List α} {i : ℤ} {x : α}
    (h : pyGet l i = some x) : pyGetE l i = Except.ok x := by
  simp [pyGetE, h]

theorem pyGetE_none {α : Type} {l : List α} {i : ℤ}
    (h : pyGet l i = none) : pyGetE l i = Except.error PyErr.indexError := by
  simp [pyGetE, h]

theorem listGetE_some {α : Type} {l : List α} {k : ℕ} {x : α}
    (h : l[k]? = some x) : listGetE l k = Except.ok x := by
  simp [listGetE, h]

theorem listGetE_none {α : Type} {l : List α} {k : ℕ}
    (h : l[k]? = none) : listGetE l k = Except.error PyErr.indexError := by
  simp [listGetE, h]

theorem mapE_ok_length {α β : Type} (f : α → Except PyErr β) :
    ∀ (l : List α) (r : List β), mapE f l = Except.ok r → r.length = l.length := by
  intro l
  induction l with
  | nil => intro r h; simp [mapE] at h; simp [← h]
  | cons x xs ih =>
    intro r h
    simp only [mapE] at h
    cases hx : f x with
    | error e => rw [hx] at h; simp at h
    | ok y =>
      rw [hx] at h
      simp only [ok_bind] at h
      cases hxs : mapE f xs with
      | error e => rw [hxs] at h; simp at h
      | ok ys =>
        rw [hxs] at h
        simp only [ok_bind, pure_eq_ok, Except.ok.injEq] at h
        subst h
        simp [ih ys hxs]

theorem mapE_ok_get {α β : Type} (f : α → Except PyErr β) :
    ∀ (l : List α) (r : List β), mapE f l = Except.ok r →
      ∀ (k : ℕ) (x : α), l[k]? = some x →
        ∃ y, f x = Except.ok y ∧ r[k]? = some y := by
  intro l
  induction l with
  | nil => intro r _ k x hx; simp at hx
  | cons a as ih =>
    intro r h k x hx
    simp only [mapE] at h
    cases ha : f a with
    | error e => rw [ha] at h; simp at h
    | ok y =>
      rw [ha] at h
      simp only [ok_bind] at h
      cases has : mapE f as with
      | error e => rw [has] at h; simp at h
      | ok ys =>
        rw [has] at h
        simp only [ok_bind, pure_eq_ok, Except.ok.injEq] at h
        subst h
        cases k with
        | zero =>
          simp only [List.getElem?_cons_zero, Option.some.injEq] at hx
          subst hx
          exact ⟨y, ha, by simp⟩
        | succ k =>
          simp only [List.getElem?_cons_succ] at hx ⊢
          exact ih ys has k x hx

theorem mapE_ok_mem {α β : Type} (f : α → Except PyErr β) :
    ∀ (l : List α) (r : List β), mapE f l = Except.ok r →
      ∀ y ∈ r, ∃ x ∈ l, f x = Except.ok y := by
  intro l
  induction l with
  | nil => intro r h y hy; simp [mapE] at h; subst h; simp at hy
  | cons a as ih =>
    intro r h y hy
    simp only [mapE] at h
    cases ha : f a with
    | error e => rw [ha] at h; simp at h
    | ok z =>
      rw [ha] at h
      simp only [ok_bind] at h
      cases has : mapE f as with
      | error e => rw [has] at h; simp at h
      | ok ys =>
        rw [has] at h
        simp only [ok_bind, pure_eq_ok, Except.ok.injEq] at h
        subst h
        rcases List.mem_cons.1 hy with rfl | hy2
        · exact ⟨a, List.mem_cons_self a as, ha⟩
        · rcases ih ys has y hy2 with ⟨x, hx, hfx⟩
          exact ⟨x, List.mem_cons_of_mem a hx, hfx⟩

theorem mapE_ok_eq_map {α β : Type} (f : α → Except PyErr β) (g : α → β)
    (hf : ∀ x y, f x = Except.ok y → y = g x) :
    ∀ (l : List α) (r : List β), mapE f l = Except.ok r → r = l.map g := by
  intro l
  induction l with
  | nil => intro r h; simp [mapE] at h; simp [← h]
  | cons a as ih =>
    intro r h
    simp only [mapE] at h
    cases ha : f a with
    | error e => rw [ha] at h; simp at h
    | ok y =>
      rw [ha] at h
      simp only [ok_bind] at h
      cases has : mapE f as with
      | error e => rw [has] at h; simp at h
      | ok ys =>
        rw [has] at h
        simp only [ok_bind, pure_eq_ok, Except.ok.injEq] at h
        subst h
        simp [List.map_cons, hf a y ha, ih ys has]

/-! ### Claim C9: `add_fields` time-slice ordering, length and `dt` -/

theorem filter_range_mod_length (s : ℕ) (hs : 0 < s) :
    ∀ L, ((List.range L).filter (fun k => decide (k % s = 0))).length =
      (L + s - 1) / s := by
  intro L
  induction L with
  | zero =>
    simp only [List.range_zero, List.filter_nil, List.length_nil, Nat.zero_add]
    symm
    apply Nat.div_eq_of_lt
    omega
  | succ L ih =>
    rw [List.range_succ, List.filter_append, List.length_append, ih]
    have harith : (L + 1 + s - 1) / s = (L + s - 1) / s +
        if s ∣ (L + s - 1 + 1) then 1 else 0 := by
      have h1 : L + 1 + s - 1 = (L + s - 1) + 1 := by omega
      rw [h1, Nat.succ_div]
    have h2 : L + s - 1 + 1 = L + s := by omega
    rw [h2] at harith
    have h3 : (s ∣ (L + s)) ↔ L % s = 0 := by
      rw [Nat.dvd_add_self_right]
      exact Nat.dvd_iff_mod_eq_zero
    rw [harith]
    by_cases hL : L % s = 0
    · simp [hL, h3.mpr hL, List.filter]
    · have : ¬ s ∣ (L + s) := fun hc => hL (h3.mp hc)
      simp [hL, this, List.filter]

theorem insertSorted_length (x : ℚ) :
    ∀ l : List ℚ, (insertSorted x l).length = l.length + 1 := by
  intro l
  induction l with
  | nil => rfl
  | cons y ys ih =>
    rw [insertSorted]
    by_cases h : Rat.blt x y
    · simp [h]
    · simp [h, ih]

theorem pySorted_length (l : List ℚ) : (pySorted l).length = l.length := by
  induction l with
  | nil => rfl
  | cons x xs ih =>
    rw [pySorted, List.foldr_cons, ← pySorted, insertSorted_length, ih]
    rfl

theorem npSliceStep_length {α : Type} (l : List α) (s : ℕ) (hs : 0 < s) :
    (npSliceStep l s).length = (l.length + s - 1) / s := by
  rw [npSliceStep, List.length_map, ← filter_range_mod_length s hs l.length]
  have h1 : (List.range l.length).filter (fun k => decide (k % s = 0)) =
      (l.enum.map Prod.fst).filter (fun k => decide (k % s = 0)) := by
    rw [List.enum_map_fst]
  rw [h1, List.filter_map, List.length_map]
  rfl

/-- Claim C9, counterexample: with the two-timestep field `{1.0: [10], 0.0: [20]}`
(in that iteration order) `add_fields` stacks the slices in iteration order,
`[[10], [20]]`, while the numerically sorted key order `0.0, 1.0` would give
`[[20], [10]]`; so the last-axis slices are not ordered by the sorted timestep
keys. -/
theorem add_fields_order_counterexample :
    add_fields [((1 : ℚ), [(10 : ℚ)]), (0, [20])] 1 1 =
      Except.ok ⟨[[10], [20]], [1]⟩ ∧
    pySorted ([((1 : ℚ), [(10 : ℚ)]), (0, [20])].map Prod.fst) = [0, 1] ∧
    ([[(10 : ℚ)], [20]] : List (List ℚ)) ≠ [[20], [10]] :=
  ⟨by with_unfolding_all rfl, by with_unfolding_all rfl, by decide⟩

/-- Claim C9, amended: for every field mapping with at least two timestep keys
for which `add_fields` succeeds, the attached tensor's last-axis slices are the
field values in the mapping's iteration (= insertion) order - not in sorted-key
order - subsampled by the subsampling factor; the last-axis length is the
subsampled timestep count, and the per-point constant `dt` equals the gap
between the first two numerically sorted timestep keys times the subsampling
factor. -/
theorem add_fields_amended (field : List (ℚ × List ℚ)) (n s : ℕ) (out : FieldsOut)
    (t0 t1 : ℚ) (rest : List ℚ)
    (hok : add_fields field n s = Except.ok out)
    (hsort : pySorted (field.map Prod.fst) = t0 :: t1 :: rest) :
    out.tensor = npSliceStep (field.map Prod.snd) s ∧
    out.tensor.length = (field.length + s - 1) / s ∧
    out.dt = List.replicate n ((t1 - t0) * (s : ℚ)) := by
  rw [add_fields] at hok
  by_cases hs0 : s = 0
  · rw [if_pos hs0] at hok
    simp at hok
  rw [if_neg hs0] at hok
  rw [hsort] at hok
  simp only [listGetE, List.getElem?_cons_zero, List.getElem?_cons_succ,
    ok_bind] at hok
  cases hf : field.head? with
  | none =>
    rw [List.head?_eq_none_iff] at hf
    subst hf
    simp [pySorted] at hsort
  | some kv =>
    rw [hf] at hok
    simp only [ok_bind] at hok
    cases hcols : mapE (fun kv2 =>
        if kv2.2.length = kv.2.length then Except.ok kv2.2
        else Except.error PyErr.valueError) field with
    | error e => rw [hcols] at hok; simp at hok
    | ok cols =>
      rw [hcols] at hok
      simp only [ok_bind, pure_eq_ok, Except.ok.injEq] at hok
      have hcmap : cols = field.map Prod.snd := by
        refine mapE_ok_eq_map _ Prod.snd ?_ field cols hcols
        intro x y hxy
        by_cases hx : x.2.length = kv.2.length
        · rw [if_pos hx] at hxy
          exact ((Except.ok.injEq _ _).mp hxy).symm
        · rw [if_neg hx] at hxy
          simp at hxy
      subst hok
      refine ⟨by rw [hcmap], ?_, rfl⟩
      simp only [hcmap]
      have hlen := npSliceStep_length (field.map Prod.snd) s
        (Nat.pos_of_ne_zero hs0)
      rw [List.length_map] at hlen
      simpa using hlen

/-! ### Claim C10: edge features have unit relative position and positive distance -/

/-- Real Euclidean norm of a real 3-vector. -/
noncomputable def norm3R (v : ℝ × ℝ × ℝ) : ℝ :=
  Real.sqrt (v.1 ^ 2 + v.2.1 ^ 2 + v.2.2 ^ 2)

theorem norm3_eq_norm3R (v : Pt) :
    norm3 v = norm3R ((v.1 : ℝ), (v.2.1 : ℝ), (v.2.2 : ℝ)) := rfl

theorem norm3_pos_of_ne {p q : Pt} (h : p ≠ q) : 0 < norm3 (ptSub q p) := by
  rw [norm3]
  apply Real.sqrt_pos.mpr
  have hne : ¬(q.1 - p.1 = 0 ∧ q.2.1 - p.2.1 = 0 ∧ q.2.2 - p.2.2 = 0) := by
    intro hc
    apply h
    have h1 : p.1 = q.1 := by linarith [hc.1]
    have h2 : p.2.1 = q.2.1 := by linarith [hc.2.1]
    have h3 : p.2.2 = q.2.2 := by linarith [hc.2.2]
    exact Prod.ext h1 (Prod.ext h2 h3)
  rcases not_and_or.mp hne with hx | hyz
  · have : ((ptSub q p).1 : ℝ) ≠ 0 := by
      simp only [ptSub]
      exact_mod_cast sub_ne_zero.mpr (fun hc => hx (by rw [hc]; ring))
    have h1 : 0 < ((ptSub q p).1 : ℝ) ^ 2 := pow_two_pos_of_ne_zero this
    have h2 : (0 : ℝ) ≤ ((ptSub q p).2.1 : ℝ) ^ 2 := sq_nonneg _
    have h3 : (0 : ℝ) ≤ ((ptSub q p).2.2 : ℝ) ^ 2 := sq_nonneg _
    linarith
  rcases not_and_or.mp hyz with hy | hz
  · have : ((ptSub q p).2.1 : ℝ) ≠ 0 := by
      simp only [ptSub]
      exact_mod_cast sub_ne_zero.mpr (fun hc => hy (by rw [hc]; ring))
    have h1 : 0 < ((ptSub q p).2.1 : ℝ) ^ 2 := pow_two_pos_of_ne_zero this
    have h2 : (0 : ℝ) ≤ ((ptSub q p).1 : ℝ) ^ 2 := sq_nonneg _
    have h3 : (0 : ℝ) ≤ ((ptSub q p).2.2 : ℝ) ^ 2 := sq_nonneg _
    linarith
  · have : ((ptSub q p).2.2 : ℝ) ≠ 0 := by
      simp only [ptSub]
      exact_mod_cast sub_ne_zero.mpr (fun hc => hz (by rw [hc]; ring))
    have h1 : 0 < ((ptSub q p).2.2 : ℝ) ^ 2 := pow_two_pos_of_ne_zero this
    have h2 : (0 : ℝ) ≤ ((ptSub q p).1 : ℝ) ^ 2 := sq_nonneg _
    have h3 : (0 : ℝ) ≤ ((ptSub q p).2.1 : ℝ) ^ 2 := sq_nonneg _
    linarith

theorem norm3R_div_self (v : Pt) (hpos : 0 < norm3 v) :
    norm3R (((v.1 : ℝ)) / norm3 v, ((v.2.1 : ℝ)) / norm3 v,
      ((v.2.2 : ℝ)) / norm3 v) = 1 := by
  have hS : (0 : ℝ) ≤ (v.1 : ℝ) ^ 2 + (v.2.1 : ℝ) ^ 2 + (v.2.2 : ℝ) ^ 2 := by
    have := sq_nonneg ((v.1 : ℝ))
    have := sq_nonneg ((v.2.1 : ℝ))
    have := sq_nonneg ((v.2.2 : ℝ))
    linarith
  have hsq : norm3 v ^ 2 = (v.1 : ℝ) ^ 2 + (v.2.1 : ℝ) ^ 2 + (v.2.2 : ℝ) ^ 2 :=
    Real.sq_sqrt hS
  have hne : norm3 v ≠ 0 := ne_of_gt hpos
  rw [norm3R]
  have harg : ((v.1 : ℝ) / norm3 v) ^ 2 + ((v.2.1 : ℝ) / norm3 v) ^ 2 +
      ((v.2.2 : ℝ) / norm3 v) ^ 2 = 1 := by
    rw [div_pow, div_pow, div_pow, div_add_div_same, div_add_div_same, ← hsq]
    exact div_self (pow_ne_zero 2 hne)
  rw [harg, Real.sqrt_one]

/-- Claim C10: `generate_edge_features` divides every relative position by its
Euclidean norm with no zero guard; when no edge joins two coincident points,
every returned relative-position vector has unit norm and every returned
distance is positive. -/
theorem edge_features_unit_norm (points : List Pt) (e1 e2 : List ℤ)
    (out : List (ℝ × ℝ × ℝ) × List ℝ)
    (hok : generate_edge_features points e1 e2 = Except.ok out)
    (hne : ∀ (k : ℕ) (a b : ℤ) (pa pb : Pt), e1[k]? = some a → e2[k]? = some b →
      pyGet points a = some pa → pyGet points b = some pb → pa ≠ pb) :
    (∀ r ∈ out.1, norm3R r = 1) ∧ (∀ d ∈ out.2, 0 < d) := by
  rw [generate_edge_features] at hok
  cases hl : mapE (fun i => do
      let a ← listGetE e1 i
      let b ← listGetE e2 i
      let pa ← pyGetE points a
      let pb ← pyGetE points b
      let diff := ptSub pb pa
      let nd := norm3 diff
      Except.ok ((((diff.1 : ℝ) / nd, (diff.2.1 : ℝ) / nd, (diff.2.2 : ℝ) / nd)), nd))
      (List.range e1.length) with
  | error e => rw [hl] at hok; simp at hok
  | ok l =>
    rw [hl] at hok
    simp only [ok_bind, Except.ok.injEq] at hok
    subst hok
    have key : ∀ pr ∈ l, norm3R pr.1 = 1 ∧ 0 < pr.2 := by
      intro pr hpr
      rcases mapE_ok_mem _ _ _ hl pr hpr with ⟨i, _, hfi⟩
      cases ha : e1[i]? with
      | none => rw [listGetE_none ha] at hfi; simp at hfi
      | some a =>
      rw [listGetE_some ha] at hfi
      simp only [ok_bind] at hfi
      cases hb : e2[i]? with
      | none => rw [listGetE_none hb] at hfi; simp at hfi
      | some b =>
      rw [listGetE_some hb] at hfi
      simp only [ok_bind] at hfi
      cases hpa : pyGet points a with
      | none => rw [pyGetE_none hpa] at hfi; simp at hfi
      | some pa =>
      rw [pyGetE_some hpa] at hfi
      simp only [ok_bind] at hfi
      cases hpb : pyGet points b with
      | none => rw [pyGetE_none hpb] at hfi; simp at hfi
      | some pb =>
        rw [pyGetE_some hpb] at hfi
        simp only [ok_bind, Except.ok.injEq] at hfi
        have hpq : pa ≠ pb := hne i a b pa pb ha hb hpa hpb
        have hpos : 0 < norm3 (ptSub pb pa) := norm3_pos_of_ne hpq
        rw [← hfi]
        exact ⟨norm3R_div_self (ptSub pb pa) hpos, hpos⟩
    constructor
    · intro r hr
      rcases List.mem_map.1 hr with ⟨pr, hpr, rfl⟩
      exact (key pr hpr).1
    · intro d hd
      rcases List.mem_map.1 hd with ⟨pr, hpr, rfl⟩
      exact (key pr hpr).2

/-- Witness for `edge_features_unit_norm` on a single nondegenerate edge. -/
theorem edge_features_unit_norm_witness :
    ∃ out, generate_edge_features [((0 : ℚ), (0 : ℚ), (0 : ℚ)), (1, 0, 0)]
        [0] [1] = Except.ok out ∧
      ((∀ r ∈ out.1, norm3R r = 1) ∧ (∀ d ∈ out.2, 0 < d)) := by
  cases hok : generate_edge_features [((0 : ℚ), (0 : ℚ), (0 : ℚ)), (1, 0, 0)] [0] [1] with
  | error e =>
    exfalso
    rw [generate_edge_features] at hok
    simp only [mapE, listGetE, pyGetE, pyGet] at hok
    simp at hok
  | ok out =>
    refine ⟨out, rfl, ?_⟩
    apply edge_features_unit_norm _ _ _ _ hok
    intro k a b pa pb ha hb hpa hpb
    have hk : k = 0 := by
      cases k with
      | zero => rfl
      | succ k => simp at ha
    subst hk
    simp only [List.getElem?_cons_zero, Option.some.injEq] at ha hb
    subst ha; subst hb
    rw [pyGet] at hpa hpb
    norm_num at hpa hpb
    rw [← hpa, ← hpb]
    decide

/-! ### Concrete fixtures: a 10-point collinear path -/

/-- Ten collinear points at integer abscissas (a straight centerline). -/
def pathPts10 : List Pt :=
  [((0 : ℚ), (0 : ℚ), (0 : ℚ)), (1, 0, 0), (2, 0, 0), (3, 0, 0), (4, 0, 0),
   (5, 0, 0), (6, 0, 0), (7, 0, 0), (8, 0, 0), (9, 0, 0)]

/-- Source endpoints of the path edges `i -> i+1`. -/
def pathE1 : List ℤ := [0, 1, 2, 3, 4, 5, 6, 7, 8]

/-- Destination endpoints of the path edges `i -> i+1`. -/
def pathE2 : List ℤ := [1, 2, 3, 4, 5, 6, 7, 8, 9]

/-! ### Claim C1 (counterexample part): resampled point count -/

/-- Claim C1, counterexample: on 10 collinear points with `keep_fraction = 1/4`
and `remove_caps = 0`, `resample_points` keeps `int(10 * 1/4) = 2` points, while
the claimed count is `10 - floor(10 * (1 - 1/4)) = 3`. -/
theorem resample_count_counterexample :
    ∃ r, (resample_points axisLen pathPts10 pathE1 pathE2
        ⟨[0], [9]⟩ (1 / 4) 0).2 = Except.ok r ∧
      r.pts.length = 2 ∧
      (2 : ℕ) ≠ 10 - (⌊(10 : ℚ) * (1 - 1 / 4)⌋).toNat :=
  ⟨⟨[0, 9], [(0, 0, 0), (9, 0, 0)], [0], [1]⟩,
   by with_unfolding_all rfl, by with_unfolding_all rfl,
   by with_unfolding_all decide⟩

/-! ### Claim C2 (counterexample part): collapse direction -/

/-- Claim C2, counterexample: 3 collinear points `0, 1, 3` on a path, one
decimation step. The minimum-length edge is `(0, 1)` and its destination `1` is
not a protected outlet; the claim then says the source `0` is merged into the
destination `1` (so `0` is removed), but the code deletes the destination `1`
and rewrites references to the source `0`: the surviving original indices are
`[0, 2]`, not `[1, 2]`. -/
theorem resample_direction_counterexample :
    ∃ r, (resample_points axisLen [((0 : ℚ), (0 : ℚ), (0 : ℚ)), (1, 0, 0), (3, 0, 0)]
        [0, 1] [1, 2] ⟨[0], [2]⟩ (2 / 3) 0).2 = Except.ok r ∧
      r.sampled = [0, 2] ∧ r.sampled ≠ [1, 2] :=
  ⟨⟨[0, 2], [(0, 0, 0), (3, 0, 0)], [0], [1]⟩,
   by with_unfolding_all rfl, by with_unfolding_all rfl,
   by with_unfolding_all decide⟩

/-! ### Shared characterization of one decimation step -/

theorem firstIdx_some_spec {α : Type} (p : α → Bool) :
    ∀ (l : List α) (k : ℕ), firstIdx p l = some k →
      k < l.length ∧ (∃ x, l[k]? = some x ∧ p x = true) ∧
      (∀ j < k, ∃ y, l[j]? = some y ∧ p y = false) := by
  intro l
  induction l with
  | nil => intro k h; rw [firstIdx] at h; exact Option.noConfusion h
  | cons x xs ih =>
    intro k h
    rw [firstIdx] at h
    by_cases hx : p x
    · rw [if_pos hx] at h
      cases h
      exact ⟨Nat.succ_pos _, ⟨x, by simp, hx⟩, fun j hj => absurd hj (Nat.not_lt_zero j)⟩
    · rw [if_neg hx] at h
      cases hk : firstIdx p xs with
      | none => rw [hk] at h; simp at h
      | some k2 =>
        rw [hk] at h
        simp at h
        subst h
        obtain ⟨hlt, ⟨y, hy, hpy⟩, hbefore⟩ := ih k2 hk
        refine ⟨by simpa using Nat.succ_lt_succ hlt, ⟨y, by simpa using hy, hpy⟩, ?_⟩
        intro j hj
        cases j with
        | zero => exact ⟨x, by simp, by simpa using hx⟩
        | succ j =>
          obtain ⟨z, hz, hpz⟩ := hbefore j (by omega)
          exact ⟨z, by simpa using hz, hpz⟩

theorem foldl_min_le_init :
    ∀ (l : List (WithTop ℚ)) (init : WithTop ℚ), l.foldl min init ≤ init := by
  intro l
  induction l with
  | nil => intro init; exact le_refl _
  | cons x xs ih =>
    intro init
    rw [List.foldl_cons]
    exact le_trans (ih (min init x)) (min_le_left _ _)

theorem foldl_min_le_mem :
    ∀ (l : List (WithTop ℚ)) (init x : WithTop ℚ), x ∈ l → l.foldl min init ≤ x := by
  intro l
  induction l with
  | nil => intro init x hx; simp at hx
  | cons y ys ih =>
    intro init x hx
    rw [List.foldl_cons]
    rcases List.mem_cons.1 hx with rfl | hmem
    · exact le_trans (foldl_min_le_init ys (min init x)) (min_le_right _ _)
    · exact ih (min init y) x hmem

theorem foldl_min_cases :
    ∀ (l : List (WithTop ℚ)) (init : WithTop ℚ),
      l.foldl min init = init ∨ l.foldl min init ∈ l := by
  intro l
  induction l with
  | nil => intro init; exact Or.inl rfl
  | cons x xs ih =>
    intro init
    rw [List.foldl_cons]
    rcases ih (min init x) with h | h
    · rcases min_choice init x with hm | hm
      · exact Or.inl (h.trans hm)
      · refine Or.inr ?_
        rw [h.trans hm]
        exact List.mem_cons_self x xs
    · exact Or.inr (List.mem_cons_of_mem x h)

theorem edgeDiffs_ok_spec (elen : Pt → Pt → ℚ) (points : List Pt)
    (e1 e2 : List ℤ) (diffs : List ℚ)
    (h : edgeDiffs elen points e1 e2 = Except.ok diffs) :
    diffs.length = e1.length ∧
    ∀ k < e1.length, ∃ (a b : ℤ) (pa pb : Pt),
      e1[k]? = some a ∧ e2[k]? = some b ∧ pyGet points a = some pa ∧
      pyGet points b = some pb ∧ diffs[k]? = some (elen pa pb) := by
  rw [edgeDiffs] at h
  have hlen := mapE_ok_length _ _ _ h
  rw [List.length_range] at hlen
  refine ⟨hlen, ?_⟩
  intro k hk
  obtain ⟨y, hy, hry⟩ := mapE_ok_get _ _ _ h k k (List.getElem?_range hk)
  cases ha : e1[k]? with
  | none => rw [listGetE_none ha] at hy; simp at hy
  | some a =>
  rw [listGetE_some ha] at hy
  simp only [ok_bind] at hy
  cases hb : e2[k]? with
  | none => rw [listGetE_none hb] at hy; simp at hy
  | some b =>
  rw [listGetE_some hb] at hy
  simp only [ok_bind] at hy
  cases hpa : pyGet points a with
  | none => rw [pyGetE_none hpa] at hy; simp at hy
  | some pa =>
  rw [pyGetE_some hpa] at hy
  simp only [ok_bind] at hy
  cases hpb : pyGet points b with
  | none => rw [pyGetE_none hpb] at hy; simp at hy
  | some pb =>
    rw [pyGetE_some hpb] at hy
    simp only [ok_bind, pure_eq_ok, Except.ok.injEq] at hy
    exact ⟨a, b, pa, pb, rfl, rfl, hpa, hpb, by rw [hry, hy]⟩

/-- The masking function of the decimation loop:
`diff[np.where(diff < 1e-13)[0]] = np.inf`. -/
def maskLen (d : ℚ) : WithTop ℚ :=
  if d < eps13 then (⊤ : WithTop ℚ) else (d : WithTop ℚ)

theorem tolPred_coe_top (m : ℚ) : tolPred (m : WithTop ℚ) ⊤ = false := rfl

theorem tolPred_coe_coe (m q : ℚ) :
    tolPred (m : WithTop ℚ) (q : WithTop ℚ) = decide (qabs (q - m) < eps12) := rfl

theorem tolPred_top (d : WithTop ℚ) : tolPred ⊤ d = false := by
  cases d with
  | top => rfl
  | coe q => rfl

/-- Inversion of one successful decimation step, characterizing it
declaratively: the first edge of current length at least `1e-13` and within
`1e-12` of the minimum such length is collapsed; the deleted point is the
edge's destination (and references are rewritten to its source) unless the
destination is a protected outlet, in which case the source is deleted. -/
theorem decimStep_spec (elen : Pt → Pt → ℚ) (points : List Pt) (outl : List ℤ)
    (st st2 : DecimState) (h : decimStep elen points outl st = Except.ok st2) :
    ∃ (diffs : List ℚ) (m : ℚ) (mind : ℕ) (a b : ℤ),
      edgeDiffs elen points st.edges1 st.edges2 = Except.ok diffs ∧
      m ∈ diffs ∧ eps13 ≤ m ∧ (∀ d ∈ diffs, eps13 ≤ d → m ≤ d) ∧
      mind < diffs.length ∧
      (∃ dm, diffs[mind]? = some dm ∧ eps13 ≤ dm ∧ qabs (dm - m) < eps12) ∧
      (∀ j < mind, ∀ dj, diffs[j]? = some dj →
        ¬(eps13 ≤ dj ∧ qabs (dj - m) < eps12)) ∧
      st.edges1[mind]? = some a ∧ st.edges2[mind]? = some b ∧
      st2.edges1 = (modify_edges st.edges1 st.edges2
        (if b ∈ outl then a else b) (if b ∈ outl then b else a)).1 ∧
      st2.edges2 = (modify_edges st.edges1 st.edges2
        (if b ∈ outl then a else b) (if b ∈ outl then b else a)).2 ∧
      st2.dels = st.dels ++ [if b ∈ outl then a else b] ∧
      st2.reps = st.reps ++ [if b ∈ outl then b else a] := by
  rw [decimStep] at h
  cases hd : edgeDiffs elen points st.edges1 st.edges2 with
  | error e => rw [hd] at h; simp at h
  | ok diffs =>
  rw [hd] at h
  simp only [ok_bind] at h
  rw [npMinInf] at h
  by_cases hemp : (diffs.map (fun d => if d < eps13 then (⊤ : WithTop ℚ) else (d : WithTop ℚ))).isEmpty
  · rw [if_pos hemp] at h; simp at h
  rw [if_neg hemp] at h
  simp only [ok_bind] at h
  set masked := diffs.map (fun d => if d < eps13 then (⊤ : WithTop ℚ) else (d : WithTop ℚ)) with hmasked
  cases hfi : firstIdx (tolPred (masked.foldl min ⊤)) masked with
  | none => rw [hfi] at h; simp at h
  | some mind =>
  rw [hfi] at h
  simp only [ok_bind] at h
  obtain ⟨hmlt, ⟨dmm, hdm, hpdm⟩, hbefore⟩ := firstIdx_some_spec _ masked mind hfi
  -- the selected entry is finite, so the fold minimum is finite too
  have hmd_ne_top : masked.foldl min ⊤ ≠ ⊤ := by
    intro htop
    rw [htop, tolPred_top] at hpdm
    exact Bool.false_ne_true hpdm
  obtain ⟨m, hm⟩ : ∃ m : ℚ, masked.foldl min ⊤ = (m : WithTop ℚ) := by
    cases hmm : masked.foldl min ⊤ with
    | top => exact absurd hmm hmd_ne_top
    | coe m => exact ⟨m, rfl⟩
  -- the minimum is attained at some unmasked entry
  have hmem : (masked.foldl min ⊤) ∈ masked := by
    rcases foldl_min_cases masked ⊤ with hc | hc
    · exact absurd hc hmd_ne_top
    · exact hc
  rw [hm] at hmem
  obtain ⟨dmin, hdmin_mem, hdmin_eq⟩ := List.mem_map.1 hmem
  have hdmin : dmin = m ∧ eps13 ≤ dmin := by
    by_cases hlt : dmin < eps13
    · rw [if_pos hlt] at hdmin_eq; exact absurd hdmin_eq (by simp)
    · rw [if_neg hlt] at hdmin_eq
      exact ⟨by exact_mod_cast hdmin_eq, le_of_not_lt hlt⟩
  -- lower bound property of the fold minimum
  have hlb : ∀ d ∈ diffs, eps13 ≤ d → m ≤ d := by
    intro d hdmem hd13
    have hin : (d : WithTop ℚ) ∈ masked := by
      rw [hmasked]
      refine List.mem_map.2 ⟨d, hdmem, ?_⟩
      rw [if_neg (not_lt_of_le hd13)]
    have := foldl_min_le_mem masked ⊤ _ hin
    rw [hm] at this
    exact_mod_cast this
  -- the selected entry in terms of diffs
  have hmlen : masked.length = diffs.length := by rw [hmasked, List.length_map]
  obtain ⟨dm, hdm_diffs, hdm_masked⟩ :
      ∃ dm, diffs[mind]? = some dm ∧
        (if dm < eps13 then (⊤ : WithTop ℚ) else (dm : WithTop ℚ)) = dmm := by
    have hmindlt : mind < diffs.length := by rw [← hmlen]; exact hmlt
    cases hdd : diffs[mind]? with
    | none => rw [List.getElem?_eq_none_iff] at hdd; omega
    | some dm =>
      refine ⟨dm, rfl, ?_⟩
      rw [hmasked] at hdm
      rw [List.getElem?_map, hdd] at hdm
      simpa using hdm
  have hdm_props : eps13 ≤ dm ∧ qabs (dm - m) < eps12 := by
    by_cases hlt : dm < eps13
    · rw [if_pos hlt] at hdm_masked
      rw [← hdm_masked, hm, tolPred_coe_top] at hpdm
      exact absurd hpdm (by simp)
    · rw [if_neg hlt] at hdm_masked
      rw [← hdm_masked, hm, tolPred_coe_coe] at hpdm
      exact ⟨le_of_not_lt hlt, of_decide_eq_true hpdm⟩
  -- edges lookups succeed
  cases ha : st.edges1[mind]? with
  | none => rw [listGetE_none ha] at h; simp at h
  | some a =>
  rw [listGetE_some ha] at h
  simp only [ok_bind] at h
  cases hb : st.edges2[mind]? with
  | none => rw [listGetE_none hb] at h; simp at h
  | some b =>
  rw [listGetE_some hb] at h
  simp only [ok_bind, Except.ok.injEq] at h
  have hmem_m : m ∈ diffs := hdmin.1 ▸ hdmin_mem
  have hm13 : eps13 ≤ m := hdmin.1 ▸ hdmin.2
  have hfirst : ∀ j < mind, ∀ dj, diffs[j]? = some dj →
      ¬(eps13 ≤ dj ∧ qabs (dj - m) < eps12) := by
    intro j hj dj hdj hc
    obtain ⟨y, hy, hpy⟩ := hbefore j hj
    rw [hmasked, List.getElem?_map, hdj] at hy
    simp at hy
    rw [← hy, hm] at hpy
    by_cases hlt : dj < eps13
    · exact absurd hc.1 (not_le_of_lt hlt)
    · rw [if_neg hlt, tolPred_coe_coe] at hpy
      rw [decide_eq_false_iff_not] at hpy
      exact hpy hc.2
  refine ⟨diffs, m, mind, a, b, rfl, hmem_m, hm13, hlb,
    by rw [← hmlen]; exact hmlt, ⟨dm, hdm_diffs, hdm_props.1, hdm_props.2⟩,
    hfirst, ha, hb, ?_, ?_, ?_, ?_⟩
  · rw [← h]
  · rw [← h]
  · rw [← h]
  · rw [← h]

/-! ### Counting deleted positions -/

theorem filter_length_partition {α : Type} (p : α → Bool) :
    ∀ l : List α,
      (l.filter p).length + (l.filter (fun a => !(p a))).length = l.length := by
  intro l
  induction l with
  | nil => rfl
  | cons x xs ih =>
    cases hx : p x
    · simp [List.filter_cons, hx]
      omega
    · simp [List.filter_cons, hx]
      omega

theorem npDeletePos_length {α : Type} (l : List α) (ps : List ℕ)
    (hnd : ps.Nodup) (hlt : ∀ p ∈ ps, p < l.length) :
    (npDeletePos l ps).length = l.length - ps.length := by
  have h1 : (npDeletePos l ps).length =
      ((List.range l.length).filter (fun k => decide (k ∉ ps))).length := by
    rw [npDeletePos, List.length_map]
    have h2 : (List.range l.length).filter (fun k => decide (k ∉ ps)) =
        (l.enum.map Prod.fst).filter (fun k => decide (k ∉ ps)) := by
      rw [List.enum_map_fst]
    rw [h2, List.filter_map, List.length_map]
    rfl
  have h4 : ((List.range l.length).filter (fun k => decide (k ∈ ps))).length =
      ps.length := by
    apply List.Perm.length_eq
    refine (List.perm_ext_iff_of_nodup ((List.nodup_range _).filter _) hnd).mpr ?_
    intro a
    simp only [List.mem_filter, List.mem_range, decide_eq_true_eq]
    constructor
    · exact fun h => h.2
    · exact fun h => ⟨hlt a h, h⟩
  have h3 := filter_length_partition (fun k => decide (k ∈ ps)) (List.range l.length)
  rw [h4] at h3
  have h5 : (List.range l.length).filter (fun k => !(decide (k ∈ ps))) =
      (List.range l.length).filter (fun k => decide (k ∉ ps)) := by
    apply List.filter_congr
    intro k _
    simp
  rw [h5] at h3
  rw [List.length_range] at h3
  rw [h1]
  omega

theorem mapE_eq_ok_of_forall {α β : Type} (f : α → Except PyErr β) (g : α → β) :
    ∀ l : List α, (∀ x ∈ l, f x = Except.ok (g x)) →
      mapE f l = Except.ok (l.map g) := by
  intro l
  induction l with
  | nil => intro _; rfl
  | cons x xs ih =>
    intro hall
    rw [mapE, hall x (List.mem_cons_self x xs), ok_bind,
      ih (fun y hy => hall y (List.mem_cons_of_mem x hy)), ok_bind]
    rfl

theorem npDeleteIdx_ok_length {α : Type} (l : List α) (dels : List ℤ)
    (res : List α) (hnd : dels.Nodup)
    (hbd : ∀ d ∈ dels, 0 ≤ d ∧ d < (l.length : ℤ))
    (h : npDeleteIdx l dels = Except.ok res) :
    res.length = l.length - dels.length := by
  have hm : mapE (fun i =>
      match npNormIdx l.length i with
      | some p => Except.ok p
      | none => Except.error PyErr.indexError) dels =
      Except.ok (dels.map Int.toNat) := by
    apply mapE_eq_ok_of_forall
    intro d hd
    have hb := hbd d hd
    rw [npNormIdx, if_pos ⟨hb.1, hb.2⟩]
  rw [npDeleteIdx, hm, ok_bind, Except.ok.injEq] at h
  subst h
  rw [npDeletePos_length l _ ?_ ?_, List.length_map]
  · refine List.Nodup.map_on ?_ hnd
    intro x hx y hy hxy
    have hbx := hbd x hx
    have hby := hbd y hy
    omega
  · intro p hp
    rcases List.mem_map.1 hp with ⟨d, hd, rfl⟩
    have hb := hbd d hd
    omega

/-! ### The decimation-loop invariant -/

/-- Invariant of the decimation loop: every edge endpoint is an original point
index and no already-deleted point is referenced by any edge; deleted indices
are pairwise distinct in-range points. -/
def EdgeInv (N : ℕ) (dels e1 e2 : List ℤ) : Prop :=
  (∀ x ∈ e1, 0 ≤ x ∧ x < (N : ℤ) ∧ x ∉ dels) ∧
  (∀ x ∈ e2, 0 ≤ x ∧ x < (N : ℤ) ∧ x ∉ dels) ∧
  dels.Nodup ∧ (∀ d ∈ dels, 0 ≤ d ∧ d < (N : ℤ))

theorem mem_of_getElem?_eq_some {α : Type} {l : List α} {k : ℕ} {x : α}
    (h : l[k]? = some x) : x ∈ l := by
  rcases List.getElem?_eq_some.mp h with ⟨hk, he⟩
  exact he ▸ List.getElem_mem hk

theorem eps13_pos : 0 < eps13 := by rw [eps13]; norm_num

theorem decimStep_invariant (elen : Pt → Pt → ℚ) (points : List Pt)
    (outl : List ℤ) (st st2 : DecimState)
    (hlen0 : ∀ p : Pt, elen p p = 0)
    (h : decimStep elen points outl st = Except.ok st2)
    (hinv : EdgeInv points.length st.dels st.edges1 st.edges2) :
    EdgeInv points.length st2.dels st2.edges1 st2.edges2 ∧
    st2.dels.length = st.dels.length + 1 := by
  obtain ⟨diffs, m, mind, a, b, hd, _, _, _, hmlt, ⟨dm, hdm, hdm13, _⟩, _,
    ha, hb, he1, he2, hdels, hreps⟩ := decimStep_spec elen points outl st st2 h
  obtain ⟨hdlen, hdget⟩ := edgeDiffs_ok_spec elen points st.edges1 st.edges2 diffs hd
  obtain ⟨a2, b2, pa, pb, ha2, hb2, hpa, hpb, hdm2⟩ :=
    hdget mind (by rw [← hdlen]; exact hmlt)
  rw [ha] at ha2
  rw [hb] at hb2
  cases ha2
  cases hb2
  rw [hdm] at hdm2
  have hdm_eq : dm = elen pa pb := by
    simpa using hdm2
  have hab : a ≠ b := by
    intro hc
    subst hc
    rw [hpa] at hpb
    cases hpb
    rw [hdm_eq, hlen0 pa] at hdm13
    exact absurd (lt_of_lt_of_le eps13_pos hdm13) (lt_irrefl 0)
  have hamem := hinv.1 a (mem_of_getElem?_eq_some ha)
  have hbmem := hinv.2.1 b (mem_of_getElem?_eq_some hb)
  set dl := if b ∈ outl then a else b with hdl
  set rp := if b ∈ outl then b else a with hrp
  have hdl_facts : 0 ≤ dl ∧ dl < (points.length : ℤ) ∧ dl ∉ st.dels := by
    rw [hdl]; by_cases hbo : b ∈ outl
    · simp only [if_pos hbo]; exact hamem
    · simp only [if_neg hbo]; exact hbmem
  have hrp_facts : 0 ≤ rp ∧ rp < (points.length : ℤ) ∧ rp ∉ st.dels := by
    rw [hrp]; by_cases hbo : b ∈ outl
    · simp only [if_pos hbo]; exact hbmem
    · simp only [if_neg hbo]; exact hamem
  have hdlrp : rp ≠ dl := by
    rw [hdl, hrp]; by_cases hbo : b ∈ outl
    · simp only [if_pos hbo]; exact fun hc => hab hc.symm
    · simp only [if_neg hbo]; exact hab
  have hmap : ∀ (l : List ℤ), (∀ x ∈ l, 0 ≤ x ∧ x < (points.length : ℤ) ∧ x ∉ st.dels) →
      ∀ y ∈ l.map (fun x => if x = dl then rp else x),
        0 ≤ y ∧ y < (points.length : ℤ) ∧ y ∉ (st.dels ++ [dl]) := by
    intro l hl y hy
    rcases List.mem_map.1 hy with ⟨x, hx, rfl⟩
    by_cases hxd : x = dl
    · simp only [if_pos hxd]
      refine ⟨hrp_facts.1, hrp_facts.2.1, ?_⟩
      rw [List.mem_append]
      rintro (hc | hc)
      · exact hrp_facts.2.2 hc
      · simp only [List.mem_singleton] at hc
        exact hdlrp hc
    · simp only [if_neg hxd]
      have := hl x hx
      refine ⟨this.1, this.2.1, ?_⟩
      rw [List.mem_append]
      rintro (hc | hc)
      · exact this.2.2 hc
      · simp only [List.mem_singleton] at hc
        exact hxd hc
  constructor
  · refine ⟨?_, ?_, ?_, ?_⟩
    · rw [he1, hdels]
      exact hmap st.edges1 hinv.1
    · rw [he2, hdels]
      exact hmap st.edges2 hinv.2.1
    · rw [hdels]
      rw [List.nodup_append]
      exact ⟨hinv.2.2.1, List.nodup_singleton dl,
        fun x hx hc => by
          simp only [List.mem_singleton] at hc
          exact absurd (hc ▸ hx) hdl_facts.2.2⟩
    · rw [hdels]
      intro d hdmem
      rw [List.mem_append] at hdmem
      rcases hdmem with hc | hc
      · exact hinv.2.2.2 d hc
      · simp only [List.mem_singleton] at hc
        subst hc
        exact ⟨hdl_facts.1, hdl_facts.2.1⟩
  · rw [hdels, List.length_append, List.length_singleton]

theorem decimLoop_invariant (elen : Pt → Pt → ℚ) (points : List Pt)
    (outl : List ℤ) (hlen0 : ∀ p : Pt, elen p p = 0) :
    ∀ (fuel : ℕ) (st st2 : DecimState),
      decimLoop elen points outl fuel st = Except.ok st2 →
      EdgeInv points.length st.dels st.edges1 st.edges2 →
      EdgeInv points.length st2.dels st2.edges1 st2.edges2 ∧
      st2.dels.length = st.dels.length + fuel := by
  intro fuel
  induction fuel with
  | zero =>
    intro st st2 h hinv
    rw [decimLoop, Except.ok.injEq] at h
    subst h
    exact ⟨hinv, rfl⟩
  | succ fuel ih =>
    intro st st2 h hinv
    rw [decimLoop] at h
    cases hstep : decimStep elen points outl st with
    | error e => rw [hstep] at h; simp at h
    | ok stMid =>
      rw [hstep] at h
      simp only [ok_bind] at h
      obtain ⟨hinvMid, hlenMid⟩ :=
        decimStep_invariant elen points outl st stMid hlen0 hstep hinv
      obtain ⟨hinv2, hlen2⟩ := ih stMid st2 h hinvMid
      exact ⟨hinv2, by omega⟩

/-- Claim C1, amended: for every point set of size `N`, valid edge list, and
`keep_fraction` in `(0, 1]`, a successful `resample_points` run with
`remove_caps = 0` returns a point set whose count equals
`floor(N * keep_fraction)` - that is, `N` minus the `N - floor(N * keep_fraction)`
decimation removals - rather than `N - floor(N * (1 - keep_fraction))`; cap
removal deletes further points. -/
theorem resample_count_amended (elen : Pt → Pt → ℚ) (points : List Pt)
    (e1 e2 : List ℤ) (ind : Indices) (kf : ℚ) (ind2 : Indices)
    (out : ResampleOut)
    (hlen0 : ∀ p : Pt, elen p p = 0)
    (hb1 : ∀ x ∈ e1, 0 ≤ x ∧ x < (points.length : ℤ))
    (hb2 : ∀ x ∈ e2, 0 ≤ x ∧ x < (points.length : ℤ))
    (hkf0 : 0 < kf) (hkf1 : kf ≤ 1)
    (hok : resample_points elen points e1 e2 ind kf 0 = (ind2, Except.ok out)) :
    out.pts.length = (⌊(points.length : ℚ) * kf⌋).toNat := by
  have hres : (resample_points elen points e1 e2 ind kf 0).2 = Except.ok out := by
    rw [hok]
  rw [resample_points] at hres
  simp only at hres
  set N := points.length with hN
  set fuel := ((N : ℤ) - pyInt ((N : ℚ) * kf)).toNat with hfuel
  cases hloop : decimLoop elen points (ind.outlets.map (fun o => o - Int.ofNat 0))
      fuel ⟨(capRemoval ind 0 e1 e2).edges1, (capRemoval ind 0 e1 e2).edges2,
        (capRemoval ind 0 e1 e2).dels, (capRemoval ind 0 e1 e2).reps⟩ with
  | error e => rw [hloop] at hres; simp at hres
  | ok st =>
    rw [hloop] at hres
    simp only [ok_bind] at hres
    have hcap : capRemoval ind 0 e1 e2 = ⟨e1, e2, [], []⟩ := rfl
    rw [hcap] at hloop
    have hst0 : (⟨(⟨e1, e2, [], []⟩ : CapState).edges1,
        (⟨e1, e2, [], []⟩ : CapState).edges2, (⟨e1, e2, [], []⟩ : CapState).dels,
        (⟨e1, e2, [], []⟩ : CapState).reps⟩ : DecimState) = ⟨e1, e2, [], []⟩ := rfl
    rw [hst0] at hloop
    obtain ⟨hinv, hlen⟩ := decimLoop_invariant elen points _ hlen0 fuel _ st hloop
      ⟨fun x hx => ⟨(hb1 x hx).1, (hb1 x hx).2, List.not_mem_nil x⟩,
       fun x hx => ⟨(hb2 x hx).1, (hb2 x hx).2, List.not_mem_nil x⟩,
       List.nodup_nil, fun d hd => absurd hd (List.not_mem_nil d)⟩
    cases hrp : remove_points st.dels st.reps st.edges1 st.edges2 N with
    | error e => rw [hrp] at hres; simp at hres
    | ok r =>
      rw [hrp] at hres
      simp only [ok_bind] at hres
      cases hdel : npDeleteIdx points st.dels with
      | error e => rw [hdel] at hres; simp at hres
      | ok pts =>
        rw [hdel] at hres
        simp only [ok_bind, Except.ok.injEq] at hres
        have hpts : out.pts = pts := by rw [← hres]
        have hptslen := npDeleteIdx_ok_length points st.dels pts
          hinv.2.2.1 hinv.2.2.2 hdel
        rw [hpts, hptslen, hlen]
        simp only [List.length_nil, Nat.zero_add]
        have hnn : (0 : ℚ) ≤ (N : ℚ) * kf :=
          mul_nonneg (Nat.cast_nonneg N) (le_of_lt hkf0)
        have hpy : pyInt ((N : ℚ) * kf) = ⌊(N : ℚ) * kf⌋ := pyInt_of_nonneg hnn
        have hfl0 : 0 ≤ ⌊(N : ℚ) * kf⌋ := Int.floor_nonneg.mpr hnn
        have hflN : ⌊(N : ℚ) * kf⌋ ≤ (N : ℤ) := by
          have hle : (N : ℚ) * kf ≤ (N : ℚ) :=
            mul_le_of_le_one_right (Nat.cast_nonneg N) hkf1
          have := Int.floor_le_floor hle
          rw [Int.floor_natCast] at this
          exact this
        rw [hfuel, hpy]
        omega

/-- Witness for `resample_count_amended`: 10 collinear points at
`keep_fraction = 1/4` resample to `floor(10/4) = 2` points. -/
theorem resample_count_amended_witness :
    (⟨[0, 9], [((0 : ℚ), (0 : ℚ), (0 : ℚ)), (9, 0, 0)], [0], [1]⟩ : ResampleOut).pts.length =
      (⌊(pathPts10.length : ℚ) * (1 / 4)⌋).toNat :=
  resample_count_amended axisLen pathPts10 pathE1 pathE2 ⟨[0], [9]⟩ (1 / 4)
    ⟨[0], [9]⟩ ⟨[0, 9], [(0, 0, 0), (9, 0, 0)], [0], [1]⟩
    (fun p => by rw [axisLen, sub_self]; with_unfolding_all rfl)
    (by with_unfolding_all decide) (by with_unfolding_all decide)
    (by norm_num) (by norm_num) (by with_unfolding_all rfl)

/-- Claim C2, amended: in every decimation step of `resample_points`, the edge
collapsed is the first edge (in edge-list order) whose current length is at
least `1e-13` (not yet collapsed) and within `1e-12` of the minimum such
length; it is collapsed by merging its destination into its source (the
destination is deleted and all references to it are rewritten to the source) -
or, exactly when the destination is a protected outlet, by merging its source
into its destination. -/
theorem resample_step_amended (elen : Pt → Pt → ℚ) (points : List Pt)
    (outl : List ℤ) (st st2 : DecimState)
    (h : decimStep elen points outl st = Except.ok st2) :
    ∃ (diffs : List ℚ) (m : ℚ) (mind : ℕ) (a b : ℤ),
      edgeDiffs elen points st.edges1 st.edges2 = Except.ok diffs ∧
      m ∈ diffs ∧ eps13 ≤ m ∧ (∀ d ∈ diffs, eps13 ≤ d → m ≤ d) ∧
      mind < diffs.length ∧
      (∃ dm, diffs[mind]? = some dm ∧ eps13 ≤ dm ∧ qabs (dm - m) < eps12) ∧
      (∀ j < mind, ∀ dj, diffs[j]? = some dj →
        ¬(eps13 ≤ dj ∧ qabs (dj - m) < eps12)) ∧
      st.edges1[mind]? = some a ∧ st.edges2[mind]? = some b ∧
      st2.edges1 = (modify_edges st.edges1 st.edges2
        (if b ∈ outl then a else b) (if b ∈ outl then b else a)).1 ∧
      st2.edges2 = (modify_edges st.edges1 st.edges2
        (if b ∈ outl then a else b) (if b ∈ outl then b else a)).2 ∧
      st2.dels = st.dels ++ [if b ∈ outl then a else b] ∧
      st2.reps = st.reps ++ [if b ∈ outl then b else a] :=
  decimStep_spec elen points outl st st2 h

/-- Witness for `resample_step_amended` on the 3-point path: the step collapses
edge `(0, 1)` whose destination is not an outlet, deleting point 1. -/
theorem resample_step_amended_witness :
    ∃ (diffs : List ℚ) (m : ℚ) (mind : ℕ) (a b : ℤ),
      edgeDiffs axisLen [((0 : ℚ), (0 : ℚ), (0 : ℚ)), (1, 0, 0), (3, 0, 0)]
        (DecimState.mk [0, 1] [1, 2] [] []).edges1
        (DecimState.mk [0, 1] [1, 2] [] []).edges2 = Except.ok diffs ∧
      m ∈ diffs ∧ eps13 ≤ m ∧ (∀ d ∈ diffs, eps13 ≤ d → m ≤ d) ∧
      mind < diffs.length ∧
      (∃ dm, diffs[mind]? = some dm ∧ eps13 ≤ dm ∧ qabs (dm - m) < eps12) ∧
      (∀ j < mind, ∀ dj, diffs[j]? = some dj →
        ¬(eps13 ≤ dj ∧ qabs (dj - m) < eps12)) ∧
      (DecimState.mk [0, 1] [1, 2] [] []).edges1[mind]? = some a ∧
      (DecimState.mk [0, 1] [1, 2] [] []).edges2[mind]? = some b ∧
      (DecimState.mk [0, 0] [0, 2] [1] [0]).edges1 =
        (modify_edges (DecimState.mk [0, 1] [1, 2] [] []).edges1
          (DecimState.mk [0, 1] [1, 2] [] []).edges2
          (if b ∈ [(2 : ℤ)] then a else b) (if b ∈ [(2 : ℤ)] then b else a)).1 ∧
      (DecimState.mk [0, 0] [0, 2] [1] [0]).edges2 =
        (modify_edges (DecimState.mk [0, 1] [1, 2] [] []).edges1
          (DecimState.mk [0, 1] [1, 2] [] []).edges2
          (if b ∈ [(2 : ℤ)] then a else b) (if b ∈ [(2 : ℤ)] then b else a)).2 ∧
      (DecimState.mk [0, 0] [0, 2] [1] [0]).dels =
        (DecimState.mk [0, 1] [1, 2] [] []).dels ++
          [if b ∈ [(2 : ℤ)] then a else b] ∧
      (DecimState.mk [0, 0] [0, 2] [1] [0]).reps =
        (DecimState.mk [0, 1] [1, 2] [] []).reps ++
          [if b ∈ [(2 : ℤ)] then b else a] :=
  resample_step_amended axisLen [((0 : ℚ), (0 : ℚ), (0 : ℚ)), (1, 0, 0), (3, 0, 0)]
    [(2 : ℤ)] (DecimState.mk [0, 1] [1, 2] [] [])
    (DecimState.mk [0, 0] [0, 2] [1] [0]) (by with_unfolding_all rfl)

/-! ### Claim C8: the driver's resampling retry loop -/

/-- Claim C8, counterexample: with the 10-point path, `keep_fraction = 0.08` and
the driver's `remove_caps = 3`, the first resampling attempt raises (after
over-decimation), but by then `resample_points` has already mutated the shared
`indices` record, shifting the outlet from 9 to 6; the retry therefore does not
run on the original inlet/outlet indices. -/
theorem retry_indices_counterexample :
    (resample_points axisLen pathPts10 pathE1 pathE2
        ⟨[0], [9]⟩ (8 / 100) 3).2 = Except.error PyErr.indexError ∧
    (resample_points axisLen pathPts10 pathE1 pathE2
        ⟨[0], [9]⟩ (8 / 100) 3).1 = ⟨[0], [6]⟩ ∧
    (⟨[0], [6]⟩ : Indices) ≠ ⟨[0], [9]⟩ :=
  ⟨by with_unfolding_all rfl, by with_unfolding_all rfl,
   by with_unfolding_all decide⟩

/-- Claim C8, amended: when a resampling attempt raises, the driver's retry loop
doubles the requested keep-fraction (capped at 1.0) and retries on fresh copies
of the original points and edges, but with the `indices` record as mutated in
place by the failed attempt - every outlet index shifted down by
`remove_caps = 3` - rather than the original indices. -/
theorem retry_amended (elen : Pt → Pt → ℚ) (points0 : List Pt)
    (e10 e20 : List ℤ) (fuel : ℕ) (perc : ℚ) (ind : Indices) (e : PyErr)
    (hfail : (resample_points elen points0 e10 e20 ind perc 3).2 =
      Except.error e) :
    resampleRetry elen points0 e10 e20 (fuel + 1) perc ind =
      resampleRetry elen points0 e10 e20 fuel (qmin (perc * 2) 1)
        ⟨ind.inlet, ind.outlets.map (fun o => o - 3)⟩ ∧
    (resample_points elen points0 e10 e20 ind perc 3).1 =
      ⟨ind.inlet, ind.outlets.map (fun o => o - 3)⟩ := by
  have hfst : (resample_points elen points0 e10 e20 ind perc 3).1 =
      ⟨ind.inlet, ind.outlets.map (fun o => o - 3)⟩ := rfl
  have hpair : resample_points elen points0 e10 e20 ind perc 3 =
      (⟨ind.inlet, ind.outlets.map (fun o => o - 3)⟩, Except.error e) := by
    rw [← hfst, ← hfail]
  refine ⟨?_, hfst⟩
  rw [resampleRetry, hpair]

/-- Witness for `retry_amended` at the concrete failing 10-point input. -/
theorem retry_amended_witness :
    (resampleRetry axisLen pathPts10 pathE1 pathE2 (1 + 1) (8 / 100) ⟨[0], [9]⟩ =
      resampleRetry axisLen pathPts10 pathE1 pathE2 1 (qmin ((8 / 100) * 2) 1)
        ⟨(⟨[0], [9]⟩ : Indices).inlet,
         (⟨[0], [9]⟩ : Indices).outlets.map (fun o => o - 3)⟩) ∧
    (resample_points axisLen pathPts10 pathE1 pathE2 ⟨[0], [9]⟩ (8 / 100) 3).1 =
      ⟨(⟨[0], [9]⟩ : Indices).inlet,
       (⟨[0], [9]⟩ : Indices).outlets.map (fun o => o - 3)⟩ :=
  retry_amended axisLen pathPts10 pathE1 pathE2 1 (8 / 100) ⟨[0], [9]⟩
    PyErr.indexError (by with_unfolding_all rfl)

/-! ### Claim C6: junction edges are mirrored -/

theorem foldlE_inv {α σ : Type} (f : σ → α → Except PyErr σ) (P : σ → Prop)
    (hf : ∀ s a s2, f s a = Except.ok s2 → P s → P s2) :
    ∀ (l : List α) (s s2 : σ), l.foldlM f s = Except.ok s2 → P s → P s2 := by
  intro l
  induction l with
  | nil =>
    intro s s2 h hp
    rw [List.foldlM_nil] at h
    cases h
    exact hp
  | cons a as ih =>
    intro s s2 h hp
    rw [List.foldlM_cons] at h
    cases hs : f s a with
    | error e => rw [hs] at h; simp at h
    | ok sMid =>
      rw [hs] at h
      simp only [ok_bind] at h
      exact ih sMid s2 h (hf s a sMid hs hp)

theorem junScanStep_edges_len (bif_id : List ℤ) (ipoint : ℕ)
    (st st2 : JunScanSt) (h : junScanStep bif_id ipoint st = Except.ok st2)
    (heq : st.jedges1.length = st.jedges2.length) :
    st2.jedges1.length = st2.jedges2.length := by
  rw [junScanStep] at h
  cases hbi : pyGetE bif_id (Int.ofNat ipoint) with
  | error e => rw [hbi] at h; simp at h
  | ok bi =>
  rw [hbi] at h
  simp only [ok_bind] at h
  cases hbn : pyGetE bif_id (Int.ofNat ipoint + 1) with
  | error e => rw [hbn] at h; simp at h
  | ok bnext =>
  rw [hbn] at h
  simp only [ok_bind] at h
  split at h
  · split at h
    · cases h; exact heq
    · cases h; exact heq
  · cases hbp : pyGetE bif_id (Int.ofNat ipoint - 1) with
    | error e => rw [hbp] at h; simp at h
    | ok bprev =>
    rw [hbp] at h
    simp only [ok_bind] at h
    split at h
    · split at h
      · cases h; exact heq
      · simp at h
    · split at h
      · split at h
        · cases h
          simp only [List.length_append, List.length_singleton, heq]
        · simp at h
      · cases h; exact heq

/-- Claim C6: on every input on which `create_junction_edges` succeeds, the
junction edges come in matched forward/reverse pairs - for every edge
`(a, b, rel, dist)` at position `k` there is a position `j` holding
`(b, a, -rel, dist)` - and every junction edge carries type tag 3. -/
theorem junction_edges_mirrored (elen : Pt → Pt → ℚ) (points : List Pt)
    (bif_id : List ℤ) (edges1 edges2 : List ℤ) (out : JunctionOut)
    (hok : create_junction_edges elen points bif_id edges1 edges2 =
      Except.ok out) :
    out.jedges1.length = out.jedges2.length ∧
    out.jrel_position.length = out.jedges1.length ∧
    out.jdistance.length = out.jedges1.length ∧
    out.types.length = out.jedges1.length ∧
    ∀ k < out.jedges1.length,
      out.types[k]? = some 3 ∧
      ∃ j < out.jedges1.length,
        out.jedges1[j]? = out.jedges2[k]? ∧
        out.jedges2[j]? = out.jedges1[k]? ∧
        out.jrel_position[j]? = (out.jrel_position[k]?).map ptNeg ∧
        out.jdistance[j]? = out.jdistance[k]? := by
  rw [create_junction_edges] at hok
  cases hscan : (List.range (bif_id.length - 1)).foldlM
      (fun st ipoint => junScanStep bif_id ipoint st)
      (⟨[], List.replicate bif_id.length 0, List.replicate bif_id.length 0, [], []⟩ :
        JunScanSt) with
  | error e => rw [hscan] at hok; simp at hok
  | ok s =>
  rw [hscan] at hok
  simp only [ok_bind] at hok
  cases hdists : s.juncts_inlets.foldlM
      (fun (dists : List (ℤ × List (WithTop ℚ))) kv => do
        let dp ← dijkstra_algorithm elen points edges1 edges2 kv.2
        Except.ok (dictSetD dists kv.2 dp.1))
      ([] : List (ℤ × List (WithTop ℚ))) with
  | error e => rw [hdists] at hok; simp at hok
  | ok dists =>
  rw [hdists] at hok
  simp only [ok_bind] at hok
  cases hfeats : mapE (fun iedg => do
      let a ← listGetE s.jedges1 iedg
      let b ← listGetE s.jedges2 iedg
      let pa ← pyGetE points a
      let pb ← pyGetE points b
      let da ← (match dictGetD dists a with
        | some d => Except.ok d
        | none => Except.error PyErr.keyError)
      let dv ← pyGetE da b
      Except.ok (ptSub pb pa, dv)) (List.range s.jedges1.length) with
  | error e => rw [hfeats] at hok; simp at hok
  | ok feats =>
  rw [hfeats] at hok
  simp only [ok_bind, Except.ok.injEq] at hok
  have hm : s.jedges1.length = s.jedges2.length := by
    refine foldlE_inv _ (fun st => st.jedges1.length = st.jedges2.length) ?_
      (List.range (bif_id.length - 1)) _ s hscan rfl
    intro st a st2 hstep hp
    exact junScanStep_edges_len bif_id a st st2 hstep hp
  have hflen : feats.length = s.jedges1.length := by
    have := mapE_ok_length _ _ _ hfeats
    rw [List.length_range] at this
    exact this
  set m := s.jedges1.length with hmdef
  have hrellen : (feats.map Prod.fst).length = m := by rw [List.length_map, hflen]
  have hdistlen : (feats.map Prod.snd).length = m := by rw [List.length_map, hflen]
  subst hok
  refine ⟨?_, ?_, ?_, ?_, ?_⟩
  · simp only [List.length_append]
    omega
  · simp only [List.length_append, List.length_map, hflen]
    omega
  · simp only [List.length_append, List.length_map, hflen]
    omega
  · simp only [List.length_replicate]
  intro k hk
  simp only [List.length_append] at hk
  dsimp only
  have hk2 : k < m + m := by omega
  constructor
  · rw [List.getElem?_replicate]
    rw [if_pos (by simp only [List.length_append]; omega)]
  by_cases hklt : k < m
  · refine ⟨k + m, by simp only [List.length_append]; omega, ?_, ?_, ?_, ?_⟩
    · rw [List.getElem?_append_right (show s.jedges1.length ≤ k + m by omega),
        List.getElem?_append_left (show k < s.jedges2.length by omega)]
      congr 1 <;> omega
    · rw [List.getElem?_append_right (show s.jedges2.length ≤ k + m by omega),
        List.getElem?_append_left (show k < s.jedges1.length by omega)]
      congr 1 <;> omega
    · rw [List.getElem?_append_right
        (show (feats.map Prod.fst).length ≤ k + m by rw [hrellen]; omega),
        List.getElem?_append_left (show k < (feats.map Prod.fst).length by
          rw [hrellen]; omega),
        List.getElem?_map]
      have hidx2 : k + m - (feats.map Prod.fst).length = k := by
        rw [hrellen]; omega
      rw [hidx2]
    · rw [List.getElem?_append_right
        (show (feats.map Prod.snd).length ≤ k + m by rw [hdistlen]; omega),
        List.getElem?_append_left (show k < (feats.map Prod.snd).length by
          rw [hdistlen]; omega), hdistlen]
      congr 1 <;> omega
  · refine ⟨k - m, by simp only [List.length_append]; omega, ?_, ?_, ?_, ?_⟩
    · rw [List.getElem?_append_left (show k - m < s.jedges1.length by omega),
        List.getElem?_append_right (show s.jedges2.length ≤ k by omega)]
      congr 1 <;> omega
    · rw [List.getElem?_append_left (show k - m < s.jedges2.length by omega),
        List.getElem?_append_right (show s.jedges1.length ≤ k by omega)]
    · rw [List.getElem?_append_left
        (show k - m < (feats.map Prod.fst).length by rw [hrellen]; omega),
        List.getElem?_append_right
        (show (feats.map Prod.fst).length ≤ k by rw [hrellen]; omega),
        List.getElem?_map]
      have hidx : k - (feats.map Prod.fst).length = k - m := by rw [hrellen]
      rw [hidx]
      simp only [List.getElem?_map, Option.map_map]
      have hcomp : (ptNeg ∘ ptNeg ∘ Prod.fst : Pt × WithTop ℚ → Pt) = Prod.fst := by
        funext w
        simp [Function.comp_apply, ptNeg]
      rw [hcomp]
    · rw [List.getElem?_append_left
        (show k - m < (feats.map Prod.snd).length by rw [hdistlen]; omega),
        List.getElem?_append_right
        (show (feats.map Prod.snd).length ≤ k by rw [hdistlen]; omega)]
      congr 1 <;> omega

/-! ### Claim C5: the junction masks -/

theorem pyGet_ofNat {α : Type} (l : List α) (k : ℕ) :
    pyGet l (Int.ofNat k) = l[k]? := by
  simp [pyGet]

theorem pyGet_ofNat_add_one {α : Type} (l : List α) (k : ℕ) :
    pyGet l (Int.ofNat k + 1) = l[k + 1]? := by
  have : Int.ofNat k + 1 = Int.ofNat (k + 1) := by simp
  rw [this, pyGet_ofNat]

/-- A junction-exit transition at point `i`: the point and its successor are
ordinary (`-1`) while its predecessor (with Python wrap-around indexing at
`i = 0`) is junction-labelled. These are exactly the points at which the scan
loop of `create_junction_edges` emits an inlet-to-exit edge. -/
def ExitAt (bif_id : List ℤ) (i : ℕ) : Prop :=
  bif_id[i]? = some (-1) ∧ bif_id[i + 1]? = some (-1) ∧
  ∃ bp, pyGet bif_id (Int.ofNat i - 1) = some bp ∧ bp ≠ -1

theorem junScanStep_masks (bif_id : List ℤ) (j : ℕ) (st st2 : JunScanSt)
    (h : junScanStep bif_id j st = Except.ok st2) :
    st2.jun_inlet_mask.length = st.jun_inlet_mask.length ∧
    st2.jun_mask.length = st.jun_mask.length ∧
    (∀ i, i ≠ j → st2.jun_inlet_mask[i]? = st.jun_inlet_mask[i]? ∧
      st2.jun_mask[i]? = st.jun_mask[i]?) ∧
    (st.jun_inlet_mask[j]? = some 0 → st.jun_mask[j]? = some 0 →
      j < st.jun_inlet_mask.length → j < st.jun_mask.length →
      (st2.jun_mask[j]? = some 1 ↔
        (st2.jun_inlet_mask[j]? = some 1 ∨ ExitAt bif_id j))) := by
  rw [junScanStep] at h
  cases hbi : pyGetE bif_id (Int.ofNat j) with
  | error e => rw [hbi] at h; simp at h
  | ok bi =>
  rw [hbi] at h
  simp only [ok_bind] at h
  have hbival : bif_id[j]? = some bi := by
    rw [pyGetE] at hbi
    cases hg : pyGet bif_id (Int.ofNat j) with
    | none => rw [hg] at hbi; simp at hbi
    | some v =>
      rw [hg] at hbi
      simp only [Except.ok.injEq] at hbi
      rw [← pyGet_ofNat, hg, hbi]
  cases hbn : pyGetE bif_id (Int.ofNat j + 1) with
  | error e => rw [hbn] at h; simp at h
  | ok bnext =>
  rw [hbn] at h
  simp only [ok_bind] at h
  have hbnval : bif_id[j + 1]? = some bnext := by
    rw [pyGetE] at hbn
    cases hg : pyGet bif_id (Int.ofNat j + 1) with
    | none => rw [hg] at hbn; simp at hbn
    | some v =>
      rw [hg] at hbn
      simp only [Except.ok.injEq] at hbn
      rw [← pyGet_ofNat_add_one, hg, hbn]
  split at h
  case isTrue hcond1 =>
    split at h
    case isTrue hnew =>
      cases h
      refine ⟨by simp, by simp, ?_, ?_⟩
      · intro i hij
        constructor
        · simp only
          rw [List.getElem?_set_ne (fun hc => hij hc.symm)]
        · simp only
          rw [List.getElem?_set_ne (fun hc => hij hc.symm)]
      · intro _ _ hjlt1 hjlt2
        constructor
        · intro _
          left
          simp only
          rw [List.getElem?_set_eq_of_lt _ hjlt1]
        · intro _
          simp only
          rw [List.getElem?_set_eq_of_lt _ hjlt2]
    case isFalse hold =>
      cases h
      refine ⟨rfl, rfl, fun i _ => ⟨rfl, rfl⟩, ?_⟩
      intro hz1 hz2 _ _
      rw [hz1, hz2]
      constructor
      · intro hc; simp at hc
      · rintro (hc | hex)
        · simp at hc
        · exfalso
          obtain ⟨hexi, hexn, bp, hbp, hbpne⟩ := hex
          rw [hbival] at hexi
          rw [hbnval] at hexn
          simp only [Option.some.injEq] at hexi hexn
          rcases hcond1 with ⟨_, hne⟩ | ⟨_, hne⟩
          · exact hne hexn
          · exact hne hexi
  case isFalse hcond1 =>
    cases hbp : pyGetE bif_id (Int.ofNat j - 1) with
    | error e => rw [hbp] at h; simp at h
    | ok bprev =>
    rw [hbp] at h
    simp only [ok_bind] at h
    have hbpval : pyGet bif_id (Int.ofNat j - 1) = some bprev := by
      rw [pyGetE] at hbp
      cases hg : pyGet bif_id (Int.ofNat j - 1) with
      | none => rw [hg] at hbp; simp at hbp
      | some v =>
        rw [hg] at hbp
        simp only [Except.ok.injEq] at hbp
        rw [hbp]
    split at h
    case isTrue hcond2 =>
      cases hlook : dictGet st.juncts_inlets bprev with
      | some v =>
        rw [hlook] at h
        cases h
        refine ⟨rfl, rfl, fun i _ => ⟨rfl, rfl⟩, ?_⟩
        intro hz1 hz2 _ _
        simp only
        rw [hz1, hz2]
        constructor
        · intro hc; simp at hc
        · rintro (hc | hex)
          · simp at hc
          · exfalso
            obtain ⟨hexi, _, _⟩ := hex
            rw [hbival] at hexi
            simp only [Option.some.injEq] at hexi
            exact hcond2.1 hexi
      | none => rw [hlook] at h; simp at h
    case isFalse hcond2 =>
      split at h
      case isTrue hcond3 =>
        cases hlook : dictGet st.juncts_inlets bprev with
        | some v =>
          rw [hlook] at h
          cases h
          refine ⟨by simp, by simp, ?_, ?_⟩
          · intro i hij
            refine ⟨rfl, ?_⟩
            simp only
            rw [List.getElem?_set_ne (fun hc => hij hc.symm)]
          · intro _ _ _ hjlt2
            constructor
            · intro _
              right
              refine ⟨by rw [hbival, hcond3.1], ?_, bprev, hbpval, hcond3.2⟩
              rw [hbnval]
              congr 1
              by_contra hne
              have hbn1 : bnext ≠ -1 := fun hc => hne (by rw [hc])
              exact hcond1 (Or.inl ⟨hcond3.1, hbn1⟩)
            · intro _
              simp only
              rw [List.getElem?_set_eq_of_lt _ hjlt2]
        | none => rw [hlook] at h; simp at h
      case isFalse hcond3 =>
        cases h
        refine ⟨rfl, rfl, fun i _ => ⟨rfl, rfl⟩, ?_⟩
        intro hz1 hz2 _ _
        rw [hz1, hz2]
        constructor
        · intro hc; simp at hc
        · rintro (hc | hex)
          · simp at hc
          · exfalso
            obtain ⟨hexi, _, bp, hbp2, hbpne⟩ := hex
            rw [hbival] at hexi
            simp only [Option.some.injEq] at hexi
            rw [hbpval] at hbp2
            simp only [Option.some.injEq] at hbp2
            exact hcond3 ⟨hexi, hbp2 ▸ hbpne⟩

theorem junScanFold_masks (bif_id : List ℤ) :
    ∀ (l : List ℕ) (st0 st : JunScanSt),
      l.foldlM (fun s i => junScanStep bif_id i s) st0 = Except.ok st →
      l.Nodup →
      (∀ j ∈ l, st0.jun_inlet_mask[j]? = some 0 ∧ st0.jun_mask[j]? = some 0 ∧
        j < st0.jun_inlet_mask.length ∧ j < st0.jun_mask.length) →
      (∀ i, st0.jun_mask[i]? = some 1 ↔
        (st0.jun_inlet_mask[i]? = some 1 ∨ (ExitAt bif_id i ∧ i ∉ l))) →
      ∀ i, st.jun_mask[i]? = some 1 ↔
        (st.jun_inlet_mask[i]? = some 1 ∨ ExitAt bif_id i) := by
  intro l
  induction l with
  | nil =>
    intro st0 st h _ _ hiff i
    rw [List.foldlM_nil] at h
    cases h
    have := hiff i
    simpa using this
  | cons j tl ih =>
    intro st0 st h hnd hzeros hiff
    rw [List.foldlM_cons] at h
    cases hstep : junScanStep bif_id j st0 with
    | error e => rw [hstep] at h; simp at h
    | ok st1 =>
    rw [hstep] at h
    simp only [ok_bind] at h
    have hj0 := hzeros j (List.mem_cons_self j tl)
    obtain ⟨hlen1, hlen2, hother, hatj⟩ :=
      junScanStep_masks bif_id j st0 st1 hstep
    have hjtl : j ∉ tl := (List.nodup_cons.mp hnd).1
    refine ih st1 st h (List.nodup_cons.mp hnd).2 ?_ ?_
    · intro i hi
      have hij : i ≠ j := fun hc => hjtl (hc ▸ hi)
      obtain ⟨h1, h2⟩ := hother i hij
      have := hzeros i (List.mem_cons_of_mem j hi)
      rw [h1, h2, hlen1, hlen2]
      exact this
    · intro i
      by_cases hij : i = j
      · subst hij
        have := hatj hj0.1 hj0.2.1 hj0.2.2.1 hj0.2.2.2
        rw [this]
        constructor
        · rintro (h1 | h2)
          · exact Or.inl h1
          · exact Or.inr ⟨h2, hjtl⟩
        · rintro (h1 | h2)
          · exact Or.inl h1
          · exact Or.inr h2.1
      · obtain ⟨h1, h2⟩ := hother i hij
        rw [h1, h2]
        have := hiff i
        rw [this]
        constructor
        · rintro (h3 | h4)
          · exact Or.inl h3
          · refine Or.inr ⟨h4.1, fun hc => h4.2 (List.mem_cons_of_mem j hc)⟩
        · rintro (h3 | h4)
          · exact Or.inl h3
          · refine Or.inr ⟨h4.1, fun hc => ?_⟩
            rcases List.mem_cons.mp hc with hc2 | hc2
            · exact hij hc2
            · exact h4.2 hc2

/-- Claim C5, amended: `create_junction_edges` returns a junction-inlet mask
marking the points at which the scan records a new junction inlet, and a
junction-all mask that is true exactly at points that are either marked in the
junction-inlet mask or are junction-exit transition points (`bif_id[i] = -1`,
`bif_id[i+1] = -1`, and the predecessor - with Python wrap-around indexing -
labelled `≠ -1`); interior junction-region points (with `bif_id ≠ -1`) are NOT
marked in the junction-all mask. -/
theorem junction_masks_amended (elen : Pt → Pt → ℚ) (points : List Pt)
    (bif_id : List ℤ) (edges1 edges2 : List ℤ) (out : JunctionOut)
    (hok : create_junction_edges elen points bif_id edges1 edges2 =
      Except.ok out) :
    ∀ i, out.mask_all[i]? = some 1 ↔
      (out.mask_inlets[i]? = some 1 ∨ ExitAt bif_id i) := by
  rw [create_junction_edges] at hok
  cases hscan : (List.range (bif_id.length - 1)).foldlM
      (fun st ipoint => junScanStep bif_id ipoint st)
      (⟨[], List.replicate bif_id.length 0, List.replicate bif_id.length 0, [], []⟩ :
        JunScanSt) with
  | error e => rw [hscan] at hok; simp at hok
  | ok s =>
  rw [hscan] at hok
  simp only [ok_bind] at hok
  cases hdists : s.juncts_inlets.foldlM
      (fun (dists : List (ℤ × List (WithTop ℚ))) kv => do
        let dp ← dijkstra_algorithm elen points edges1 edges2 kv.2
        Except.ok (dictSetD dists kv.2 dp.1))
      ([] : List (ℤ × List (WithTop ℚ))) with
  | error e => rw [hdists] at hok; simp at hok
  | ok dists =>
  rw [hdists] at hok
  simp only [ok_bind] at hok
  cases hfeats : mapE (fun iedg => do
      let a ← listGetE s.jedges1 iedg
      let b ← listGetE s.jedges2 iedg
      let pa ← pyGetE points a
      let pb ← pyGetE points b
      let da ← (match dictGetD dists a with
        | some d => Except.ok d
        | none => Except.error PyErr.keyError)
      let dv ← pyGetE da b
      Except.ok (ptSub pb pa, dv)) (List.range s.jedges1.length) with
  | error e => rw [hfeats] at hok; simp at hok
  | ok feats =>
  rw [hfeats] at hok
  simp only [ok_bind, Except.ok.injEq] at hok
  have hmi : out.mask_inlets = s.jun_inlet_mask := by rw [← hok]
  have hma : out.mask_all = s.jun_mask := by rw [← hok]
  rw [hmi, hma]
  refine junScanFold_masks bif_id (List.range (bif_id.length - 1)) _ s hscan
    (List.nodup_range _) ?_ ?_
  · intro j hj
    rw [List.mem_range] at hj
    have hjn : j < bif_id.length := by omega
    simp only [List.getElem?_replicate, List.length_replicate]
    rw [if_pos hjn]
    exact ⟨rfl, rfl, hjn, hjn⟩
  · intro i
    simp only [List.getElem?_replicate]
    constructor
    · intro hc
      by_cases hin : i < bif_id.length
      · rw [if_pos hin] at hc; simp at hc
      · rw [if_neg hin] at hc; simp at hc
    · rintro (hc | hc)
      · by_cases hin : i < bif_id.length
        · rw [if_pos hin] at hc; simp at hc
        · rw [if_neg hin] at hc; simp at hc
      · exfalso
        have hi1 : i + 1 < bif_id.length := by
          rcases List.getElem?_eq_some.mp hc.1.2.1 with ⟨hlt, _⟩
          exact hlt
        exact hc.2 (List.mem_range.mpr (by omega))

/-- Five collinear points used for the junction-mask fixtures. -/
def fivePts : List Pt :=
  [((0 : ℚ), (0 : ℚ), (0 : ℚ)), (1, 0, 0), (2, 0, 0), (3, 0, 0), (4, 0, 0)]

/-- Bidirected source endpoints of the 5-point chain. -/
def fiveE1 : List ℤ := [0, 1, 2, 3, 1, 2, 3, 4]

/-- Bidirected destination endpoints of the 5-point chain. -/
def fiveE2 : List ℤ := [1, 2, 3, 4, 0, 1, 2, 3]

/-- Claim C5, counterexample: with bifurcation IDs `[-1, 0, 0, -1, -1]`, point 1
is a junction-region point (`bif_id = 0 ≠ -1`) but the returned junction-all
mask is 0 there, and point 3 is neither junction-region nor a recorded inlet
but the mask is 1 there (it is the junction exit); so the junction-all mask is
not true at every junction-region-or-inlet point. -/
theorem junction_masks_counterexample :
    ∃ out, create_junction_edges axisLen fivePts [-1, 0, 0, -1, -1]
        fiveE1 fiveE2 = Except.ok out ∧
      out.mask_inlets = [1, 0, 0, 0, 0] ∧
      out.mask_all = [1, 0, 0, 1, 0] ∧
      ([(-1 : ℤ), 0, 0, -1, -1])[1]? = some 0 ∧ ((0 : ℤ) ≠ -1) ∧
      out.mask_all[1]? = some 0 ∧ ¬(out.mask_all[1]? = some 1) := by
  refine ⟨⟨[0, 3], [3, 0], [(3, 0, 0), (-3, 0, 0)],
    [((3 : ℚ) : WithTop ℚ), ((3 : ℚ) : WithTop ℚ)], [3, 3],
    [1, 0, 0, 0, 0], [1, 0, 0, 1, 0]⟩,
    by with_unfolding_all rfl, rfl, rfl, by decide, by decide, rfl, by decide⟩

/-- Witness for `junction_masks_amended` on the 5-point fixture. -/
theorem junction_masks_amended_witness :
    (⟨[0, 3], [3, 0], [(3, 0, 0), (-3, 0, 0)],
        [((3 : ℚ) : WithTop ℚ), ((3 : ℚ) : WithTop ℚ)], [3, 3],
        [1, 0, 0, 0, 0], [1, 0, 0, 1, 0]⟩ : JunctionOut).mask_all[3]? = some 1 ↔
      ((⟨[0, 3], [3, 0], [(3, 0, 0), (-3, 0, 0)],
        [((3 : ℚ) : WithTop ℚ), ((3 : ℚ) : WithTop ℚ)], [3, 3],
        [1, 0, 0, 0, 0], [1, 0, 0, 1, 0]⟩ : JunctionOut).mask_inlets[3]? = some 1 ∨
       ExitAt [-1, 0, 0, -1, -1] 3) :=
  junction_masks_amended axisLen fivePts [-1, 0, 0, -1, -1] fiveE1 fiveE2 _
    (by with_unfolding_all rfl) 3

/-- Seven collinear points used for the junction fixtures. -/
def chainPts7 : List Pt :=
  [((0 : ℚ), (0 : ℚ), (0 : ℚ)), (1, 0, 0), (2, 0, 0), (3, 0, 0), (4, 0, 0),
   (5, 0, 0), (6, 0, 0)]

/-- Bidirected source endpoints of the 7-point chain. -/
def chainE1 : List ℤ := [0, 1, 2, 3, 4, 5, 1, 2, 3, 4, 5, 6]

/-- Bidirected destination endpoints of the 7-point chain. -/
def chainE2 : List ℤ := [1, 2, 3, 4, 5, 6, 0, 1, 2, 3, 4, 5]

/-- Witness for `junction_edges_mirrored`: the 7-point chain with bifurcation
IDs `[-1, -1, 0, 0, -1, -1, -1]` produces one inlet-to-exit edge `(1, 4)` and
its mirror `(4, 1)`. -/
theorem junction_edges_mirrored_witness :
    ∃ out, create_junction_edges axisLen chainPts7 [-1, -1, 0, 0, -1, -1, -1]
        chainE1 chainE2 = Except.ok out ∧
      (out.jedges1.length = out.jedges2.length ∧
       out.jrel_position.length = out.jedges1.length ∧
       out.jdistance.length = out.jedges1.length ∧
       out.types.length = out.jedges1.length ∧
       ∀ k < out.jedges1.length,
         out.types[k]? = some 3 ∧
         ∃ j < out.jedges1.length,
           out.jedges1[j]? = out.jedges2[k]? ∧
           out.jedges2[j]? = out.jedges1[k]? ∧
           out.jrel_position[j]? = (out.jrel_position[k]?).map ptNeg ∧
           out.jdistance[j]? = out.jdistance[k]?) := by
  refine ⟨⟨[1, 4], [4, 1], [(3, 0, 0), (-3, 0, 0)],
    [((3 : ℚ) : WithTop ℚ), ((3 : ℚ) : WithTop ℚ)], [3, 3],
    [0, 1, 0, 0, 0, 0, 0], [0, 1, 0, 0, 1, 0, 0]⟩,
    by with_unfolding_all rfl, ?_⟩
  exact junction_edges_mirrored axisLen chainPts7 [-1, -1, 0, 0, -1, -1, -1]
    chainE1 chainE2 _ (by with_unfolding_all rfl)

/-- Witness for `add_fields_amended` at a concrete two-timestep field. -/
theorem add_fields_amended_witness :
    ([((0 : ℚ), [(1 : ℚ), 2]), (1, [3, 4])].map Prod.snd = [[1, 2], [3, 4]]) ∧
    ((⟨[[(1 : ℚ), 2], [3, 4]], [1, 1]⟩ : FieldsOut).tensor =
      npSliceStep ([((0 : ℚ), [(1 : ℚ), 2]), (1, [3, 4])].map Prod.snd) 1 ∧
    (⟨[[(1 : ℚ), 2], [3, 4]], [1, 1]⟩ : FieldsOut).tensor.length = (2 + 1 - 1) / 1 ∧
    (⟨[[(1 : ℚ), 2], [3, 4]], [1, 1]⟩ : FieldsOut).dt =
      List.replicate 2 ((1 - 0) * ((1 : ℕ) : ℚ))) :=
  ⟨by with_unfolding_all rfl,
   add_fields_amended [((0 : ℚ), [(1 : ℚ), 2]), (1, [3, 4])] 2 1
     ⟨[[(1 : ℚ), 2], [3, 4]], [1, 1]⟩ 0 1 []
     (by with_unfolding_all rfl) (by with_unfolding_all rfl)⟩

/-- Candidate boundary distances for target point `p`: for each boundary index
(the inlet indices followed by the outlet indices), the Dijkstra distance from
that boundary point to `p`.  This is the column of distances the filtering loop
of `generate_boundary_edges` examines for point `p`. -/
def boundaryCandDists (elen : Pt → Pt → ℚ) (points : List Pt) (indices : Indices)
    (edges1 edges2 : List ℤ) (p : ℕ) : Except PyErr (List (WithTop ℚ)) :=
  mapE (fun index => do
      let dp ← dijkstra_algorithm elen points edges1 edges2 index
      listGetE dp.1 p)
    (indices.inlet ++ indices.outlets)

/-- The positions that survive an `np.delete` call. -/
def survIdxs (n : ℕ) (ps : List ℕ) : List ℕ :=
  (List.range n).filter (fun i => decide (i ∉ ps))

theorem survIdxs_nodup (n : ℕ) (ps : List ℕ) : (survIdxs n ps).Nodup :=
  (List.nodup_range n).filter _

theorem mem_survIdxs (n : ℕ) (ps : List ℕ) (i : ℕ) :
    i ∈ survIdxs n ps ↔ i < n ∧ i ∉ ps := by
  simp [survIdxs]

theorem except_bind_ok {α β : Type} {x : Except PyErr α} {f : α → Except PyErr β}
    {b : β} (h : x >>= f = Except.ok b) :
    ∃ a, x = Except.ok a ∧ f a = Except.ok b := by
  cases x with
  | error e => rw [error_bind] at h; exact Except.noConfusion h
  | ok a => exact ⟨a, rfl, by rwa [ok_bind] at h⟩

theorem listGetE_ok {α : Type} {l : List α} {k : ℕ} {x : α}
    (h : listGetE l k = Except.ok x) : l[k]? = some x := by
  rw [listGetE] at h
  cases hg : l[k]? with
  | none => rw [hg] at h; simp at h
  | some y => rw [hg] at h; simp at h; rw [h]

theorem filterMap_cons_of_some {α β : Type} (f : α → Option β) (a : α) (l : List α)
    (b : β) (hb : f a = some b) : (a :: l).filterMap f = b :: l.filterMap f := by
  rw [List.filterMap_cons, hb]

theorem filterMap_congr_mem {α β : Type} (f g : α → Option β) :
    ∀ l : List α, (∀ a ∈ l, f a = g a) → l.filterMap f = l.filterMap g := by
  intro l
  induction l with
  | nil => intro _; rfl
  | cons a rest ih =>
    intro hall
    rw [List.filterMap_cons, List.filterMap_cons, hall a (List.mem_cons_self a rest),
      ih (fun y hy => hall y (List.mem_cons_of_mem a hy))]

theorem filter_congr_mem {α : Type} (p q : α → Bool) :
    ∀ l : List α, (∀ a ∈ l, p a = q a) → l.filter p = l.filter q := by
  intro l
  induction l with
  | nil => intro _; rfl
  | cons a rest ih =>
    intro hall
    rw [List.filter_cons, List.filter_cons, hall a (List.mem_cons_self a rest),
      ih (fun y hy => hall y (List.mem_cons_of_mem a hy))]

theorem filterMap_all_some_getElem {α β : Type} (f : α → Option β) :
    ∀ s : List α, (∀ a ∈ s, (f a).isSome) → ∀ j : ℕ,
      (s.filterMap f)[j]? = (s[j]?).bind f := by
  intro s
  induction s with
  | nil => intro _ j; simp
  | cons a rest ih =>
    intro hall j
    obtain ⟨b, hb⟩ := Option.isSome_iff_exists.mp (hall a (List.mem_cons_self a rest))
    rw [filterMap_cons_of_some _ _ _ _ hb]
    cases j with
    | zero => simp [hb]
    | succ j =>
      simp only [List.getElem?_cons_succ]
      exact ih (fun y hy => hall y (List.mem_cons_of_mem a hy)) j

theorem filterMap_all_some_length {α β : Type} (f : α → Option β) :
    ∀ s : List α, (∀ a ∈ s, (f a).isSome) →
      (s.filterMap f).length = s.length := by
  intro s
  induction s with
  | nil => intro _; rfl
  | cons a rest ih =>
    intro hall
    obtain ⟨b, hb⟩ := Option.isSome_iff_exists.mp (hall a (List.mem_cons_self a rest))
    rw [filterMap_cons_of_some _ _ _ _ hb, List.length_cons, List.length_cons,
      ih (fun y hy => hall y (List.mem_cons_of_mem a hy))]

theorem enumFrom_delete_eq {α : Type} (ps : List ℕ) :
    ∀ (l : List α) (n : ℕ),
      ((l.enumFrom n).filter (fun kx => decide (kx.1 ∉ ps))).map Prod.snd =
        ((List.range l.length).filter (fun i => decide (i + n ∉ ps))).filterMap
          (fun i => l[i]?) := by
  intro l
  induction l with
  | nil => intro n; simp
  | cons x xs ih =>
    intro n
    have hshift : ((List.range xs.length).map Nat.succ).filter
          (fun i => decide (i + n ∉ ps)) =
        ((List.range xs.length).filter
          (fun i => decide (i + (n + 1) ∉ ps))).map Nat.succ := by
      rw [List.filter_map]
      rw [filter_congr_mem ((fun i => decide (i + n ∉ ps)) ∘ Nat.succ)
        (fun i => decide (i + (n + 1) ∉ ps)) (List.range xs.length) ?_]
      intro a _
      simp only [Function.comp_apply, Nat.succ_eq_add_one]
      have harith : a + 1 + n = a + (n + 1) := by omega
      rw [harith]
    have htail : (((List.range xs.length).map Nat.succ).filter
          (fun i => decide (i + n ∉ ps))).filterMap (fun i => (x :: xs)[i]?) =
        ((List.range xs.length).filter
          (fun i => decide (i + (n + 1) ∉ ps))).filterMap (fun i => xs[i]?) := by
      rw [hshift, List.filterMap_map]
      exact filterMap_congr_mem _ _ _ (fun a _ => by simp [Function.comp])
    rw [List.enumFrom_cons, List.length_cons, List.range_succ_eq_map,
      List.filter_cons, List.filter_cons]
    by_cases hn : n ∈ ps
    · rw [if_neg (by simp [hn]), if_neg (by simp [hn]), htail, ih]
    · rw [if_pos (by simp [hn]), if_pos (by simp [hn]), List.map_cons,
        filterMap_cons_of_some (fun i => (x :: xs)[i]?) 0 _ x (by simp), htail, ih]

theorem npDeletePos_eq_filterMap {α : Type} (l : List α) (ps : List ℕ) :
    npDeletePos l ps = (survIdxs l.length ps).filterMap (fun i => l[i]?) := by
  have h := enumFrom_delete_eq ps l 0
  simp only [Nat.add_zero] at h
  rw [npDeletePos, survIdxs]
  exact h

theorem npDeletePos_getElem {α : Type} (l : List α) (ps : List ℕ) (j : ℕ) :
    (npDeletePos l ps)[j]? =
      ((survIdxs l.length ps)[j]?).bind (fun i => l[i]?) := by
  rw [npDeletePos_eq_filterMap]
  refine filterMap_all_some_getElem _ _ ?_ j
  intro a ha
  rw [mem_survIdxs] at ha
  rw [List.getElem?_eq_getElem ha.1]
  rfl

theorem npDeletePosE_ok {α : Type} {l : List α} {ps : List ℕ} {r : List α}
    (h : npDeletePosE l ps = Except.ok r) :
    (∀ q ∈ ps, q < l.length) ∧ r = npDeletePos l ps := by
  rw [npDeletePosE] at h
  by_cases hc : ps.all (fun p => decide (p < l.length))
  · rw [if_pos hc] at h
    rw [Except.ok.injEq] at h
    refine ⟨?_, h.symm⟩
    intro q hq
    have := List.all_eq_true.mp hc q hq
    simpa using this
  · rw [if_neg hc] at h
    exact Except.noConfusion h

theorem cons_bind_eq {α β : Type} (a : α) (l : List α) (f : α → List β) :
    (a :: l).bind f = f a ++ l.bind f := rfl

theorem bind_const_len_length {α β : Type} (f : α → List β) (n : ℕ) :
    ∀ l : List α, (∀ a ∈ l, (f a).length = n) →
      (l.bind f).length = l.length * n := by
  intro l
  induction l with
  | nil => intro _; simp
  | cons a rest ih =>
    intro hall
    rw [cons_bind_eq, List.length_append, hall a (List.mem_cons_self a rest),
      ih (fun y hy => hall y (List.mem_cons_of_mem a hy)), List.length_cons]
    ring

theorem bind_const_len_getElem {α β : Type} (f : α → List β) (n : ℕ) (hn : 0 < n) :
    ∀ l : List α, (∀ a ∈ l, (f a).length = n) → ∀ i : ℕ,
      (l.bind f)[i]? = (l[i / n]?).bind (fun a => (f a)[i % n]?) := by
  intro l
  induction l with
  | nil => intro _ i; simp
  | cons a rest ih =>
    intro hall i
    rw [cons_bind_eq]
    by_cases hi : i < n
    · rw [List.getElem?_append_left
        (by rw [hall a (List.mem_cons_self a rest)]; exact hi),
        Nat.div_eq_of_lt hi, Nat.mod_eq_of_lt hi]
      simp
    · push_neg at hi
      rw [List.getElem?_append_right
        (by rw [hall a (List.mem_cons_self a rest)]; exact hi),
        hall a (List.mem_cons_self a rest),
        ih (fun y hy => hall y (List.mem_cons_of_mem a hy)) (i - n)]
      have hd : i / n = (i - n) / n + 1 := Nat.div_eq_sub_div hn hi
      have hm : i % n = (i - n) % n := Nat.mod_eq_sub_mod hi
      rw [hd, hm, List.getElem?_cons_succ]

theorem strideIdxs_getElem (step : ℕ) (hstep : 0 < step) :
    ∀ (fuel start bound b : ℕ), bound ≤ fuel + start →
      (strideIdxs fuel start step bound)[b]? =
        if start + b * step < bound then some (start + b * step) else none := by
  intro fuel
  induction fuel with
  | zero =>
    intro start bound b hfb
    rw [strideIdxs, if_neg (by omega)]
    simp
  | succ fuel ih =>
    intro start bound b hfb
    rw [strideIdxs]
    by_cases hs : start < bound
    · rw [if_pos hs]
      cases b with
      | zero => simp [hs]
      | succ b =>
        rw [List.getElem?_cons_succ, ih (start + step) bound b (by omega)]
        have harith : start + step + b * step = start + (b + 1) * step := by ring
        rw [harith]
    · rw [if_neg hs, if_neg (by omega)]
      simp

theorem strideIdxs_col_length (n nb p fuel : ℕ) (hn : 0 < n) (hp : p < n)
    (hfuel : nb * n ≤ fuel + p) :
    (strideIdxs fuel p n (nb * n)).length = nb := by
  refine Nat.le_antisymm ?_ ?_
  · have h1 := strideIdxs_getElem n hn fuel p (nb * n) nb hfuel
    rw [if_neg (by omega)] at h1
    exact List.getElem?_eq_none_iff.mp h1
  · cases nb with
    | zero => exact Nat.zero_le _
    | succ m =>
      have h1 := strideIdxs_getElem n hn fuel p ((m + 1) * n) m
        (by rw [Nat.succ_mul] at hfuel ⊢; omega)
      have hmn : (m + 1) * n = m * n + n := by ring
      rw [if_pos (by omega)] at h1
      rcases List.getElem?_eq_some.mp h1 with ⟨hlt, _⟩
      omega

theorem mapE_map_ok {α β γ : Type} (f : α → Except PyErr β) (g : α → Except PyErr γ)
    (h : β → γ) :
    ∀ (l : List α) (ys : List β), mapE f l = Except.ok ys →
      (∀ a ∈ l, ∀ y ∈ ys, f a = Except.ok y → g a = Except.ok (h y)) →
      mapE g l = Except.ok (ys.map h) := by
  intro l
  induction l with
  | nil =>
    intro ys hm _
    rw [mapE, Except.ok.injEq] at hm
    rw [← hm]
    rfl
  | cons a rest ih =>
    intro ys hm hfg
    rw [mapE] at hm
    cases ha : f a with
    | error e => rw [ha, error_bind] at hm; exact Except.noConfusion hm
    | ok y =>
      rw [ha, ok_bind] at hm
      cases hrest : mapE f rest with
      | error e => rw [hrest, error_bind] at hm; exact Except.noConfusion hm
      | ok ys2 =>
        rw [hrest, ok_bind, Except.ok.injEq] at hm
        subst hm
        rw [mapE, hfg a (List.mem_cons_self a rest) y (List.mem_cons_self y ys2) ha,
          ok_bind,
          ih ys2 hrest
            (fun z hz w hw hfw =>
              hfg z (List.mem_cons_of_mem a hz) w (List.mem_cons_of_mem y hw) hfw),
          ok_bind]
        rfl

theorem nodup_getElem?_inj {α : Type} :
    ∀ (l : List α), l.Nodup → ∀ (i j : ℕ) (a : α),
      l[i]? = some a → l[j]? = some a → i = j := by
  intro l
  induction l with
  | nil => intro _ i j a hi _; simp at hi
  | cons x xs ih =>
    intro hnd i j a hi hj
    rw [List.nodup_cons] at hnd
    cases i with
    | zero =>
      cases j with
      | zero => rfl
      | succ j =>
        simp only [List.getElem?_cons_zero, Option.some.injEq] at hi
        simp only [List.getElem?_cons_succ] at hj
        have hmem : a ∈ xs := mem_of_getElem?_eq_some hj
        rw [← hi] at hmem
        exact absurd hmem hnd.1
    | succ i =>
      cases j with
      | zero =>
        simp only [List.getElem?_cons_zero, Option.some.injEq] at hj
        simp only [List.getElem?_cons_succ] at hi
        have hmem : a ∈ xs := mem_of_getElem?_eq_some hi
        rw [← hj] at hmem
        exact absurd hmem hnd.1
      | succ j =>
        simp only [List.getElem?_cons_succ] at hi hj
        exact congrArg Nat.succ (ih hnd.2 i j a hi hj)

theorem boundaryDeleteFor_ok_spec (dlist : List (WithTop ℚ)) (np p : ℕ)
    (dl : List ℕ) (h : boundaryDeleteFor dlist np p = Except.ok dl) :
    ∃ (cd : List (WithTop ℚ)) (minidx : ℕ),
      mapE (fun f => listGetE dlist f)
        (strideIdxs (dlist.length + 1) p np dlist.length) = Except.ok cd ∧
      cd.isEmpty = false ∧
      firstIdx (fun d => decide (d = cd.foldl min ⊤)) cd = some minidx ∧
      dl = (if cd.foldl min ⊤ < ((eps12 : ℚ) : WithTop ℚ)
          then [p + minidx * np] else []) ++
        (strideIdxs (dlist.length + 1) p np dlist.length).filter
          (fun i => decide (i ≠ p + minidx * np)) := by
  rw [boundaryDeleteFor] at h
  rcases except_bind_ok h with ⟨cd, hcd, h⟩
  rcases except_bind_ok h with ⟨md, hmd, h⟩
  rw [npMinW] at hmd
  by_cases hemp : cd.isEmpty
  · rw [if_pos hemp] at hmd; exact absurd hmd (by simp)
  · rw [if_neg hemp, Except.ok.injEq] at hmd
    subst hmd
    rcases except_bind_ok h with ⟨minidx, hfi, h⟩
    cases hfi2 : firstIdx (fun d => decide (d = cd.foldl min ⊤)) cd with
    | none => rw [hfi2] at hfi; exact absurd hfi (by simp)
    | some k =>
      rw [hfi2] at hfi
      rw [Except.ok.injEq] at hfi
      subst hfi
      rw [Except.ok.injEq] at h
      exact ⟨cd, k, hcd, by simpa using hemp, hfi2, h.symm⟩

theorem boundaryInnerEmit (elen : Pt → Pt → ℚ) (points : List Pt) (index : ℤ)
    (type : ℤ) (dp : List (WithTop ℚ) × List ℤ) :
    ∀ (m : ℕ) (acc0 acc : BoundaryOut),
      (List.range m).foldlM
        (fun (acc : BoundaryOut) ipoint => do
          let pi ← listGetE points ipoint
          let pb ← pyGetE points index
          let rp0 := ptSub pi pb
          let nrp := elen pi pb
          let rp := if eps12 < nrp then ptSmul (1 / nrp) rp0 else rp0
          let dv ← listGetE dp.1 ipoint
          Except.ok (⟨acc.bedges1 ++ [index], acc.bedges2 ++ [Int.ofNat ipoint],
            acc.rel_positions ++ [rp], acc.dists ++ [dv], acc.types ++ [type]⟩ :
              BoundaryOut))
        acc0 = Except.ok acc →
      m ≤ dp.1.length ∧
      acc.bedges1 = acc0.bedges1 ++ List.replicate m index ∧
      acc.bedges2 = acc0.bedges2 ++ (List.range m).map Int.ofNat ∧
      acc.dists = acc0.dists ++ (List.range m).filterMap (fun q => dp.1[q]?) ∧
      acc.types = acc0.types ++ List.replicate m type := by
  intro m
  induction m with
  | zero =>
    intro acc0 acc h
    rw [List.range_zero, List.foldlM_nil, pure_eq_ok, Except.ok.injEq] at h
    subst h
    exact ⟨Nat.zero_le _, by simp, by simp, by simp, by simp⟩
  | succ m ih =>
    intro acc0 acc h
    rw [List.range_succ, List.foldlM_append] at h
    rcases except_bind_ok h with ⟨acc1, hpre, hlast⟩
    obtain ⟨hm, he1, he2, hed, het⟩ := ih acc0 acc1 hpre
    rw [List.foldlM_cons] at hlast
    rcases except_bind_ok hlast with ⟨acc2, hstep, hnil⟩
    rw [List.foldlM_nil, pure_eq_ok, Except.ok.injEq] at hnil
    subst hnil
    rcases except_bind_ok hstep with ⟨pi, hpi, hstep⟩
    rcases except_bind_ok hstep with ⟨pb, hpb, hstep⟩
    rcases except_bind_ok hstep with ⟨dv, hdv, hstep⟩
    rw [Except.ok.injEq] at hstep
    subst hstep
    have hdvm : dp.1[m]? = some dv := listGetE_ok hdv
    have hm1 : m < dp.1.length := by
      rcases List.getElem?_eq_some.mp hdvm with ⟨hlt, _⟩
      exact hlt
    have hfm : List.filterMap (fun q => dp.1[q]?) [m] = [dv] := by
      simp [hdvm]
    refine ⟨by omega, ?_, ?_, ?_, ?_⟩
    · show acc1.bedges1 ++ [index] = acc0.bedges1 ++ List.replicate (m + 1) index
      rw [he1, List.append_assoc, ← List.replicate_succ']
    · show acc1.bedges2 ++ [Int.ofNat m] =
        acc0.bedges2 ++ (List.range (m + 1)).map Int.ofNat
      rw [he2, List.append_assoc, List.range_succ, List.map_append]
      rfl
    · show acc1.dists ++ [dv] =
        acc0.dists ++ (List.range (m + 1)).filterMap (fun q => dp.1[q]?)
      rw [hed, List.append_assoc, List.range_succ, List.filterMap_append, hfm]
    · show acc1.types ++ [type] = acc0.types ++ List.replicate (m + 1) type
      rw [het, List.append_assoc, ← List.replicate_succ']

theorem boundaryOuterEmit (elen : Pt → Pt → ℚ) (points : List Pt)
    (indices : Indices) (edges1 edges2 : List ℤ) :
    ∀ (idxs : List ℤ) (acc0 acc : BoundaryOut),
      idxs.foldlM
        (fun (acc : BoundaryOut) index => do
          let dp ← dijkstra_algorithm elen points edges1 edges2 index
          let type : ℤ := if index ∈ indices.inlet then 1 else 2
          (List.range points.length).foldlM
            (fun (acc : BoundaryOut) ipoint => do
              let pi ← listGetE points ipoint
              let pb ← pyGetE points index
              let rp0 := ptSub pi pb
              let nrp := elen pi pb
              let rp := if eps12 < nrp then ptSmul (1 / nrp) rp0 else rp0
              let dv ← listGetE dp.1 ipoint
              Except.ok (⟨acc.bedges1 ++ [index],
                acc.bedges2 ++ [Int.ofNat ipoint],
                acc.rel_positions ++ [rp], acc.dists ++ [dv],
                acc.types ++ [type]⟩ : BoundaryOut))
            acc)
        acc0 = Except.ok acc →
      ∃ rows : List (List (WithTop ℚ)),
        mapE (fun index =>
            Except.map Prod.fst (dijkstra_algorithm elen points edges1 edges2 index))
          idxs = Except.ok rows ∧
        (∀ row ∈ rows, points.length ≤ row.length) ∧
        acc.bedges1 = acc0.bedges1 ++
          idxs.bind (fun i => List.replicate points.length i) ∧
        acc.bedges2 = acc0.bedges2 ++
          idxs.bind (fun _ => (List.range points.length).map Int.ofNat) ∧
        acc.dists = acc0.dists ++
          rows.bind (fun row =>
            (List.range points.length).filterMap (fun q => row[q]?)) ∧
        acc.types = acc0.types ++
          idxs.bind (fun i =>
            List.replicate points.length (if i ∈ indices.inlet then (1 : ℤ) else 2)) := by
  intro idxs
  induction idxs with
  | nil =>
    intro acc0 acc h
    rw [List.foldlM_nil, pure_eq_ok, Except.ok.injEq] at h
    subst h
    exact ⟨[], rfl, by simp, by simp, by simp, by simp, by simp⟩
  | cons index rest ih =>
    intro acc0 acc h
    rw [List.foldlM_cons] at h
    rcases except_bind_ok h with ⟨acc1, hstep, hrest⟩
    rcases except_bind_ok hstep with ⟨dp, hdijk, hinner⟩
    obtain ⟨hmlen, he1, he2, hed, het⟩ :=
      boundaryInnerEmit elen points index
        (if index ∈ indices.inlet then (1 : ℤ) else 2) dp points.length acc0 acc1
        hinner
    obtain ⟨rows2, hrows2, hrlen2, he1r, he2r, hedr, hetr⟩ := ih acc1 acc hrest
    refine ⟨dp.1 :: rows2, ?_, ?_, ?_, ?_, ?_, ?_⟩
    · rw [mapE, hdijk]
      rw [show Except.map Prod.fst (Except.ok dp) =
        (Except.ok dp.1 : Except PyErr (List (WithTop ℚ))) from rfl]
      rw [ok_bind, hrows2, ok_bind]
    · intro row hrow
      rcases List.mem_cons.mp hrow with rfl | hrow2
      · exact hmlen
      · exact hrlen2 row hrow2
    · rw [he1r, he1, cons_bind_eq, List.append_assoc]
    · rw [he2r, he2, cons_bind_eq, List.append_assoc]
    · rw [hedr, hed, cons_bind_eq, List.append_assoc]
    · rw [hetr, het, cons_bind_eq, List.append_assoc]

theorem boundaryDelFold (dlist : List (WithTop ℚ)) (npoints : ℕ) :
    ∀ (m : ℕ) (ps0 ps : List ℕ),
      (List.range m).foldlM
        (fun (ps : List ℕ) ipoint => do
          let new ← boundaryDeleteFor dlist npoints ipoint
          Except.ok (ps ++ new)) ps0 = Except.ok ps →
      (∀ q, q < m → ∃ dl, boundaryDeleteFor dlist npoints q = Except.ok dl) ∧
      (∀ i, i ∈ ps ↔ i ∈ ps0 ∨ ∃ q, q < m ∧ ∃ dl,
        boundaryDeleteFor dlist npoints q = Except.ok dl ∧ i ∈ dl) := by
  intro m
  induction m with
  | zero =>
    intro ps0 ps h
    rw [List.range_zero, List.foldlM_nil, pure_eq_ok, Except.ok.injEq] at h
    subst h
    exact ⟨fun q hq => absurd hq (Nat.not_lt_zero q), fun i => by simp⟩
  | succ m ih =>
    intro ps0 ps h
    rw [List.range_succ, List.foldlM_append] at h
    rcases except_bind_ok h with ⟨ps1, hpre, hlast⟩
    obtain ⟨hsucc, hmem⟩ := ih ps0 ps1 hpre
    rw [List.foldlM_cons] at hlast
    rcases except_bind_ok hlast with ⟨ps2, hstep, hnil⟩
    rw [List.foldlM_nil, pure_eq_ok, Except.ok.injEq] at hnil
    subst hnil
    rcases except_bind_ok hstep with ⟨dlm, hdlm, hstep⟩
    rw [Except.ok.injEq] at hstep
    subst hstep
    constructor
    · intro q hq
      rcases Nat.lt_succ_iff_lt_or_eq.mp hq with hq2 | rfl
      · exact hsucc q hq2
      · exact ⟨dlm, hdlm⟩
    · intro i
      rw [List.mem_append, hmem i]
      constructor
      · rintro ((hi | ⟨q, hq, dl, hdl, hidl⟩) | hidlm)
        · exact Or.inl hi
        · exact Or.inr ⟨q, by omega, dl, hdl, hidl⟩
        · exact Or.inr ⟨m, by omega, dlm, hdlm, hidlm⟩
      · rintro (hi | ⟨q, hq, dl, hdl, hidl⟩)
        · exact Or.inl (Or.inl hi)
        · rcases Nat.lt_succ_iff_lt_or_eq.mp hq with hq2 | rfl
          · exact Or.inl (Or.inr ⟨q, hq2, dl, hdl, hidl⟩)
          · rw [hdlm, Except.ok.injEq] at hdl
            subst hdl
            exact Or.inr hidl

/-- **C4.** For every input on which `generate_boundary_edges` succeeds and every
target point `p`, consider the candidate boundary distances for `p` (Dijkstra
distances from each boundary point, inlet first).  When their minimum is at
least `1e-12`, exactly one boundary edge pointing at `p` is retained: its
boundary endpoint is the first boundary index attaining the minimum distance
(ties broken by first-found index) and its recorded distance is that minimum;
when the minimum is below `1e-12`, no boundary edge pointing at `p` is
retained. -/
theorem boundary_edges_closest (elen : Pt → Pt → ℚ) (points : List Pt)
    (indices : Indices) (edges1 edges2 : List ℤ) (out : BoundaryOut) (p : ℕ)
    (h : generate_boundary_edges elen points indices edges1 edges2 = Except.ok out)
    (hp : p < points.length) :
    ∃ cds : List (WithTop ℚ),
      boundaryCandDists elen points indices edges1 edges2 p = Except.ok cds ∧
      (cds.foldl min ⊤ < ((eps12 : ℚ) : WithTop ℚ) →
        ∀ j : ℕ, out.bedges2[j]? ≠ some (Int.ofNat p)) ∧
      (¬ cds.foldl min ⊤ < ((eps12 : ℚ) : WithTop ℚ) →
        ∃ j k : ℕ,
          out.bedges2[j]? = some (Int.ofNat p) ∧
          (∀ j2 : ℕ, out.bedges2[j2]? = some (Int.ofNat p) → j2 = j) ∧
          firstIdx (fun d => decide (d = cds.foldl min ⊤)) cds = some k ∧
          out.bedges1[j]? = (indices.inlet ++ indices.outlets)[k]? ∧
          out.dists[j]? = some (cds.foldl min ⊤)) := by
  rw [generate_boundary_edges] at h
  rcases except_bind_ok h with ⟨acc, hacc, h⟩
  rcases except_bind_ok h with ⟨etd, hetd, h⟩
  rcases except_bind_ok h with ⟨b1, hb1, h⟩
  rcases except_bind_ok h with ⟨b2, hb2, h⟩
  rcases except_bind_ok h with ⟨rel, hrel, h⟩
  rcases except_bind_ok h with ⟨ds, hds, h⟩
  rcases except_bind_ok h with ⟨tys, htys, h⟩
  rw [Except.ok.injEq] at h
  have hout_eq : out = (⟨b1, b2, rel, ds, tys⟩ : BoundaryOut) := h.symm
  obtain ⟨rows, hrows, hrowlen, hE1, hE2, hED, hET⟩ :=
    boundaryOuterEmit elen points indices edges1 edges2
      (indices.inlet ++ indices.outlets) ⟨[], [], [], [], []⟩ acc hacc
  simp only [List.nil_append] at hE1 hE2 hED hET
  have hn : 0 < points.length := lt_of_le_of_lt (Nat.zero_le p) hp
  have hseglen : ∀ row ∈ rows,
      ((List.range points.length).filterMap (fun q => row[q]?)).length =
        points.length := by
    intro row hr
    have hall : ∀ q ∈ List.range points.length, (row[q]?).isSome := by
      intro q hq
      rw [List.mem_range] at hq
      rw [List.getElem?_eq_getElem (lt_of_lt_of_le hq (hrowlen row hr))]
      rfl
    rw [filterMap_all_some_length _ _ hall, List.length_range]
  set n := points.length with hndef
  set idxs := indices.inlet ++ indices.outlets with hidef
  set nb := idxs.length with hnbdef
  have hnbrows : rows.length = nb := mapE_ok_length _ _ _ hrows
  have hdlen : acc.dists.length = nb * n := by
    rw [hED, bind_const_len_length _ n rows hseglen, hnbrows]
  have hb1len : acc.bedges1.length = nb * n := by
    rw [hE1, bind_const_len_length _ n idxs
      (fun a _ => by rw [List.length_replicate])]
  have hb2len : acc.bedges2.length = nb * n := by
    rw [hE2, bind_const_len_length _ n idxs
      (fun a _ => by rw [List.length_map, List.length_range])]
  obtain ⟨hall_del, hmem_etd⟩ := boundaryDelFold acc.dists n n [] etd hetd
  have hpn : p < n := hp
  obtain ⟨dlp, hdlp⟩ := hall_del p hpn
  obtain ⟨cd, minidx, hcd, hcdne, hfi, hdlpeq⟩ :=
    boundaryDeleteFor_ok_spec acc.dists n p dlp hdlp
  rw [hdlen] at hcd hdlpeq
  have hstr : ∀ b : ℕ, (strideIdxs (nb * n + 1) p n (nb * n))[b]? =
      if p + b * n < nb * n then some (p + b * n) else none := by
    intro b
    exact strideIdxs_getElem n hn (nb * n + 1) p (nb * n) b (by omega)
  have hstrlen : (strideIdxs (nb * n + 1) p n (nb * n)).length = nb :=
    strideIdxs_col_length n nb p (nb * n + 1) hn hpn (by omega)
  have hcdlen : cd.length = nb := by
    have hl := mapE_ok_length _ _ _ hcd
    rw [hstrlen] at hl
    exact hl
  have hcol : ∀ b, b < nb →
      ∃ y, cd[b]? = some y ∧ acc.dists[p + b * n]? = some y := by
    intro b hb
    have hlt : p + b * n < nb * n := by
      have h2 : (b + 1) * n = b * n + n := by ring
      have h3 : (b + 1) * n ≤ nb * n := Nat.mul_le_mul_right n (by omega)
      omega
    have hsb : (strideIdxs (nb * n + 1) p n (nb * n))[b]? = some (p + b * n) := by
      rw [hstr b, if_pos hlt]
    obtain ⟨y, hy, hcdy⟩ := mapE_ok_get _ _ _ hcd b _ hsb
    exact ⟨y, hcdy, listGetE_ok hy⟩
  have hdentry : ∀ i : ℕ, acc.dists[i]? =
      (rows[i / n]?).bind (fun row =>
        ((List.range n).filterMap (fun q => row[q]?))[i % n]?) := by
    intro i
    rw [hED]
    exact bind_const_len_getElem _ n hn rows hseglen i
  have hrow_at : ∀ b, b < nb →
      ∃ row, rows[b]? = some row ∧ row ∈ rows ∧ p < row.length := by
    intro b hb
    have hb' : b < rows.length := by rw [hnbrows]; exact hb
    have hsome : rows[b]? = some rows[b] := List.getElem?_eq_getElem hb'
    have hmem : rows[b] ∈ rows := mem_of_getElem?_eq_some hsome
    exact ⟨rows[b], hsome, hmem, lt_of_lt_of_le hpn (hrowlen _ hmem)⟩
  have hdcol : ∀ b, b < nb → ∀ row, rows[b]? = some row →
      acc.dists[p + b * n]? = row[p]? := by
    intro b hb row hrowb
    have hmem : row ∈ rows := mem_of_getElem?_eq_some hrowb
    have hall : ∀ q ∈ List.range n, (row[q]?).isSome := by
      intro q hq
      rw [List.mem_range] at hq
      rw [List.getElem?_eq_getElem (lt_of_lt_of_le hq (hrowlen row hmem))]
      rfl
    have hdiv : (p + b * n) / n = b := by
      rw [Nat.add_mul_div_right _ _ hn, Nat.div_eq_of_lt hpn, Nat.zero_add]
    have hmod : (p + b * n) % n = p := by
      rw [Nat.add_mul_mod_self_right, Nat.mod_eq_of_lt hpn]
    rw [hdentry (p + b * n), hdiv, hmod, hrowb, Option.some_bind,
      filterMap_all_some_getElem _ _ hall p, List.getElem?_range hpn,
      Option.some_bind]
  have hbcd : boundaryCandDists elen points indices edges1 edges2 p =
      Except.ok (rows.map (fun row => (row[p]?).getD ⊤)) := by
    rw [boundaryCandDists]
    refine mapE_map_ok _ _ _ idxs rows hrows ?_
    intro a ha row hrow hfa
    cases hd : dijkstra_algorithm elen points edges1 edges2 a with
    | error e =>
      rw [hd] at hfa
      exact Except.noConfusion hfa
    | ok dp =>
      rw [hd] at hfa
      rw [show Except.map Prod.fst (Except.ok dp) =
        (Except.ok dp.1 : Except PyErr (List (WithTop ℚ))) from rfl,
        Except.ok.injEq] at hfa
      show (do
          let dp2 ← (Except.ok dp : Except PyErr (List (WithTop ℚ) × List ℤ))
          listGetE dp2.1 p) = Except.ok ((row[p]?).getD ⊤)
      rw [ok_bind, hfa]
      have hpl : p < row.length := lt_of_lt_of_le hpn (hrowlen row hrow)
      have hval : row[p]? = some ((row[p]?).getD ⊤) := by
        rw [List.getElem?_eq_getElem hpl]
        rfl
      exact listGetE_some hval
  have hcdseq : cd = rows.map (fun row => (row[p]?).getD ⊤) := by
    apply List.ext_getElem?
    intro b
    by_cases hb : b < nb
    · obtain ⟨y, hcdy, hdy⟩ := hcol b hb
      obtain ⟨row, hrowb, hmem, hpl⟩ := hrow_at b hb
      have hdc := hdcol b hb row hrowb
      rw [hdc] at hdy
      rw [hcdy, List.getElem?_map, hrowb, Option.map_some', hdy]
      rfl
    · push_neg at hb
      rw [List.getElem?_eq_none (by rw [hcdlen]; exact hb),
        List.getElem?_eq_none (by rw [List.length_map, hnbrows]; exact hb)]
  have hresidue : ∀ q, q < n → ∀ dl,
      boundaryDeleteFor acc.dists n q = Except.ok dl → ∀ i ∈ dl, i % n = q := by
    intro q hq dl hdl i hidl
    obtain ⟨cdq, mq, hcdq, hcdqne, hfq, hdleq⟩ :=
      boundaryDeleteFor_ok_spec acc.dists n q dl hdl
    rw [hdlen] at hdleq
    rw [hdleq] at hidl
    rcases List.mem_append.mp hidl with hhead | hfilt
    · have hiq : i = q + mq * n := by
        by_cases hc : cdq.foldl min ⊤ < ((eps12 : ℚ) : WithTop ℚ)
        · rw [if_pos hc] at hhead
          simpa using hhead
        · rw [if_neg hc] at hhead
          simp at hhead
      rw [hiq, Nat.add_mul_mod_self_right, Nat.mod_eq_of_lt hq]
    · have hicur : i ∈ strideIdxs (nb * n + 1) q n (nb * n) :=
        (List.mem_filter.mp hfilt).1
      obtain ⟨b, hbsome⟩ := List.mem_iff_getElem?.mp hicur
      rw [strideIdxs_getElem n hn (nb * n + 1) q (nb * n) b (by omega)] at hbsome
      by_cases hcc : q + b * n < nb * n
      · rw [if_pos hcc, Option.some.injEq] at hbsome
        rw [← hbsome, Nat.add_mul_mod_self_right, Nat.mod_eq_of_lt hq]
      · rw [if_neg hcc] at hbsome
        exact Option.noConfusion hbsome
  have hmem2 : ∀ i, i ∈ etd ↔ ∃ q, q < n ∧ ∃ dl,
      boundaryDeleteFor acc.dists n q = Except.ok dl ∧ i ∈ dl := by
    intro i
    rw [hmem_etd i]
    simp only [List.not_mem_nil, false_or]
  have hkeptmod : (p + minidx * n) % n = p := by
    rw [Nat.add_mul_mod_self_right, Nat.mod_eq_of_lt hpn]
  have hkeptdiv : (p + minidx * n) / n = minidx := by
    rw [Nat.add_mul_div_right _ _ hn, Nat.div_eq_of_lt hpn, Nat.zero_add]
  have hminlt : minidx < nb := by
    have hlt := (firstIdx_some_spec _ cd minidx hfi).1
    rw [hcdlen] at hlt
    exact hlt
  have hkeptlt : p + minidx * n < nb * n := by
    have h2 : (minidx + 1) * n = minidx * n + n := by ring
    have h3 : (minidx + 1) * n ≤ nb * n := Nat.mul_le_mul_right n (by omega)
    omega
  have hdlpmem : ∀ i, i < nb * n → i % n = p →
      (i ∈ dlp ↔
        ((cd.foldl min ⊤ < ((eps12 : ℚ) : WithTop ℚ) ∧ i = p + minidx * n) ∨
          i ≠ p + minidx * n)) := by
    intro i hilt himod
    rw [hdlpeq, List.mem_append]
    constructor
    · rintro (hhead | hfilt)
      · by_cases hc : cd.foldl min ⊤ < ((eps12 : ℚ) : WithTop ℚ)
        · rw [if_pos hc] at hhead
          exact Or.inl ⟨hc, by simpa using hhead⟩
        · rw [if_neg hc] at hhead
          simp at hhead
      · have hne := (List.mem_filter.mp hfilt).2
        simp only [decide_eq_true_eq] at hne
        exact Or.inr hne
    · rintro (⟨hc, reqk⟩ | hne)
      · left
        rw [if_pos hc]
        simp [reqk]
      · right
        rw [List.mem_filter]
        refine ⟨?_, by simpa using hne⟩
        have hdm := Nat.div_add_mod i n
        have hcomm : (i / n) * n = n * (i / n) := Nat.mul_comm _ _
        have hi' : p + (i / n) * n = i := by omega
        have hsome : (strideIdxs (nb * n + 1) p n (nb * n))[i / n]? = some i := by
          rw [strideIdxs_getElem n hn (nb * n + 1) p (nb * n) (i / n) (by omega),
            hi', if_pos hilt]
        exact mem_of_getElem?_eq_some hsome
  have hsurv : ∀ i, i < nb * n → i % n = p →
      (i ∉ etd ↔
        (i = p + minidx * n ∧
          ¬ cd.foldl min ⊤ < ((eps12 : ℚ) : WithTop ℚ))) := by
    intro i hilt himod
    constructor
    · intro hnotin
      by_cases heq : i = p + minidx * n
      · refine ⟨heq, ?_⟩
        intro hc
        apply hnotin
        rw [hmem2 i]
        refine ⟨p, hpn, dlp, hdlp, ?_⟩
        rw [hdlpmem i hilt himod]
        exact Or.inl ⟨hc, heq⟩
      · exfalso
        apply hnotin
        rw [hmem2 i]
        exact ⟨p, hpn, dlp, hdlp, (hdlpmem i hilt himod).mpr (Or.inr heq)⟩
    · rintro ⟨heq, hnc⟩ hin
      rw [hmem2 i] at hin
      obtain ⟨q, hq, dl, hdl, hidl⟩ := hin
      have hqp : q = p := by
        have hr := hresidue q hq dl hdl i hidl
        omega
      subst hqp
      rw [hdlp, Except.ok.injEq] at hdl
      subst hdl
      rcases (hdlpmem i hilt himod).mp hidl with ⟨hc, _⟩ | hne
      · exact hnc hc
      · exact hne heq
  obtain ⟨hboundb1, hb1eq⟩ := npDeletePosE_ok hb1
  obtain ⟨hboundb2, hb2eq⟩ := npDeletePosE_ok hb2
  obtain ⟨hboundds, hdseq⟩ := npDeletePosE_ok hds
  have hB2 : out.bedges2 = npDeletePos acc.bedges2 etd := by
    rw [hout_eq]
    exact hb2eq
  have hB1 : out.bedges1 = npDeletePos acc.bedges1 etd := by
    rw [hout_eq]
    exact hb1eq
  have hDS : out.dists = npDeletePos acc.dists etd := by
    rw [hout_eq]
    exact hdseq
  have hget2 : ∀ j : ℕ, out.bedges2[j]? =
      ((survIdxs (nb * n) etd)[j]?).bind (fun i => acc.bedges2[i]?) := by
    intro j
    rw [hB2, npDeletePos_getElem, hb2len]
  have hget1 : ∀ j : ℕ, out.bedges1[j]? =
      ((survIdxs (nb * n) etd)[j]?).bind (fun i => acc.bedges1[i]?) := by
    intro j
    rw [hB1, npDeletePos_getElem, hb1len]
  have hgetd : ∀ j : ℕ, out.dists[j]? =
      ((survIdxs (nb * n) etd)[j]?).bind (fun i => acc.dists[i]?) := by
    intro j
    rw [hDS, npDeletePos_getElem, hdlen]
  have hval2 : ∀ i : ℕ, i < nb * n →
      acc.bedges2[i]? = some (Int.ofNat (i % n)) := by
    intro i hi
    rw [hE2, bind_const_len_getElem _ n hn idxs
      (fun a _ => by rw [List.length_map, List.length_range]) i]
    have hdiv : i / n < idxs.length := (Nat.div_lt_iff_lt_mul hn).mpr hi
    rw [List.getElem?_eq_getElem hdiv, Option.some_bind, List.getElem?_map,
      List.getElem?_range (Nat.mod_lt i hn), Option.map_some']
  have hval1 : ∀ i : ℕ, acc.bedges1[i]? = idxs[i / n]? := by
    intro i
    rw [hE1, bind_const_len_getElem _ n hn idxs
      (fun a _ => by rw [List.length_replicate]) i]
    cases hx : idxs[i / n]? with
    | none => rfl
    | some a =>
      rw [Option.some_bind]
      have hrep : (List.replicate n a)[i % n]? = some a := by
        rw [List.getElem?_replicate, if_pos (Nat.mod_lt i hn)]
      rw [hrep]
  refine ⟨rows.map (fun row => (row[p]?).getD ⊤), hbcd, ?_, ?_⟩
  · rw [← hcdseq]
    intro hcmin j hj2
    rw [hget2 j] at hj2
    rcases Option.bind_eq_some.mp hj2 with ⟨i, hsij, hvi⟩
    have hiin := mem_of_getElem?_eq_some hsij
    rw [mem_survIdxs] at hiin
    obtain ⟨hilt, hnotin⟩ := hiin
    rw [hval2 i hilt, Option.some.injEq] at hvi
    have himod : i % n = p := Int.ofNat.inj hvi
    exact ((hsurv i hilt himod).mp hnotin).2 hcmin
  · rw [← hcdseq]
    intro hncmin
    have hknot : (p + minidx * n) ∉ etd :=
      (hsurv _ hkeptlt hkeptmod).mpr ⟨rfl, hncmin⟩
    have hkin : (p + minidx * n) ∈ survIdxs (nb * n) etd := by
      rw [mem_survIdxs]
      exact ⟨hkeptlt, hknot⟩
    obtain ⟨j, hsj⟩ := List.mem_iff_getElem?.mp hkin
    refine ⟨j, minidx, ?_, ?_, hfi, ?_, ?_⟩
    · rw [hget2 j, hsj, Option.some_bind]
      show acc.bedges2[p + minidx * n]? = some (Int.ofNat p)
      rw [hval2 _ hkeptlt, hkeptmod]
    · intro j2 hj2
      rw [hget2 j2] at hj2
      rcases Option.bind_eq_some.mp hj2 with ⟨i, hsij2, hvi⟩
      have hiin := mem_of_getElem?_eq_some hsij2
      rw [mem_survIdxs] at hiin
      obtain ⟨hilt, hnotin⟩ := hiin
      rw [hval2 i hilt, Option.some.injEq] at hvi
      have himod : i % n = p := Int.ofNat.inj hvi
      have hieq : i = p + minidx * n := ((hsurv i hilt himod).mp hnotin).1
      rw [hieq] at hsij2
      exact nodup_getElem?_inj _ (survIdxs_nodup _ _) j2 j _ hsij2 hsj
    · rw [hget1 j, hsj, Option.some_bind]
      show acc.bedges1[p + minidx * n]? = idxs[minidx]?
      rw [hval1, hkeptdiv]
    · obtain ⟨y, hcdy, hdy⟩ := hcol minidx hminlt
      obtain ⟨-, ⟨x, hx, hpx⟩, -⟩ := firstIdx_some_spec _ cd minidx hfi
      rw [hcdy, Option.some.injEq] at hx
      have hxv : y = cd.foldl min ⊤ := by
        rw [hx]
        exact of_decide_eq_true hpx
      rw [hgetd j, hsj, Option.some_bind]
      show acc.dists[p + minidx * n]? = some (cd.foldl min ⊤)
      rw [hdy, Option.some.injEq]
      exact hxv

/-- A 3-point collinear chain used as a boundary-edge fixture. -/
def triPts : List Pt := [(0, 0, 0), (1, 0, 0), (2, 0, 0)]

/-- Forward/backward chain edges (sources) for the 3-point fixture. -/
def triE1 : List ℤ := [0, 1, 1, 2]

/-- Forward/backward chain edges (destinations) for the 3-point fixture. -/
def triE2 : List ℤ := [1, 2, 0, 1]

/-- Witness for `boundary_edges_closest` on the 3-point chain with inlet 0 and
outlet 2: the middle point keeps exactly one boundary edge, from the inlet,
at graph distance 1. -/
theorem boundary_edges_closest_witness :
    ∃ cds : List (WithTop ℚ),
      boundaryCandDists axisLen triPts ⟨[0], [2]⟩ triE1 triE2 1 = Except.ok cds ∧
      (cds.foldl min ⊤ < ((eps12 : ℚ) : WithTop ℚ) →
        ∀ j : ℕ,
          (⟨[0], [1], [(1, 0, 0)], [((1 : ℚ) : WithTop ℚ)], [1]⟩ :
            BoundaryOut).bedges2[j]? ≠ some (Int.ofNat 1)) ∧
      (¬ cds.foldl min ⊤ < ((eps12 : ℚ) : WithTop ℚ) →
        ∃ j k : ℕ,
          (⟨[0], [1], [(1, 0, 0)], [((1 : ℚ) : WithTop ℚ)], [1]⟩ :
            BoundaryOut).bedges2[j]? = some (Int.ofNat 1) ∧
          (∀ j2 : ℕ,
            (⟨[0], [1], [(1, 0, 0)], [((1 : ℚ) : WithTop ℚ)], [1]⟩ :
              BoundaryOut).bedges2[j2]? = some (Int.ofNat 1) → j2 = j) ∧
          firstIdx (fun d => decide (d = cds.foldl min ⊤)) cds = some k ∧
          (⟨[0], [1], [(1, 0, 0)], [((1 : ℚ) : WithTop ℚ)], [1]⟩ :
            BoundaryOut).bedges1[j]? = (([0] : List ℤ) ++ [2])[k]? ∧
          (⟨[0], [1], [(1, 0, 0)], [((1 : ℚ) : WithTop ℚ)], [1]⟩ :
            BoundaryOut).dists[j]? = some (cds.foldl min ⊤)) :=
  boundary_edges_closest axisLen triPts ⟨[0], [2]⟩ triE1 triE2
    ⟨[0], [1], [(1, 0, 0)], [((1 : ℚ) : WithTop ℚ)], [1]⟩ 1
    (by with_unfolding_all rfl) (by with_unfolding_all decide)

/-- One directed step of the graph walked by `dijkstra_algorithm`: `v` is an
out-neighbor of `u` in the edge table (`b_edges` row with first column `u`). -/
def dijkStepRel (edges1 edges2 : List ℤ) (u v : ℤ) : Prop :=
  v ∈ outNeighbors edges1 edges2 u

/-- Reachability along directed edges, as walked by `dijkstra_algorithm`. -/
def Reachable (edges1 edges2 : List ℤ) (s v : ℤ) : Prop :=
  Relation.ReflTransGen (dijkStepRel edges1 edges2) s v

/-- Loop invariant of `dijkstra_algorithm`: `tv` is the visit queue, `dists`
and `prevs` the tentative distance and predecessor arrays. -/
structure DijkInv (nodes : List Pt) (edges1 edges2 : List ℤ) (index : ℤ)
    (tv : List ℤ) (dists : List (WithTop ℚ)) (prevs : List ℤ) : Prop where
  hdlen : dists.length = nodes.length
  hplen : prevs.length = nodes.length
  htv_val : ∀ x ∈ tv, ∃ i, i < nodes.length ∧ x = Int.ofNat i
  htv_nd : tv.Nodup
  hnonneg : ∀ i : ℕ, ∀ d, dists[i]? = some d → (0 : WithTop ℚ) ≤ d
  hsrc : dists[index.toNat]? = some ((0 : ℚ) : WithTop ℚ)
  hfinreach : ∀ i : ℕ, ∀ d, i < nodes.length → dists[i]? = some d → d ≠ ⊤ →
    Reachable edges1 edges2 index (Int.ofNat i)
  hpopnbr : ∀ i : ℕ, ∀ d, i < nodes.length → Int.ofNat i ∉ tv →
    dists[i]? = some d → d ≠ ⊤ →
    ∀ b ∈ outNeighbors edges1 edges2 (Int.ofNat i),
      ∀ db, dists[b.toNat]? = some db → db ≠ ⊤
  hpoptop : ∀ i : ℕ, i < nodes.length → Int.ofNat i ∉ tv →
    dists[i]? = some ⊤ →
    ∀ j : ℕ, ∀ dj, j < nodes.length → dists[j]? = some dj → dj ≠ ⊤ →
      Int.ofNat j ∉ tv

theorem outNeighbors_subset (edges1 edges2 : List ℤ) (u : ℤ) :
    ∀ b ∈ outNeighbors edges1 edges2 u, b ∈ edges2 := by
  intro b hb
  rw [outNeighbors] at hb
  rcases List.mem_map.mp hb with ⟨ab, habm, hab2⟩
  obtain ⟨a1, b1⟩ := ab
  have hz := (List.mem_filter.mp habm).1
  have h2 := List.mem_zip hz
  rw [← hab2]
  exact h2.2

theorem pyGet_neg_one {α : Type} (l : List α) (hne : l ≠ []) :
    pyGet l (-1) = l[l.length - 1]? := by
  have hlen : 1 ≤ l.length := List.length_pos.mpr hne
  rw [pyGet, if_neg (by omega), if_pos (by omega)]
  have harith : ((l.length : ℤ) + (-1)).toNat = l.length - 1 := by omega
  rw [harith]

theorem npDeleteIdx_singleton {α : Type} (l : List α) (i : ℤ) (p : ℕ)
    (hp : npNormIdx l.length i = some p) :
    npDeleteIdx l [i] = Except.ok (npDeletePos l [p]) := by
  simp [npDeleteIdx, mapE, hp, ok_bind]

theorem mem_npDeletePos {α : Type} {l : List α} {ps : List ℕ} {x : α} :
    x ∈ npDeletePos l ps ↔ ∃ i, i ∉ ps ∧ l[i]? = some x := by
  rw [npDeletePos_eq_filterMap, List.mem_filterMap]
  constructor
  · rintro ⟨i, hi, hx⟩
    rw [mem_survIdxs] at hi
    exact ⟨i, hi.2, hx⟩
  · rintro ⟨i, hnp, hx⟩
    refine ⟨i, ?_, hx⟩
    rw [mem_survIdxs]
    rcases List.getElem?_eq_some.mp hx with ⟨hlt, _⟩
    exact ⟨hlt, hnp⟩

theorem npDeletePos_sublist {α : Type} (l : List α) (ps : List ℕ) :
    List.Sublist (npDeletePos l ps) l := by
  rw [npDeletePos]
  have h1 : List.Sublist (l.enum.filter (fun kx => decide (kx.1 ∉ ps))) l.enum :=
    List.filter_sublist _
  have h2 := h1.map Prod.snd
  rw [List.enum_map_snd] at h2
  exact h2

theorem npDeletePos_nodup {α : Type} (l : List α) (ps : List ℕ)
    (h : l.Nodup) : (npDeletePos l ps).Nodup :=
  (npDeletePos_sublist l ps).nodup h

theorem npDeletePos_subset {α : Type} (l : List α) (ps : List ℕ) :
    ∀ x ∈ npDeletePos l ps, x ∈ l :=
  fun _ hx => (npDeletePos_sublist l ps).mem hx

theorem not_mem_npDeletePos_self {α : Type} (l : List α) (pos : ℕ) (x : α)
    (hnd : l.Nodup) (hx : l[pos]? = some x) :
    x ∉ npDeletePos l [pos] := by
  intro hmem
  rcases mem_npDeletePos.mp hmem with ⟨i, hip, hix⟩
  have := nodup_getElem?_inj l hnd i pos x hix hx
  exact hip (by rw [this]; exact List.mem_singleton.mpr rfl)

theorem mem_npDeletePos_of_ne {α : Type} (l : List α) (pos : ℕ) (x y : α)
    (hx : l[pos]? = some x) (hy : y ∈ l) (hne : y ≠ x) :
    y ∈ npDeletePos l [pos] := by
  rcases List.mem_iff_getElem?.mp hy with ⟨i, hiy⟩
  refine mem_npDeletePos.mpr ⟨i, ?_, hiy⟩
  intro hip
  rcases List.mem_singleton.mp hip with rfl
  rw [hiy] at hx
  rw [Option.some.injEq] at hx
  exact hne hx

theorem dijkMinIdx_fold_spec (tovisit : List ℤ) (dists : List (WithTop ℚ))
    (hval : ∀ x ∈ tovisit, ∃ i, i < dists.length ∧ x = Int.ofNat i) :
    ∀ m : ℕ, m ≤ tovisit.length →
      ∃ acc : ℤ × WithTop ℚ,
        (List.range m).foldlM
          (fun (acc : ℤ × WithTop ℚ) iinde => do
            let node ← listGetE tovisit iinde
            let d ← pyGetE dists node
            if d < acc.2 then Except.ok (Int.ofNat iinde, d) else Except.ok acc)
          ((-1 : ℤ), (⊤ : WithTop ℚ)) = Except.ok acc ∧
        ((acc = (-1, ⊤) ∧ ∀ k, k < m → ∀ node : ℤ, tovisit[k]? = some node →
            dists[node.toNat]? = some ⊤) ∨
         (∃ ii node, ii < m ∧ acc.1 = Int.ofNat ii ∧ tovisit[ii]? = some node ∧
            dists[node.toNat]? = some acc.2 ∧ acc.2 ≠ ⊤ ∧
            (∀ k, k < m → ∀ node2 : ℤ, ∀ d2, tovisit[k]? = some node2 →
              dists[node2.toNat]? = some d2 → acc.2 ≤ d2))) := by
  intro m
  induction m with
  | zero =>
    intro _
    refine ⟨((-1 : ℤ), (⊤ : WithTop ℚ)), ?_, Or.inl ⟨rfl, ?_⟩⟩
    · rw [List.range_zero, List.foldlM_nil]
      rfl
    · intro k hk
      exact absurd hk (Nat.not_lt_zero k)
  | succ m ih =>
    intro hm1
    obtain ⟨acc, hfold, hcase⟩ := ih (by omega)
    have hmlt : m < tovisit.length := by omega
    have hnode : tovisit[m]? = some tovisit[m] := List.getElem?_eq_getElem hmlt
    obtain ⟨jm, hjm, hjeq⟩ := hval tovisit[m] (mem_of_getElem?_eq_some hnode)
    have htn : (tovisit[m]).toNat = jm := by rw [hjeq]; rfl
    have hdm2 : dists[jm]? = some dists[jm] := List.getElem?_eq_getElem hjm
    have hpg : pyGetE dists tovisit[m] = Except.ok dists[jm] := by
      apply pyGetE_some
      rw [hjeq, pyGet_ofNat]
      exact hdm2
    by_cases hlt : dists[jm] < acc.2
    · refine ⟨((Int.ofNat m : ℤ), dists[jm]), ?_, ?_⟩
      · rw [List.range_succ, List.foldlM_append, hfold, ok_bind]
        simp only [List.foldlM_cons, List.foldlM_nil, bind_pure,
          listGetE_some hnode, ok_bind, hpg]
        rw [if_pos hlt]
      · right
        refine ⟨m, tovisit[m], by omega, rfl, hnode, ?_, ne_top_of_lt hlt, ?_⟩
        · show dists[(tovisit[m]).toNat]? = some dists[jm]
          rw [htn]
          exact hdm2
        · intro k hk node2 d2 hke hde
          by_cases hkm : k < m
          · rcases hcase with ⟨haccEq, hall⟩ | ⟨ii, node, hii, hacc1, hnodeii, hdii, hne, hmin⟩
            · have hd2top := hall k hkm node2 hke
              rw [hde] at hd2top
              rw [Option.some.injEq] at hd2top
              rw [hd2top]
              exact le_top
            · exact le_trans (le_of_lt hlt) (hmin k hkm node2 d2 hke hde)
          · have hkm2 : k = m := by omega
            subst hkm2
            rw [hnode] at hke
            rw [Option.some.injEq] at hke
            subst hke
            rw [htn, hdm2] at hde
            rw [Option.some.injEq] at hde
            rw [hde]
    · refine ⟨acc, ?_, ?_⟩
      · rw [List.range_succ, List.foldlM_append, hfold, ok_bind]
        simp only [List.foldlM_cons, List.foldlM_nil, bind_pure,
          listGetE_some hnode, ok_bind, hpg]
        rw [if_neg hlt]
      · rcases hcase with ⟨haccEq, hall⟩ | ⟨ii, node, hii, hacc1, hnodeii, hdii, hne, hmin⟩
        · left
          refine ⟨haccEq, ?_⟩
          intro k hk node2 hke
          by_cases hkm : k < m
          · exact hall k hkm node2 hke
          · have hkm2 : k = m := by omega
            subst hkm2
            rw [hnode] at hke
            rw [Option.some.injEq] at hke
            subst hke
            have hacc2 : acc.2 = ⊤ := by rw [haccEq]
            rw [hacc2] at hlt
            have hjt : dists[jm] = ⊤ := by
              by_contra hc
              exact hlt (WithTop.lt_top_iff_ne_top.mpr hc)
            rw [htn, hdm2, hjt]
        · right
          refine ⟨ii, node, by omega, hacc1, hnodeii, hdii, hne, ?_⟩
          intro k hk node2 d2 hke hde
          by_cases hkm : k < m
          · exact hmin k hkm node2 d2 hke hde
          · have hkm2 : k = m := by omega
            subst hkm2
            rw [hnode] at hke
            rw [Option.some.injEq] at hke
            subst hke
            rw [htn, hdm2] at hde
            rw [Option.some.injEq] at hde
            rw [← hde]
            exact not_lt.mp hlt

theorem dijkMinIdx_spec (tovisit : List ℤ) (dists : List (WithTop ℚ))
    (hval : ∀ x ∈ tovisit, ∃ i, i < dists.length ∧ x = Int.ofNat i) :
    ∃ acc : ℤ × WithTop ℚ,
      dijkMinIdx tovisit dists = Except.ok acc ∧
      ((acc = (-1, ⊤) ∧ ∀ k, k < tovisit.length → ∀ node : ℤ,
          tovisit[k]? = some node → dists[node.toNat]? = some ⊤) ∨
       (∃ ii node, ii < tovisit.length ∧ acc.1 = Int.ofNat ii ∧
          tovisit[ii]? = some node ∧
          dists[node.toNat]? = some acc.2 ∧ acc.2 ≠ ⊤ ∧
          (∀ k, k < tovisit.length → ∀ node2 : ℤ, ∀ d2,
            tovisit[k]? = some node2 →
            dists[node2.toNat]? = some d2 → acc.2 ≤ d2))) := by
  obtain ⟨acc, hfold, hcase⟩ :=
    dijkMinIdx_fold_spec tovisit dists hval tovisit.length (le_refl _)
  exact ⟨acc, hfold, hcase⟩

theorem pyGetE_ofNat {α : Type} (l : List α) (j : ℕ) (x : α)
    (hx : l[j]? = some x) : pyGetE l (Int.ofNat j) = Except.ok x := by
  apply pyGetE_some
  rw [pyGet_ofNat]
  exact hx

theorem pySetE_ofNat {α : Type} (l : List α) (j : ℕ) (v : α)
    (hj : j < l.length) : pySetE l (Int.ofNat j) v = Except.ok (l.set j v) := by
  have h1 : npNormIdx l.length (Int.ofNat j) = some j := by
    rw [npNormIdx, if_pos]
    · rfl
    · refine ⟨Int.ofNat_nonneg j, ?_⟩
      rw [Int.ofNat_eq_natCast]
      exact_mod_cast hj
  rw [pySetE, pySet, h1]

theorem relaxAll_spec (elen : Pt → Pt → ℚ) (nodes : List Pt) (c : ℕ)
    (hcn : c < nodes.length) (tv2 : List ℤ) (hcnotin : Int.ofNat c ∉ tv2) :
    ∀ inb : List ℤ, (∀ b ∈ inb, ∃ j, j < nodes.length ∧ b = Int.ofNat j) →
    ∀ (dists : List (WithTop ℚ)) (prevs : List ℤ),
      dists.length = nodes.length → prevs.length = nodes.length →
      ∃ dists2 prevs2,
        relaxAll elen nodes (Int.ofNat c) inb tv2 dists prevs =
          Except.ok (dists2, prevs2) ∧
        dists2.length = dists.length ∧ prevs2.length = prevs.length ∧
        (∀ i : ℕ, Int.ofNat i ∉ tv2 → dists2[i]? = dists[i]?) ∧
        (∀ i : ℕ, ∀ d2, dists2[i]? = some d2 →
          ∃ d1, dists[i]? = some d1 ∧ d2 ≤ d1) ∧
        (∀ i : ℕ, ∀ d2, dists2[i]? = some d2 → dists[i]? = some d2 ∨
          (Int.ofNat i ∈ tv2 ∧ Int.ofNat i ∈ inb ∧
            ∃ dc dn1 pc pv, dists[c]? = some dc ∧ dists[i]? = some dn1 ∧
              nodes[c]? = some pc ∧ nodes[i]? = some pv ∧
              d2 = dc + ((elen pc pv : ℚ) : WithTop ℚ) ∧ d2 < dn1)) ∧
        (∀ b ∈ inb, b ∈ tv2 →
          ∃ d2 dc pc pb, dists2[b.toNat]? = some d2 ∧ dists[c]? = some dc ∧
            nodes[c]? = some pc ∧ nodes[b.toNat]? = some pb ∧
            d2 ≤ dc + ((elen pc pb : ℚ) : WithTop ℚ)) := by
  intro inb
  induction inb with
  | nil =>
    intro _ dists prevs hdl hpl
    refine ⟨dists, prevs, rfl, rfl, rfl, fun i _ => rfl,
      fun i d2 h => ⟨d2, h, le_refl d2⟩, fun i d2 h => Or.inl h,
      fun b hb => absurd hb (List.not_mem_nil b)⟩
  | cons neib rest ih =>
    intro hvalid dists prevs hdl hpl
    obtain ⟨jb, hjbn, hbeq⟩ := hvalid neib (List.mem_cons_self neib rest)
    subst hbeq
    have hvrest : ∀ b ∈ rest, ∃ j, j < nodes.length ∧ b = Int.ofNat j :=
      fun b hb => hvalid b (List.mem_cons_of_mem _ hb)
    have hclt : c < dists.length := by omega
    have hjbd : jb < dists.length := by omega
    have hjbp : jb < prevs.length := by omega
    have hdc_e : pyGetE dists (Int.ofNat c) = Except.ok dists[c] :=
      pyGetE_ofNat dists c dists[c] (List.getElem?_eq_getElem hclt)
    have hnc_e : pyGetE nodes (Int.ofNat c) = Except.ok nodes[c] :=
      pyGetE_ofNat nodes c nodes[c] (List.getElem?_eq_getElem hcn)
    have hnb_e : pyGetE nodes (Int.ofNat jb) = Except.ok nodes[jb] :=
      pyGetE_ofNat nodes jb nodes[jb] (List.getElem?_eq_getElem hjbn)
    have hdb_e : pyGetE dists (Int.ofNat jb) = Except.ok dists[jb] :=
      pyGetE_ofNat dists jb dists[jb] (List.getElem?_eq_getElem hjbd)
    have hdc_q : dists[c]? = some dists[c] := List.getElem?_eq_getElem hclt
    have hdb_q : dists[jb]? = some dists[jb] := List.getElem?_eq_getElem hjbd
    have hnc_q : nodes[c]? = some nodes[c] := List.getElem?_eq_getElem hcn
    have hnb_q : nodes[jb]? = some nodes[jb] := List.getElem?_eq_getElem hjbn
    by_cases hmem : (Int.ofNat jb : ℤ) ∈ tv2
    · have hcjb : c ≠ jb := by
        intro hceq
        apply hcnotin
        rw [hceq]
        exact hmem
      by_cases halt : dists[c] + ((elen nodes[c] nodes[jb] : ℚ) : WithTop ℚ) <
          dists[jb]
      · have heq : relaxAll elen nodes (Int.ofNat c)
            (Int.ofNat jb :: rest) tv2 dists prevs =
            relaxAll elen nodes (Int.ofNat c) rest tv2
              (dists.set jb (dists[c] +
                ((elen nodes[c] nodes[jb] : ℚ) : WithTop ℚ)))
              (prevs.set jb (Int.ofNat c)) := by
          rw [relaxAll, if_pos hmem]
          simp only [hdc_e, hnc_e, hnb_e, hdb_e, ok_bind]
          rw [if_pos halt]
          simp only [pySetE_ofNat dists jb _ hjbd, ok_bind,
            pySetE_ofNat prevs jb _ hjbp]
        obtain ⟨dists2, prevs2, hrec, hl1, hl2, hU, hM, hN, hR⟩ :=
          ih hvrest
            (dists.set jb (dists[c] +
              ((elen nodes[c] nodes[jb] : ℚ) : WithTop ℚ)))
            (prevs.set jb (Int.ofNat c))
            (by rw [List.length_set]; exact hdl)
            (by rw [List.length_set]; exact hpl)
        have hset_jb : (dists.set jb (dists[c] +
            ((elen nodes[c] nodes[jb] : ℚ) : WithTop ℚ)))[jb]? =
            some (dists[c] + ((elen nodes[c] nodes[jb] : ℚ) : WithTop ℚ)) :=
          List.getElem?_set_eq_of_lt _ hjbd
        have hset_ne : ∀ i : ℕ, i ≠ jb → (dists.set jb (dists[c] +
            ((elen nodes[c] nodes[jb] : ℚ) : WithTop ℚ)))[i]? = dists[i]? := by
          intro i hine
          exact List.getElem?_set_ne (fun hh => hine hh.symm)
        have hset_c : (dists.set jb (dists[c] +
            ((elen nodes[c] nodes[jb] : ℚ) : WithTop ℚ)))[c]? = dists[c]? :=
          hset_ne c hcjb
        refine ⟨dists2, prevs2, by rw [heq]; exact hrec, ?_, ?_, ?_, ?_, ?_, ?_⟩
        · rw [hl1, List.length_set]
        · rw [hl2, List.length_set]
        · intro i hintv
          have hine : i ≠ jb := by
            intro hh
            apply hintv
            rw [hh]
            exact hmem
          rw [hU i hintv, hset_ne i hine]
        · intro i d2 hd2
          obtain ⟨d1, hd1, hle⟩ := hM i d2 hd2
          by_cases hieq : i = jb
          · subst hieq
            rw [hset_jb] at hd1
            rw [Option.some.injEq] at hd1
            exact ⟨dists[i], List.getElem?_eq_getElem (by omega), by
              rw [← hd1] at hle
              exact le_of_lt (lt_of_le_of_lt hle halt)⟩
          · rw [hset_ne i hieq] at hd1
            exact ⟨d1, hd1, hle⟩
        · intro i d2 hd2
          rcases hN i d2 hd2 with hleft | ⟨hitv, hirest, dc, dn1, pc, pv,
              hdcq, hdn1q, hpcq, hpvq, hdeq, hdlt⟩
          · by_cases hieq : i = jb
            · subst hieq
              rw [hset_jb] at hleft
              rw [Option.some.injEq] at hleft
              right
              refine ⟨hmem, List.mem_cons_self _ _, dists[c], dists[i],
                nodes[c], nodes[i], hdc_q, List.getElem?_eq_getElem (by omega),
                hnc_q, List.getElem?_eq_getElem (by omega), hleft.symm, ?_⟩
              rw [← hleft]
              exact halt
            · left
              rw [hset_ne i hieq] at hleft
              exact hleft
          · rw [hset_c] at hdcq
            by_cases hieq : i = jb
            · subst hieq
              rw [hset_jb] at hdn1q
              rw [Option.some.injEq] at hdn1q
              right
              refine ⟨hitv, List.mem_cons_of_mem _ hirest, dc, dists[i],
                pc, pv, hdcq, List.getElem?_eq_getElem (by omega),
                hpcq, hpvq, hdeq, ?_⟩
              rw [← hdn1q] at hdlt
              exact lt_trans hdlt halt
            · right
              rw [hset_ne i hieq] at hdn1q
              exact ⟨hitv, List.mem_cons_of_mem _ hirest, dc, dn1, pc, pv,
                hdcq, hdn1q, hpcq, hpvq, hdeq, hdlt⟩
        · intro b hb hbtv
          rcases List.mem_cons.mp hb with rfl | hbrest
          · have hlen2 : jb < dists2.length := by
              rw [hl1, List.length_set]
              exact hjbd
            obtain ⟨d1, hd1, hle⟩ := hM jb dists2[jb]
              (List.getElem?_eq_getElem hlen2)
            rw [hset_jb] at hd1
            rw [Option.some.injEq] at hd1
            refine ⟨dists2[jb], dists[c], nodes[c], nodes[jb], ?_, hdc_q,
              hnc_q, ?_, ?_⟩
            · exact List.getElem?_eq_getElem hlen2
            · exact hnb_q
            · rw [← hd1] at hle
              exact hle
          · obtain ⟨d2, dc, pc, pb, hd2q, hdcq, hpcq, hpbq, hle⟩ :=
              hR b hbrest hbtv
            rw [hset_c] at hdcq
            exact ⟨d2, dc, pc, pb, hd2q, hdcq, hpcq, hpbq, hle⟩
      · have heq : relaxAll elen nodes (Int.ofNat c)
            (Int.ofNat jb :: rest) tv2 dists prevs =
            relaxAll elen nodes (Int.ofNat c) rest tv2 dists prevs := by
          rw [relaxAll, if_pos hmem]
          simp only [hdc_e, hnc_e, hnb_e, hdb_e, ok_bind]
          rw [if_neg halt]
        obtain ⟨dists2, prevs2, hrec, hl1, hl2, hU, hM, hN, hR⟩ :=
          ih hvrest dists prevs hdl hpl
        refine ⟨dists2, prevs2, by rw [heq]; exact hrec, hl1, hl2, hU, hM,
          ?_, ?_⟩
        · intro i d2 hd2
          rcases hN i d2 hd2 with hleft | ⟨hitv, hirest, rest2⟩
          · exact Or.inl hleft
          · exact Or.inr ⟨hitv, List.mem_cons_of_mem _ hirest, rest2⟩
        · intro b hb hbtv
          rcases List.mem_cons.mp hb with rfl | hbrest
          · have hlen2 : jb < dists2.length := by
              rw [hl1]
              exact hjbd
            obtain ⟨d1, hd1, hle⟩ := hM jb dists2[jb]
              (List.getElem?_eq_getElem hlen2)
            rw [hdb_q] at hd1
            rw [Option.some.injEq] at hd1
            refine ⟨dists2[jb], dists[c], nodes[c], nodes[jb], ?_, hdc_q,
              hnc_q, ?_, ?_⟩
            · exact List.getElem?_eq_getElem hlen2
            · exact hnb_q
            · rw [← hd1] at hle
              exact le_trans hle (not_lt.mp halt)
          · exact hR b hbrest hbtv
    · have heq : relaxAll elen nodes (Int.ofNat c)
          (Int.ofNat jb :: rest) tv2 dists prevs =
          relaxAll elen nodes (Int.ofNat c) rest tv2 dists prevs := by
        rw [relaxAll, if_neg hmem]
      obtain ⟨dists2, prevs2, hrec, hl1, hl2, hU, hM, hN, hR⟩ :=
        ih hvrest dists prevs hdl hpl
      refine ⟨dists2, prevs2, by rw [heq]; exact hrec, hl1, hl2, hU, hM,
        ?_, ?_⟩
      · intro i d2 hd2
        rcases hN i d2 hd2 with hleft | ⟨hitv, hirest, rest2⟩
        · exact Or.inl hleft
        · exact Or.inr ⟨hitv, List.mem_cons_of_mem _ hirest, rest2⟩
      · intro b hb hbtv
        rcases List.mem_cons.mp hb with rfl | hbrest
        · exact absurd hbtv hmem
        · exact hR b hbrest hbtv

theorem dijkLoop_inv (elen : Pt → Pt → ℚ) (nodes : List Pt)
    (edges1 edges2 : List ℤ) (index : ℤ)
    (helen : ∀ p q, 0 ≤ elen p q)
    (hval2 : ∀ b ∈ edges2, ∃ j, j < nodes.length ∧ b = Int.ofNat j) :
    ∀ (fuel : ℕ) (tv : List ℤ) (dists : List (WithTop ℚ)) (prevs : List ℤ),
      tv.length = fuel →
      DijkInv nodes edges1 edges2 index tv dists prevs →
      ∃ dists2 prevs2,
        dijkLoop elen nodes edges1 edges2 fuel tv dists prevs =
          Except.ok (dists2, prevs2) ∧
        DijkInv nodes edges1 edges2 index [] dists2 prevs2 := by
  intro fuel
  induction fuel with
  | zero =>
    intro tv dists prevs hlen hinv
    have htv : tv = [] := List.length_eq_zero.mp hlen
    subst htv
    exact ⟨dists, prevs, rfl, hinv⟩
  | succ fuel ih =>
    intro tv dists prevs hlen hinv
    obtain ⟨hdlen, hplen, htv_val, htv_nd, hnonneg, hsrc, hfinreach, hpopnbr,
      hpoptop⟩ := hinv
    have htvne : tv ≠ [] := by
      intro hh
      rw [hh] at hlen
      simp at hlen
    have hie : tv.isEmpty = false := by
      cases tv with
      | nil => exact absurd rfl htvne
      | cons a l => rfl
    have hlen1 : 1 ≤ tv.length := by omega
    have hval' : ∀ x ∈ tv, ∃ i, i < dists.length ∧ x = Int.ofNat i := by
      intro x hx
      obtain ⟨i, hi, hxe⟩ := htv_val x hx
      exact ⟨i, by omega, hxe⟩
    obtain ⟨acc, hmin, hcase⟩ := dijkMinIdx_spec tv dists hval'
    rcases hcase with ⟨haccEq, hall⟩ |
        ⟨ii, node, hii, hacc1, hnodeii, hdii, hne, hmin_all⟩
    · -- every remaining tentative distance is infinite: the -1 fallback pops
      -- the last queue element and all relaxations are no-ops
      have hacc1a : acc.1 = -1 := by rw [haccEq]
      have hpos_lt : tv.length - 1 < tv.length := by omega
      have hpos_q : tv[tv.length - 1]? = some tv[tv.length - 1] :=
        List.getElem?_eq_getElem hpos_lt
      set cur := tv[tv.length - 1] with hcur_def
      have hcurtv : cur ∈ tv := mem_of_getElem?_eq_some hpos_q
      obtain ⟨cn, hcnn, hcur_eq⟩ := htv_val cur hcurtv
      have hcur_pg : pyGetE tv acc.1 = Except.ok cur := by
        rw [hacc1a]
        exact pyGetE_some (by rw [pyGet_neg_one tv htvne]; exact hpos_q)
      have hnorm : npNormIdx tv.length acc.1 = some (tv.length - 1) := by
        rw [hacc1a, npNormIdx, if_neg (by omega), if_pos (by omega)]
        have harith : ((tv.length : ℤ) + -1).toNat = tv.length - 1 := by omega
        rw [harith]
      set tv2 := npDeletePos tv [tv.length - 1] with htv2_def
      have hdel_e : npDeleteIdx tv [acc.1] = Except.ok tv2 :=
        npDeleteIdx_singleton tv acc.1 (tv.length - 1) hnorm
      have htv2len : tv2.length = fuel := by
        rw [htv2_def, npDeletePos_length tv [tv.length - 1]
          (List.nodup_singleton _)
          (by intro p hp; rw [List.mem_singleton] at hp; omega)]
        simp only [List.length_singleton]
        omega
      have hcurnot : cur ∉ tv2 :=
        not_mem_npDeletePos_self tv (tv.length - 1) cur htv_nd hpos_q
      have htv2sub : ∀ x ∈ tv2, x ∈ tv := npDeletePos_subset tv _
      have htv2mem : ∀ x ∈ tv, x ≠ cur → x ∈ tv2 :=
        fun x hx hne2 =>
          mem_npDeletePos_of_ne tv (tv.length - 1) cur x hpos_q hx hne2
      have htv2nd : tv2.Nodup := npDeletePos_nodup tv _ htv_nd
      set inb := outNeighbors edges1 edges2 cur with hinb_def
      have hinb_val : ∀ b ∈ inb, ∃ j, j < nodes.length ∧ b = Int.ofNat j :=
        fun b hb => hval2 b (outNeighbors_subset _ _ _ b hb)
      obtain ⟨d2', p2', hrel, hL1, hL2, hU, hM, hN, hR⟩ :=
        relaxAll_spec elen nodes cn hcnn tv2
          (by rw [← hcur_eq]; exact hcurnot) inb hinb_val dists prevs hdlen hplen
      have hrel' : relaxAll elen nodes cur inb tv2 dists prevs =
          Except.ok (d2', p2') := by
        rw [hcur_eq]
        exact hrel
      have hdcn_top : dists[cn]? = some ⊤ := by
        have h1 := hall (tv.length - 1) hpos_lt cur hpos_q
        rw [hcur_eq] at h1
        exact h1
      have hsame : ∀ k : ℕ, d2'[k]? = dists[k]? := by
        intro k
        by_cases hk : k < dists.length
        · have hk2 : k < d2'.length := by rw [hL1]; exact hk
          have hd2k : d2'[k]? = some d2'[k] := List.getElem?_eq_getElem hk2
          rcases hN k d2'[k] hd2k with hleft |
              ⟨_, _, dc, dn1, pc, pv, hdcq, _, _, _, hdeq, hdlt⟩
          · rw [hd2k, hleft]
          · exfalso
            rw [hdcn_top] at hdcq
            rw [Option.some.injEq] at hdcq
            rw [← hdcq] at hdeq
            rw [hdeq] at hdlt
            have htopa : (⊤ : WithTop ℚ) + ((elen pc pv : ℚ) : WithTop ℚ) = ⊤ :=
              top_add _
            rw [htopa] at hdlt
            exact not_top_lt hdlt
        · rw [List.getElem?_eq_none (by rw [hL1]; omega),
            List.getElem?_eq_none (by omega)]
      have hinv2 : DijkInv nodes edges1 edges2 index tv2 d2' p2' := by
        refine ⟨by rw [hL1]; exact hdlen, by rw [hL2]; exact hplen,
          fun x hx => htv_val x (htv2sub x hx), htv2nd, ?_, ?_, ?_, ?_, ?_⟩
        · intro i d hd
          rw [hsame i] at hd
          exact hnonneg i d hd
        · rw [hsame]
          exact hsrc
        · intro i d hi hd hdne
          rw [hsame i] at hd
          exact hfinreach i d hi hd hdne
        · intro i d hi hnot2 hd hdne b hb db hdb
          rw [hsame i] at hd
          rw [hsame b.toNat] at hdb
          by_cases hitv : Int.ofNat i ∈ tv
          · have hic : Int.ofNat i = cur := by
              by_contra hcc
              exact hnot2 (htv2mem _ hitv hcc)
            have hieq : i = cn := by
              rw [hcur_eq] at hic
              exact Int.ofNat.inj hic
            rw [hieq] at hd
            rw [hdcn_top] at hd
            rw [Option.some.injEq] at hd
            exact absurd hd.symm hdne
          · exact hpopnbr i d hi hitv hd hdne b hb db hdb
        · intro i hi hnot2 hdtop j dj hj hdj hdjne
          rw [hsame j] at hdj
          intro hjtv2
          have hjtv : Int.ofNat j ∈ tv := htv2sub _ hjtv2
          rcases List.mem_iff_getElem?.mp hjtv with ⟨k, hk⟩
          have hklt : k < tv.length := by
            rcases List.getElem?_eq_some.mp hk with ⟨hh, _⟩
            exact hh
          have htopj := hall k hklt (Int.ofNat j) hk
          rw [show ((Int.ofNat j).toNat) = j from rfl] at htopj
          rw [hdj] at htopj
          rw [Option.some.injEq] at htopj
          exact hdjne htopj
      obtain ⟨dd, pp, hloop, hfin⟩ := ih tv2 d2' p2' htv2len hinv2
      refine ⟨dd, pp, ?_, hfin⟩
      rw [dijkLoop]
      rw [if_neg (by rw [hie]; exact Bool.false_ne_true)]
      simp only [hmin, ok_bind, hcur_pg, hdel_e, hrel', hloop]
    · -- a finite minimum exists: the popped node has the least tentative
      -- distance and its out-neighbors get relaxed
      set cur := node with hcur_node
      have hcurtv : cur ∈ tv := mem_of_getElem?_eq_some hnodeii
      obtain ⟨cn, hcnn, hcur_eq⟩ := htv_val cur hcurtv
      have hcur_pg : pyGetE tv acc.1 = Except.ok cur := by
        rw [hacc1]
        exact pyGetE_ofNat tv ii cur hnodeii
      have hnorm : npNormIdx tv.length acc.1 = some ii := by
        rw [hacc1, npNormIdx, if_pos]
        · rfl
        · refine ⟨Int.ofNat_nonneg ii, ?_⟩
          rw [Int.ofNat_eq_natCast]
          exact_mod_cast hii
      set tv2 := npDeletePos tv [ii] with htv2_def
      have hdel_e : npDeleteIdx tv [acc.1] = Except.ok tv2 :=
        npDeleteIdx_singleton tv acc.1 ii hnorm
      have htv2len : tv2.length = fuel := by
        rw [htv2_def, npDeletePos_length tv [ii] (List.nodup_singleton _)
          (by intro p hp; rw [List.mem_singleton] at hp; omega)]
        simp only [List.length_singleton]
        omega
      have hcurnot : cur ∉ tv2 :=
        not_mem_npDeletePos_self tv ii cur htv_nd hnodeii
      have htv2sub : ∀ x ∈ tv2, x ∈ tv := npDeletePos_subset tv _
      have htv2mem : ∀ x ∈ tv, x ≠ cur → x ∈ tv2 :=
        fun x hx hne2 => mem_npDeletePos_of_ne tv ii cur x hnodeii hx hne2
      have htv2nd : tv2.Nodup := npDeletePos_nodup tv _ htv_nd
      set inb := outNeighbors edges1 edges2 cur with hinb_def
      have hinb_val : ∀ b ∈ inb, ∃ j, j < nodes.length ∧ b = Int.ofNat j :=
        fun b hb => hval2 b (outNeighbors_subset _ _ _ b hb)
      obtain ⟨d2', p2', hrel, hL1, hL2, hU, hM, hN, hR⟩ :=
        relaxAll_spec elen nodes cn hcnn tv2
          (by rw [← hcur_eq]; exact hcurnot) inb hinb_val dists prevs hdlen hplen
      have hrel' : relaxAll elen nodes cur inb tv2 dists prevs =
          Except.ok (d2', p2') := by
        rw [hcur_eq]
        exact hrel
      have hdii2 : dists[cn]? = some acc.2 := by
        rw [hcur_eq] at hdii
        exact hdii
      have hinv2 : DijkInv nodes edges1 edges2 index tv2 d2' p2' := by
        refine ⟨by rw [hL1]; exact hdlen, by rw [hL2]; exact hplen,
          fun x hx => htv_val x (htv2sub x hx), htv2nd, ?_, ?_, ?_, ?_, ?_⟩
        · intro i d hd
          rcases hN i d hd with hleft |
              ⟨_, _, dc, dn1, pc, pv, hdcq, _, _, _, hdeq, _⟩
          · exact hnonneg i d hleft
          · rw [hdeq]
            refine add_nonneg (hnonneg cn dc hdcq) ?_
            exact_mod_cast helen pc pv
        · have hsl : index.toNat < d2'.length := by
            rcases List.getElem?_eq_some.mp hsrc with ⟨hh, _⟩
            rw [hL1]
            exact hh
          have hdd : d2'[index.toNat]? = some d2'[index.toNat] :=
            List.getElem?_eq_getElem hsl
          rcases hN index.toNat d2'[index.toNat] hdd with hleft |
              ⟨_, _, dc, dn1, pc, pv, hdcq, hdn1q, _, _, hdeq, hdlt⟩
          · rw [hsrc] at hleft
            rw [Option.some.injEq] at hleft
            rw [hdd, ← hleft]
          · exfalso
            rw [hsrc] at hdn1q
            rw [Option.some.injEq] at hdn1q
            rw [← hdn1q] at hdlt
            have hge : (0 : WithTop ℚ) ≤ d2'[index.toNat] := by
              rw [hdeq]
              refine add_nonneg (hnonneg cn dc hdcq) ?_
              exact_mod_cast helen pc pv
            exact absurd hdlt (not_lt.mpr hge)
        · intro i d hi hd hdne
          rcases hN i d hd with hleft |
              ⟨_, hiinb, dc, dn1, pc, pv, hdcq, _, _, _, hdeq, _⟩
          · exact hfinreach i d hi hleft hdne
          · have hdcne : dc ≠ ⊤ := by
              intro hh
              rw [hh, top_add] at hdeq
              exact hdne hdeq
            have hreach : Reachable edges1 edges2 index cur := by
              rw [hcur_eq]
              exact hfinreach cn dc hcnn hdcq hdcne
            exact Relation.ReflTransGen.tail hreach hiinb
        · intro i d hi hnot2 hd hdne b hb db hdb
          by_cases hitv : Int.ofNat i ∈ tv
          · have hic : Int.ofNat i = cur := by
              by_contra hcc
              exact hnot2 (htv2mem _ hitv hcc)
            have hieq : i = cn := by
              rw [hcur_eq] at hic
              exact Int.ofNat.inj hic
            rw [hieq] at hb
            rw [← hcur_eq] at hb
            obtain ⟨jb, hjbn, hbeq⟩ := hinb_val b hb
            by_cases hbtv2 : b ∈ tv2
            · obtain ⟨v, dc, pc, pb, hvq, hdcq, _, _, hvle⟩ := hR b hb hbtv2
              rw [hvq] at hdb
              rw [Option.some.injEq] at hdb
              rw [hdii2] at hdcq
              rw [Option.some.injEq] at hdcq
              intro hdbtop
              rw [hdbtop] at hdb
              rw [hdb] at hvle
              have htopeq : dc + ((elen pc pb : ℚ) : WithTop ℚ) = ⊤ :=
                top_le_iff.mp hvle
              have hdctop : dc = ⊤ := by
                rcases WithTop.add_eq_top.mp htopeq with hh | hh
                · exact hh
                · exact absurd hh WithTop.coe_ne_top
              rw [hdctop] at hdcq
              exact hne hdcq
            · by_cases hbtv : b ∈ tv
              · have hbc : b = cur := by
                  by_contra hcc
                  exact hbtv2 (htv2mem _ hbtv hcc)
                have hucn : d2'[cn]? = dists[cn]? := hU cn (by
                  rw [← hcur_eq]
                  exact hcurnot)
                rw [hbc, hcur_eq] at hdb
                rw [show ((Int.ofNat cn).toNat) = cn from rfl] at hdb
                rw [hucn, hdii2] at hdb
                rw [Option.some.injEq] at hdb
                rw [← hdb]
                exact hne
              · subst hbeq
                have hjbd2 : jb < dists.length := by omega
                have hq : dists[jb]? = some dists[jb] :=
                  List.getElem?_eq_getElem hjbd2
                have hv0ne : dists[jb] ≠ ⊤ := by
                  intro hh
                  have hq2 : dists[jb]? = some ⊤ := by rw [hq, hh]
                  have hcnot := hpoptop jb hjbn hbtv hq2 cn acc.2 hcnn hdii2 hne
                  apply hcnot
                  rw [← hcur_eq]
                  exact hcurtv
                have hUb := hU jb hbtv2
                rw [show ((Int.ofNat jb).toNat) = jb from rfl] at hdb
                rw [hUb, hq] at hdb
                rw [Option.some.injEq] at hdb
                rw [← hdb]
                exact hv0ne
          · have hUi : d2'[i]? = dists[i]? := hU i hnot2
            rw [hUi] at hd
            obtain ⟨d1, hd1, hle⟩ := hM b.toNat db hdb
            have hd1ne := hpopnbr i d hi hitv hd hdne b hb d1 hd1
            intro hdbtop
            rw [hdbtop] at hle
            exact hd1ne (top_le_iff.mp hle)
        · intro i hi hnot2 hdtop j dj hj hdj hdjne
          exfalso
          by_cases hitv : Int.ofNat i ∈ tv
          · have hic : Int.ofNat i = cur := by
              by_contra hcc
              exact hnot2 (htv2mem _ hitv hcc)
            have hieq : i = cn := by
              rw [hcur_eq] at hic
              exact Int.ofNat.inj hic
            rw [hieq] at hdtop
            have hucn : d2'[cn]? = dists[cn]? := hU cn (by
              rw [← hcur_eq]
              exact hcurnot)
            rw [hucn, hdii2] at hdtop
            rw [Option.some.injEq] at hdtop
            exact hne hdtop
          · have hUi : d2'[i]? = dists[i]? := hU i hnot2
            rw [hUi] at hdtop
            have hcnot := hpoptop i hi hitv hdtop cn acc.2 hcnn hdii2 hne
            apply hcnot
            rw [← hcur_eq]
            exact hcurtv
      obtain ⟨dd, pp, hloop, hfin⟩ := ih tv2 d2' p2' htv2len hinv2
      refine ⟨dd, pp, ?_, hfin⟩
      rw [dijkLoop]
      rw [if_neg (by rw [hie]; exact Bool.false_ne_true)]
      simp only [hmin, ok_bind, hcur_pg, hdel_e, hrel', hloop]

theorem axisLen_nonneg : ∀ p q : Pt, 0 ≤ axisLen p q := by
  intro p q
  rw [axisLen, qabs_eq_abs]
  exact abs_nonneg _

theorem dijk_final_reachable_finite (nodes : List Pt) (edges1 edges2 : List ℤ)
    (index : ℤ) (d2 : List (WithTop ℚ)) (p2 : List ℤ)
    (hval2 : ∀ b ∈ edges2, ∃ j, j < nodes.length ∧ b = Int.ofNat j)
    (hidx0 : 0 ≤ index) (hidxn : index < (nodes.length : ℤ))
    (hinv : DijkInv nodes edges1 edges2 index [] d2 p2) :
    ∀ v : ℤ, Reachable edges1 edges2 index v →
      ∃ j, j < nodes.length ∧ v = Int.ofNat j ∧
        ∃ dv, d2[j]? = some dv ∧ dv ≠ ⊤ := by
  intro v hv
  induction hv with
  | refl =>
    refine ⟨index.toNat, by omega,
      by rw [Int.ofNat_eq_natCast]; exact (Int.toNat_of_nonneg hidx0).symm,
      ((0 : ℚ) : WithTop ℚ), hinv.hsrc, WithTop.coe_ne_top⟩
  | @tail u w hprev hstep ihh =>
    obtain ⟨ju, hjun, hueq, du, hduq, hdune⟩ := ihh
    have hwe2 : w ∈ edges2 := outNeighbors_subset edges1 edges2 u w hstep
    obtain ⟨jw, hjwn, hweq⟩ := hval2 w hwe2
    have hb : w ∈ outNeighbors edges1 edges2 (Int.ofNat ju) := by
      rw [← hueq]
      exact hstep
    have hnbr := hinv.hpopnbr ju du hjun (List.not_mem_nil _) hduq hdune w hb
    have hjwd : jw < d2.length := by
      rw [hinv.hdlen]
      exact hjwn
    have hq : d2[jw]? = some d2[jw] := List.getElem?_eq_getElem hjwd
    have hq2 : d2[w.toNat]? = some d2[jw] := by
      rw [hweq]
      exact hq
    exact ⟨jw, hjwn, hweq, d2[jw], hq, hnbr d2[jw] hq2⟩

/-- **C3.** Under valid inputs (source index in range, destination column of
the edge table referencing existing points, nonnegative edge lengths),
`dijkstra_algorithm` raises an error exactly when some point is unreachable
from the source along directed edges; on success it returns full-length
distance and predecessor arrays with no infinite distance left and with the
source's distance equal to 0. -/
theorem dijkstra_error_iff_unreachable (elen : Pt → Pt → ℚ) (nodes : List Pt)
    (edges1 edges2 : List ℤ) (index : ℤ)
    (helen : ∀ p q, 0 ≤ elen p q)
    (hidx0 : 0 ≤ index) (hidxn : index < (nodes.length : ℤ))
    (hval2 : ∀ b ∈ edges2, ∃ j, j < nodes.length ∧ b = Int.ofNat j) :
    ((∃ e, dijkstra_algorithm elen nodes edges1 edges2 index = Except.error e) ↔
      ∃ i, i < nodes.length ∧ ¬ Reachable edges1 edges2 index (Int.ofNat i)) ∧
    (∀ dp, dijkstra_algorithm elen nodes edges1 edges2 index = Except.ok dp →
      dp.1[index.toNat]? = some ((0 : ℚ) : WithTop ℚ) ∧
      dp.1.length = nodes.length ∧ dp.2.length = nodes.length ∧
      (⊤ : WithTop ℚ) ∉ dp.1) := by
  have hn1 : 1 ≤ nodes.length := by omega
  have hitolt : index.toNat < nodes.length := by omega
  have hlr : (List.replicate nodes.length (⊤ : WithTop ℚ)).length =
      nodes.length := List.length_replicate _ _
  have hnorm0 : npNormIdx nodes.length index = some index.toNat := by
    rw [npNormIdx, if_pos ⟨hidx0, hidxn⟩]
  have hset0 : pySetE (List.replicate nodes.length (⊤ : WithTop ℚ)) index
      ((0 : ℚ) : WithTop ℚ) = Except.ok
      ((List.replicate nodes.length (⊤ : WithTop ℚ)).set index.toNat
        ((0 : ℚ) : WithTop ℚ)) := by
    rw [pySetE, pySet, hlr, hnorm0]
  set dists1 := (List.replicate nodes.length (⊤ : WithTop ℚ)).set index.toNat
    ((0 : ℚ) : WithTop ℚ) with hdists1
  have hd1len : dists1.length = nodes.length := by
    rw [hdists1, List.length_set, List.length_replicate]
  have hsrc1 : dists1[index.toNat]? = some ((0 : ℚ) : WithTop ℚ) := by
    rw [hdists1]
    exact List.getElem?_set_eq_of_lt _ (by rw [List.length_replicate]; omega)
  have hother1 : ∀ i : ℕ, i ≠ index.toNat → i < nodes.length →
      dists1[i]? = some ⊤ := by
    intro i hine hin
    rw [hdists1, List.getElem?_set_ne (fun hh => hine hh.symm),
      List.getElem?_replicate, if_pos hin]
  have hinv0 : DijkInv nodes edges1 edges2 index
      ((List.range nodes.length).map Int.ofNat) dists1
      (List.replicate nodes.length (-1 : ℤ)) := by
    refine ⟨hd1len, List.length_replicate _ _, ?_, ?_, ?_, hsrc1, ?_, ?_, ?_⟩
    · intro x hx
      rcases List.mem_map.mp hx with ⟨i, hir, rfl⟩
      exact ⟨i, List.mem_range.mp hir, rfl⟩
    · exact List.Nodup.map (fun a b h => Int.ofNat.inj h) (List.nodup_range _)
    · intro i d hd
      by_cases hieq : i = index.toNat
      · subst hieq
        rw [hsrc1] at hd
        rw [Option.some.injEq] at hd
        rw [← hd]
        exact le_refl _
      · have hin : i < nodes.length := by
          rcases List.getElem?_eq_some.mp hd with ⟨hh, _⟩
          omega
        rw [hother1 i hieq hin] at hd
        rw [Option.some.injEq] at hd
        rw [← hd]
        exact le_top
    · intro i d hi hd hdne
      by_cases hieq : i = index.toNat
      · subst hieq
        have hidv : Int.ofNat index.toNat = index := by
          rw [Int.ofNat_eq_natCast]
          exact Int.toNat_of_nonneg hidx0
        rw [hidv]
        exact Relation.ReflTransGen.refl
      · rw [hother1 i hieq hi] at hd
        rw [Option.some.injEq] at hd
        exact absurd hd.symm hdne
    · intro i d hi hnot hd hdne b hb db hdb
      exact absurd (List.mem_map.mpr ⟨i, List.mem_range.mpr hi, rfl⟩) hnot
    · intro i hi hnot hdtop j dj hj hdj hdjne
      exact absurd (List.mem_map.mpr ⟨i, List.mem_range.mpr hi, rfl⟩) hnot
  obtain ⟨d2, p2, hloop, hfin⟩ :=
    dijkLoop_inv elen nodes edges1 edges2 index helen hval2 nodes.length
      ((List.range nodes.length).map Int.ofNat) dists1
      (List.replicate nodes.length (-1 : ℤ))
      (by rw [List.length_map, List.length_range]) hinv0
  have hd2len : d2.length = nodes.length := hfin.hdlen
  have hd2ne : d2.isEmpty = false := by
    cases d2 with
    | nil => simp at hd2len; omega
    | cons a l => rfl
  have hprog : dijkstra_algorithm elen nodes edges1 edges2 index =
      (if (⊤ : WithTop ℚ) ∈ d2 then Except.error PyErr.valueError
        else Except.ok (d2, p2)) := by
    rw [dijkstra_algorithm]
    simp only [hset0, ok_bind, hloop, hd2ne, Bool.false_eq_true, if_false,
      throw_eq_error]
  constructor
  · constructor
    · rintro ⟨e, herr⟩
      rw [hprog] at herr
      by_cases hmem : (⊤ : WithTop ℚ) ∈ d2
      · rcases List.mem_iff_getElem?.mp hmem with ⟨i, hi⟩
        have hilt : i < nodes.length := by
          rcases List.getElem?_eq_some.mp hi with ⟨hh, _⟩
          omega
        refine ⟨i, hilt, ?_⟩
        intro hreach
        obtain ⟨j, hjn, hje, dv, hdvq, hdvne⟩ :=
          dijk_final_reachable_finite nodes edges1 edges2 index d2 p2 hval2
            hidx0 hidxn hfin (Int.ofNat i) hreach
        have hji : i = j := Int.ofNat.inj hje
        rw [← hji] at hdvq
        rw [hi] at hdvq
        rw [Option.some.injEq] at hdvq
        exact hdvne hdvq.symm
      · rw [if_neg hmem] at herr
        exact Except.noConfusion herr
    · rintro ⟨i, hilt, hunreach⟩
      refine ⟨PyErr.valueError, ?_⟩
      rw [hprog]
      have hi2 : i < d2.length := by omega
      have hq : d2[i]? = some d2[i] := List.getElem?_eq_getElem hi2
      have hitop : d2[i]? = some ⊤ := by
        by_cases htop : d2[i] = ⊤
        · rw [hq, htop]
        · exact absurd (hfin.hfinreach i d2[i] hilt hq htop) hunreach
      have hmem : (⊤ : WithTop ℚ) ∈ d2 := mem_of_getElem?_eq_some hitop
      rw [if_pos hmem]
  · intro dp hok
    rw [hprog] at hok
    by_cases hmem : (⊤ : WithTop ℚ) ∈ d2
    · rw [if_pos hmem] at hok
      exact Except.noConfusion hok
    · rw [if_neg hmem] at hok
      rw [Except.ok.injEq] at hok
      subst hok
      exact ⟨hfin.hsrc, hd2len, hfin.hplen, hmem⟩

/-- Witness for `dijkstra_error_iff_unreachable` on the 3-point chain with
source 0: all points are reachable, the run succeeds, and the source's
distance is 0. -/
theorem dijkstra_error_iff_unreachable_witness :
    ((∃ e, dijkstra_algorithm axisLen triPts triE1 triE2 0 = Except.error e) ↔
      ∃ i, i < triPts.length ∧ ¬ Reachable triE1 triE2 0 (Int.ofNat i)) ∧
    (∀ dp, dijkstra_algorithm axisLen triPts triE1 triE2 0 = Except.ok dp →
      dp.1[(0 : ℤ).toNat]? = some ((0 : ℚ) : WithTop ℚ) ∧
      dp.1.length = triPts.length ∧ dp.2.length = triPts.length ∧
      (⊤ : WithTop ℚ) ∉ dp.1) :=
  dijkstra_error_iff_unreachable axisLen triPts triE1 triE2 0 axisLen_nonneg
    (by decide) (by with_unfolding_all decide)
    (by
      intro b hb
      rw [triE2] at hb
      rcases List.mem_cons.mp hb with rfl | hb
      · exact ⟨1, by with_unfolding_all decide, by decide⟩
      rcases List.mem_cons.mp hb with rfl | hb
      · exact ⟨2, by with_unfolding_all decide, by decide⟩
      rcases List.mem_cons.mp hb with rfl | hb
      · exact ⟨0, by with_unfolding_all decide, by decide⟩
      rcases List.mem_cons.mp hb with rfl | hb
      · exact ⟨1, by with_unfolding_all decide, by decide⟩
      · exact absurd hb (List.not_mem_nil b))

/-- One directed edge step of the partition BFS: some edge-table row has
source `u` and destination `v`. -/
def edgeStep (edges1 edges2 : List ℤ) (u v : ℤ) : Prop :=
  ∃ k : ℕ, edges1[k]? = some u ∧ edges2[k]? = some v

/-- A BFS step that the traversal actually follows: an edge step whose
destination is not a chosen partition root (roots stop the traversal). -/
def RRStep (edges1 edges2 inlets : List ℤ) (u v : ℤ) : Prop :=
  edgeStep edges1 edges2 u v ∧ v ∉ inlets

/-- Invariant of the breadth-first state of `create_partition`. -/
structure BfsInv (edges1 edges2 inlets : List ℤ) (s : ℤ) (st : BfsSt) :
    Prop where
  hhead : st.sampling[0]? = some s
  hlen : st.sampling.length = st.count
  hsamp : ∀ x ∈ st.sampling, x = s ∨ ∃ u, Relation.ReflTransGen
    (RRStep edges1 edges2 inlets) s u ∧ edgeStep edges1 edges2 u x
  hqueue : ∀ x ∈ st.queue,
    Relation.ReflTransGen (RRStep edges1 edges2 inlets) s x
  hnum : ∀ kv ∈ st.numbering, kv.2 < st.count
  he1 : ∀ e ∈ st.new_edges1, ∃ m : ℕ, e = Int.ofNat m ∧ m < st.count
  he2 : ∀ e ∈ st.new_edges2, ∃ m : ℕ, e = Int.ofNat m ∧ m < st.count

theorem dictGetN_mem {d : List (ℤ × ℕ)} {k : ℤ} {v : ℕ}
    (h : dictGetN d k = some v) : ∃ key, (key, v) ∈ d := by
  rw [dictGetN] at h
  rcases Option.map_eq_some'.mp h with ⟨kv, hfind, hsnd⟩
  obtain ⟨a, b⟩ := kv
  have hm := List.mem_of_find?_eq_some hfind
  have hb : b = v := hsnd
  rw [← hb]
  exact ⟨a, hm⟩

theorem bfsExpandF_none (edges2 inlets : List ℤ) (j : ℤ) :
    ∀ iedges : List ℕ,
      iedges.foldl
        (fun ost iedg => do
          let st ← ost
          let next ← edges2[iedg]?
          let numbering := (next, st.count) :: st.numbering
          let nj ← dictGetN numbering j
          let nn ← dictGetN numbering next
          some { st with
            sampling := st.sampling ++ [next],
            new_edges1 := st.new_edges1 ++ [Int.ofNat nj],
            new_edges2 := st.new_edges2 ++ [Int.ofNat nn],
            count := st.count + 1,
            numbering := numbering,
            queue := if next ∈ inlets then st.queue else st.queue ++ [next] })
        (none : Option BfsSt) = none := by
  intro iedges
  induction iedges with
  | nil => rfl
  | cons a rest ihr =>
    rw [List.foldl_cons]
    exact ihr

theorem bfsExpand_inv (edges1 edges2 inlets : List ℤ) (s j : ℤ)
    (hj : Relation.ReflTransGen (RRStep edges1 edges2 inlets) s j) :
    ∀ iedges : List ℕ, (∀ k ∈ iedges, edges1[k]? = some j) →
    ∀ st st2 : BfsSt, BfsInv edges1 edges2 inlets s st →
      bfsExpand edges2 inlets j iedges st = some st2 →
      BfsInv edges1 edges2 inlets s st2 := by
  intro iedges
  induction iedges with
  | nil =>
    intro _ st st2 hinv h
    rw [bfsExpand, List.foldl_nil, Option.some.injEq] at h
    rw [← h]
    exact hinv
  | cons k rest ihr =>
    intro hks st st2 hinv h
    rw [bfsExpand, List.foldl_cons] at h
    simp only [Option.bind_eq_bind, Option.some_bind] at h
    cases hnext : edges2[k]? with
    | none =>
      rw [hnext] at h
      have h2 : (none : Option BfsSt) = some st2 := by
        rw [← bfsExpandF_none edges2 inlets j rest]
        exact h
      exact Option.noConfusion h2
    | some next =>
      rw [hnext] at h
      simp only [Option.some_bind] at h
      cases hnj : dictGetN ((next, st.count) :: st.numbering) j with
      | none =>
        rw [hnj] at h
        have h2 : (none : Option BfsSt) = some st2 := by
          rw [← bfsExpandF_none edges2 inlets j rest]
          exact h
        exact Option.noConfusion h2
      | some nj =>
        rw [hnj] at h
        simp only [Option.some_bind] at h
        cases hnn : dictGetN ((next, st.count) :: st.numbering) next with
        | none =>
          rw [hnn] at h
          have h2 : (none : Option BfsSt) = some st2 := by
            rw [← bfsExpandF_none edges2 inlets j rest]
            exact h
          exact Option.noConfusion h2
        | some nn =>
          rw [hnn] at h
          simp only [Option.some_bind] at h
          have heq : bfsExpand edges2 inlets j rest { st with
              sampling := st.sampling ++ [next],
              new_edges1 := st.new_edges1 ++ [Int.ofNat nj],
              new_edges2 := st.new_edges2 ++ [Int.ofNat nn],
              count := st.count + 1,
              numbering := (next, st.count) :: st.numbering,
              queue := if next ∈ inlets then st.queue
                else st.queue ++ [next] } = some st2 := by
            rw [bfsExpand]
            exact h
          have hstep : edgeStep edges1 edges2 j next :=
            ⟨k, hks k (List.mem_cons_self k rest), hnext⟩
          have hnj_lt : nj < st.count + 1 := by
            obtain ⟨key, hkey⟩ := dictGetN_mem hnj
            rcases List.mem_cons.mp hkey with heq2 | hmem
            · rw [Prod.mk.injEq] at heq2
              have := heq2.2
              omega
            · have h3 := hinv.hnum (key, nj) hmem
              have h4 : nj < st.count := h3
              omega
          have hnn_lt : nn < st.count + 1 := by
            obtain ⟨key, hkey⟩ := dictGetN_mem hnn
            rcases List.mem_cons.mp hkey with heq2 | hmem
            · rw [Prod.mk.injEq] at heq2
              have := heq2.2
              omega
            · have h3 := hinv.hnum (key, nn) hmem
              have h4 : nn < st.count := h3
              omega
          have h0 : 0 < st.sampling.length := by
            rcases List.getElem?_eq_some.mp hinv.hhead with ⟨hh, _⟩
            omega
          have hinv2 : BfsInv edges1 edges2 inlets s { st with
              sampling := st.sampling ++ [next],
              new_edges1 := st.new_edges1 ++ [Int.ofNat nj],
              new_edges2 := st.new_edges2 ++ [Int.ofNat nn],
              count := st.count + 1,
              numbering := (next, st.count) :: st.numbering,
              queue := if next ∈ inlets then st.queue
                else st.queue ++ [next] } := by
            refine ⟨?_, ?_, ?_, ?_, ?_, ?_, ?_⟩
            · show (st.sampling ++ [next])[0]? = some s
              rw [List.getElem?_append_left h0]
              exact hinv.hhead
            · show (st.sampling ++ [next]).length = st.count + 1
              rw [List.length_append, hinv.hlen, List.length_singleton]
            · intro x hx
              rcases List.mem_append.mp hx with hx1 | hx2
              · exact hinv.hsamp x hx1
              · rcases List.mem_singleton.mp hx2 with rfl
                exact Or.inr ⟨j, hj, hstep⟩
            · intro x hx
              by_cases hni : next ∈ inlets
              · rw [show ({ st with
                    sampling := st.sampling ++ [next],
                    new_edges1 := st.new_edges1 ++ [Int.ofNat nj],
                    new_edges2 := st.new_edges2 ++ [Int.ofNat nn],
                    count := st.count + 1,
                    numbering := (next, st.count) :: st.numbering,
                    queue := if next ∈ inlets then st.queue
                      else st.queue ++ [next] } : BfsSt).queue =
                  if next ∈ inlets then st.queue else st.queue ++ [next]
                  from rfl, if_pos hni] at hx
                exact hinv.hqueue x hx
              · rw [show ({ st with
                    sampling := st.sampling ++ [next],
                    new_edges1 := st.new_edges1 ++ [Int.ofNat nj],
                    new_edges2 := st.new_edges2 ++ [Int.ofNat nn],
                    count := st.count + 1,
                    numbering := (next, st.count) :: st.numbering,
                    queue := if next ∈ inlets then st.queue
                      else st.queue ++ [next] } : BfsSt).queue =
                  if next ∈ inlets then st.queue else st.queue ++ [next]
                  from rfl, if_neg hni] at hx
                rcases List.mem_append.mp hx with hx1 | hx2
                · exact hinv.hqueue x hx1
                · rcases List.mem_singleton.mp hx2 with rfl
                  exact Relation.ReflTransGen.tail hj ⟨hstep, hni⟩
            · intro kv hkv
              rcases List.mem_cons.mp hkv with rfl | hmem
              · show st.count < st.count + 1
                omega
              · have h3 := hinv.hnum kv hmem
                show kv.2 < st.count + 1
                omega
            · intro e he
              rcases List.mem_append.mp he with he1 | he2
              · obtain ⟨m, hm, hlt⟩ := hinv.he1 e he1
                refine ⟨m, hm, ?_⟩
                show m < st.count + 1
                omega
              · rcases List.mem_singleton.mp he2 with rfl
                exact ⟨nj, rfl, hnj_lt⟩
            · intro e he
              rcases List.mem_append.mp he with he1 | he2
              · obtain ⟨m, hm, hlt⟩ := hinv.he2 e he1
                refine ⟨m, hm, ?_⟩
                show m < st.count + 1
                omega
              · rcases List.mem_singleton.mp he2 with rfl
                exact ⟨nn, rfl, hnn_lt⟩
          exact ihr (fun k2 hk2 => hks k2 (List.mem_cons_of_mem k hk2))
            _ st2 hinv2 heq

theorem bfsLoop_inv (edges1 edges2 inlets : List ℤ) (s : ℤ) :
    ∀ (fuel : ℕ) (st st2 : BfsSt), BfsInv edges1 edges2 inlets s st →
      bfsLoop edges1 edges2 inlets fuel st = some st2 →
      BfsInv edges1 edges2 inlets s st2 := by
  intro fuel
  induction fuel with
  | zero =>
    intro st st2 hinv h
    rw [bfsLoop] at h
    by_cases hq : st.queue.isEmpty
    · rw [if_pos hq, Option.some.injEq] at h
      rw [← h]
      exact hinv
    · rw [if_neg hq] at h
      exact Option.noConfusion h
  | succ fuel ihf =>
    intro st st2 hinv h
    rw [bfsLoop] at h
    cases hq : st.queue with
    | nil =>
      rw [hq] at h
      have h2 : some st = some st2 := h
      rw [Option.some.injEq] at h2
      rw [← h2]
      exact hinv
    | cons j rest =>
      rw [hq] at h
      have h2 : (do
          let st2x ← bfsExpand edges2 inlets j
            ((List.range edges1.length).filter
              (fun k => decide (edges1[k]? = some j)))
            { st with queue := rest }
          bfsLoop edges1 edges2 inlets fuel st2x) = some st2 := h
      cases hex : bfsExpand edges2 inlets j
          ((List.range edges1.length).filter
            (fun k => decide (edges1[k]? = some j)))
          { st with queue := rest } with
      | none =>
        rw [hex] at h2
        have h3 : (none : Option BfsSt) = some st2 := h2
        exact Option.noConfusion h3
      | some stx =>
        rw [hex] at h2
        have h3 : bfsLoop edges1 edges2 inlets fuel stx = some st2 := h2
        have hjq : Relation.ReflTransGen (RRStep edges1 edges2 inlets) s j :=
          hinv.hqueue j (by rw [hq]; exact List.mem_cons_self j rest)
        have hinvr : BfsInv edges1 edges2 inlets s { st with queue := rest } := by
          refine ⟨hinv.hhead, hinv.hlen, hinv.hsamp, ?_, hinv.hnum,
            hinv.he1, hinv.he2⟩
          intro x hx
          exact hinv.hqueue x (by rw [hq]; exact List.mem_cons_of_mem j hx)
        have hinvx := bfsExpand_inv edges1 edges2 inlets s j hjq
          ((List.range edges1.length).filter
            (fun k => decide (edges1[k]? = some j)))
          (fun k hk => of_decide_eq_true (List.mem_filter.mp hk).2)
          { st with queue := rest } stx hinvr hex
        exact ihf stx st2 hinvx h3

theorem createPartition_spec (edges1 edges2 inlets : List ℤ) (s : ℤ)
    (fuel : ℕ) (r : List ℤ × List ℤ × List ℤ)
    (h : create_partition edges1 edges2 s inlets fuel = some r) :
    r.2.2[0]? = some s ∧
    (∀ x ∈ r.2.2, x = s ∨ ∃ u, Relation.ReflTransGen
      (RRStep edges1 edges2 inlets) s u ∧ edgeStep edges1 edges2 u x) ∧
    (∀ e ∈ r.1, ∃ m : ℕ, e = Int.ofNat m ∧ m < r.2.2.length) ∧
    (∀ e ∈ r.2.1, ∃ m : ℕ, e = Int.ofNat m ∧ m < r.2.2.length) := by
  rw [create_partition] at h
  cases hb : bfsLoop edges1 edges2 inlets fuel
      ⟨[s], [], [], [s], 1, [(s, 0)]⟩ with
  | none =>
    rw [hb] at h
    have h2 : (none : Option (List ℤ × List ℤ × List ℤ)) = some r := h
    exact Option.noConfusion h2
  | some st =>
    rw [hb] at h
    have h2 : some (st.new_edges1, st.new_edges2, st.sampling) = some r := h
    rw [Option.some.injEq] at h2
    have hinv0 : BfsInv edges1 edges2 inlets s
        ⟨[s], [], [], [s], 1, [(s, 0)]⟩ := by
      refine ⟨rfl, rfl, ?_, ?_, ?_, ?_, ?_⟩
      · intro x hx
        rcases List.mem_singleton.mp hx with rfl
        exact Or.inl rfl
      · intro x hx
        rcases List.mem_singleton.mp hx with rfl
        exact Relation.ReflTransGen.refl
      · intro kv hkv
        rcases List.mem_singleton.mp hkv with rfl
        exact Nat.zero_lt_one
      · intro e he
        exact absurd he (List.not_mem_nil e)
      · intro e he
        exact absurd he (List.not_mem_nil e)
    have hinv := bfsLoop_inv edges1 edges2 inlets s fuel _ st hinv0 hb
    rw [← h2]
    refine ⟨hinv.hhead, hinv.hsamp, ?_, ?_⟩
    · intro e he
      obtain ⟨m, hm, hlt⟩ := hinv.he1 e he
      refine ⟨m, hm, ?_⟩
      show m < st.sampling.length
      rw [hinv.hlen]
      exact hlt
    · intro e he
      obtain ⟨m, hm, hlt⟩ := hinv.he2 e he
      refine ⟨m, hm, ?_⟩
      show m < st.sampling.length
      rw [hinv.hlen]
      exact hlt

/-- Bounded-length reflexive-transitive chains. -/
def RTGn (r : ℤ → ℤ → Prop) : ℕ → ℤ → ℤ → Prop
  | 0, a, b => a = b
  | n + 1, a, b => ∃ c, RTGn r n a c ∧ r c b

theorem rtg_to_rtgn (r : ℤ → ℤ → Prop) (a b : ℤ)
    (h : Relation.ReflTransGen r a b) : ∃ n, RTGn r n a b := by
  induction h with
  | refl => exact ⟨0, rfl⟩
  | @tail u w hprev hstep ihh =>
    obtain ⟨n, hn⟩ := ihh
    exact ⟨n + 1, u, hn, hstep⟩

theorem no_common_rr_descendant (edges1 edges2 inlets : List ℤ)
    (hindeg : ∀ k1 k2 : ℕ, ∀ v : ℤ, edges2[k1]? = some v →
      edges2[k2]? = some v → k1 = k2)
    (sa sb : ℤ) (hsa : sa ∈ inlets) (hsb : sb ∈ inlets) (hne : sa ≠ sb) :
    ∀ N na nb u, na + nb ≤ N →
      RTGn (RRStep edges1 edges2 inlets) na sa u →
      RTGn (RRStep edges1 edges2 inlets) nb sb u → False := by
  intro N
  induction N with
  | zero =>
    intro na nb u hN h1 h2
    have hna : na = 0 := by omega
    have hnb : nb = 0 := by omega
    subst hna
    subst hnb
    rw [RTGn] at h1 h2
    exact hne (h1.trans h2.symm)
  | succ N ihN =>
    intro na nb u hN h1 h2
    cases na with
    | zero =>
      rw [RTGn] at h1
      subst h1
      cases nb with
      | zero =>
        rw [RTGn] at h2
        exact hne h2.symm
      | succ m =>
        rw [RTGn] at h2
        obtain ⟨c, hc, _, hnotin⟩ := h2
        exact hnotin hsa
    | succ k =>
      cases nb with
      | zero =>
        rw [RTGn] at h2
        subst h2
        rw [RTGn] at h1
        obtain ⟨c, hc, _, hnotin⟩ := h1
        exact hnotin hsb
      | succ m =>
        rw [RTGn] at h1 h2
        obtain ⟨ca, hca, ⟨ka, hka1, hka2⟩, hunotin⟩ := h1
        obtain ⟨cb, hcb, ⟨kb, hkb1, hkb2⟩, _⟩ := h2
        have hk : ka = kb := hindeg ka kb u hka2 hkb2
        have hcc : ca = cb := by
          rw [hk] at hka1
          rw [hka1] at hkb1
          rw [Option.some.injEq] at hkb1
          exact hkb1
        rw [← hcc] at hcb
        exact ihN k m ca (by omega) hca hcb

/-- **C7 counterexample.** On a 5-point directed chain with bifurcation IDs
`[-1, 0, -1, -1?]` forcing a second root at point 2, `create_partitions`
returns two partitions whose sampling index lists both contain point 2, so
the partitions' point sets are not pairwise disjoint. -/
theorem partitions_overlap_counterexample :
    create_partitions [((0 : ℚ), (0 : ℚ), (0 : ℚ)), (1, 0, 0), (2, 0, 0),
        (3, 0, 0), (4, 0, 0)] [-1, 0, -1, 1, -1] [0, 1, 2, 3] [1, 2, 3, 4] 2
        (fun _ => 0) (fun _ => 0) 100 =
      Except.ok
        [⟨[0, 1], [1, 2], [(0, 0, 0), (1, 0, 0), (2, 0, 0)], [0, 1, 2]⟩,
         ⟨[0, 1], [1, 2], [(2, 0, 0), (3, 0, 0), (4, 0, 0)], [2, 3, 4]⟩] ∧
    (2 : ℤ) ∈ ([0, 1, 2] : List ℤ) ∧ (2 : ℤ) ∈ ([2, 3, 4] : List ℤ) :=
  ⟨by with_unfolding_all rfl, by decide, by decide⟩

/-- The root (inlet) list that `create_partitions` selects before building
partitions: the junction-outlet walk selection followed by the random extra
inlets sampled when fewer than `max_num_partitions` roots were found. This is
exactly the inlet-selection prefix of `create_partitions`. -/
def chosenInlets (bif_id edges1 edges2 : List ℤ) (max_num_partitions : ℕ)
    (orand osamp : ℕ → ℕ) (fuel : ℕ) : Except PyErr (List ℤ) := do
  let npoints := bif_id.length
  let sel ← selectInletsLoop bif_id edges1 edges2 max_num_partitions orand fuel
    npoints 0 0 [0]
  let inlets := sel.1
  if inlets.length < max_num_partitions then do
    let available := ((List.range npoints).filter
      (fun i => decide (bif_id[i]? = some (-1)))).map Int.ofNat
    let n_new := min (max_num_partitions - inlets.length) 2
    let extra ← pySample osamp n_new available 0
    Except.ok (inlets ++ extra)
  else Except.ok inlets

/-- **C7 (amended).** For every input with in-degree at most one on which
`create_partitions` succeeds, the root list `inlets` that the run selects
(pinned by `chosenInlets`) is such that every
returned partition's sampling list starts at one of the roots, a point index
shared by two partitions either is a chosen root or the two partitions have
the same root, and every partition's local edge endpoints are natural indices
below that partition's local point count. -/
theorem partitions_overlap_amended (points : List Pt)
    (bif_id edges1 edges2 : List ℤ) (maxp : ℕ) (orand osamp : ℕ → ℕ)
    (fuel : ℕ) (parts : List PartOut)
    (hindeg : ∀ k1 k2 : ℕ, ∀ v : ℤ, edges2[k1]? = some v →
      edges2[k2]? = some v → k1 = k2)
    (h : create_partitions points bif_id edges1 edges2 maxp orand osamp fuel =
      Except.ok parts) :
    ∃ inlets : List ℤ,
      chosenInlets bif_id edges1 edges2 maxp orand osamp fuel =
        Except.ok inlets ∧
      (∀ pa ∈ parts, ∃ s ∈ inlets, pa.sampling[0]? = some s) ∧
      (∀ pa ∈ parts, ∀ pb ∈ parts, ∀ x : ℤ, x ∈ pa.sampling →
        x ∈ pb.sampling → x ∈ inlets ∨ pa.sampling[0]? = pb.sampling[0]?) ∧
      (∀ pa ∈ parts,
        (∀ e ∈ pa.edges1, ∃ m : ℕ, e = Int.ofNat m ∧ m < pa.sampling.length) ∧
        (∀ e ∈ pa.edges2, ∃ m : ℕ, e = Int.ofNat m ∧ m < pa.sampling.length)) := by
  rw [create_partitions] at h
  rcases except_bind_ok h with ⟨sel, hsel, h⟩
  simp only [] at h
  have hmain : ∃ inlets2 : List ℤ,
      chosenInlets bif_id edges1 edges2 maxp orand osamp fuel =
        Except.ok inlets2 ∧
      (do
        let parts0 ← mapE (fun s => do
          match create_partition edges1 edges2 s inlets2 fuel with
          | some r => do
            let pts ← mapE (fun i => pyGetE points i) r.2.2
            Except.ok (⟨r.1, r.2.1, pts, r.2.2⟩ : PartOut)
          | none => Except.error PyErr.valueError) inlets2
        Except.ok (parts0.filter (fun p => decide (1 < p.edges1.length)))) =
      Except.ok parts := by
    by_cases hcond : sel.1.length < maxp
    · rw [if_pos hcond] at h
      rcases except_bind_ok h with ⟨extra, hex, h⟩
      rcases except_bind_ok h with ⟨inl2, hin, h⟩
      refine ⟨inl2, ?_, h⟩
      simp only [chosenInlets, hsel, ok_bind]
      rw [if_pos hcond, hex, ok_bind]
      exact hin
    · rw [if_neg hcond] at h
      rcases except_bind_ok h with ⟨inl2, hin, h⟩
      refine ⟨inl2, ?_, h⟩
      simp only [chosenInlets, hsel, ok_bind]
      rw [if_neg hcond]
      exact hin
  obtain ⟨inlets2, hchosen, h2⟩ := hmain
  clear h
  rcases except_bind_ok h2 with ⟨parts0, hparts0, h⟩
  rw [Except.ok.injEq] at h
  have hmem0 : ∀ pa ∈ parts, pa ∈ parts0 := by
    intro pa hpa
    rw [← h] at hpa
    exact (List.mem_filter.mp hpa).1
  have hchar : ∀ pa ∈ parts0, ∃ s, s ∈ inlets2 ∧
      ∃ r : List ℤ × List ℤ × List ℤ,
        create_partition edges1 edges2 s inlets2 fuel = some r ∧
        pa.sampling = r.2.2 ∧ pa.edges1 = r.1 ∧ pa.edges2 = r.2.1 := by
    intro pa hpa
    obtain ⟨s, hs, hf⟩ := mapE_ok_mem _ _ _ hparts0 pa hpa
    cases hcp : create_partition edges1 edges2 s inlets2 fuel with
    | none =>
      rw [hcp] at hf
      exact Except.noConfusion hf
    | some r =>
      rw [hcp] at hf
      rcases except_bind_ok hf with ⟨pts, hpts, hf2⟩
      rw [Except.ok.injEq] at hf2
      rw [← hf2]
      exact ⟨s, hs, r, hcp, rfl, rfl, rfl⟩
  refine ⟨inlets2, hchosen, ?_, ?_, ?_⟩
  · intro pa hpa
    obtain ⟨s, hs, r, hcp, hsampeq, _, _⟩ := hchar pa (hmem0 pa hpa)
    obtain ⟨hhead, _, _, _⟩ :=
      createPartition_spec edges1 edges2 inlets2 s fuel r hcp
    refine ⟨s, hs, ?_⟩
    rw [hsampeq]
    exact hhead
  · intro pa hpa pb hpb x hxa hxb
    obtain ⟨sa, hsa, ra, hcpa, hsampa, _, _⟩ := hchar pa (hmem0 pa hpa)
    obtain ⟨sb, hsb, rb, hcpb, hsampb, _, _⟩ := hchar pb (hmem0 pb hpb)
    obtain ⟨hheada, hsampA, _, _⟩ :=
      createPartition_spec edges1 edges2 inlets2 sa fuel ra hcpa
    obtain ⟨hheadb, hsampB, _, _⟩ :=
      createPartition_spec edges1 edges2 inlets2 sb fuel rb hcpb
    by_cases hroots : sa = sb
    · right
      rw [hsampa, hsampb, hheada, hheadb, hroots]
    · left
      by_contra hxnot
      rw [hsampa] at hxa
      rw [hsampb] at hxb
      rcases hsampA x hxa with heqa | ⟨ua, hrta, hstepa⟩
      · exact hxnot (by rw [heqa]; exact hsa)
      rcases hsampB x hxb with heqb | ⟨ub, hrtb, hstepb⟩
      · exact hxnot (by rw [heqb]; exact hsb)
      obtain ⟨ka, hka1, hka2⟩ := hstepa
      obtain ⟨kb, hkb1, hkb2⟩ := hstepb
      have hkk : ka = kb := hindeg ka kb x hka2 hkb2
      have huu : ua = ub := by
        rw [hkk] at hka1
        rw [hka1] at hkb1
        rw [Option.some.injEq] at hkb1
        exact hkb1
      rw [← huu] at hrtb
      obtain ⟨na, hna⟩ := rtg_to_rtgn _ _ _ hrta
      obtain ⟨nb, hnb⟩ := rtg_to_rtgn _ _ _ hrtb
      exact no_common_rr_descendant edges1 edges2 inlets2 hindeg sa sb hsa hsb
        hroots (na + nb) na nb ua (le_refl _) hna hnb
  · intro pa hpa
    obtain ⟨s, hs, r, hcp, hsampeq, he1eq, he2eq⟩ := hchar pa (hmem0 pa hpa)
    obtain ⟨_, _, hb1, hb2⟩ :=
      createPartition_spec edges1 edges2 inlets2 s fuel r hcp
    constructor
    · intro e he
      rw [he1eq] at he
      obtain ⟨m, hm, hlt⟩ := hb1 e he
      refine ⟨m, hm, ?_⟩
      rw [hsampeq]
      exact hlt
    · intro e he
      rw [he2eq] at he
      obtain ⟨m, hm, hlt⟩ := hb2 e he
      refine ⟨m, hm, ?_⟩
      rw [hsampeq]
      exact hlt

/-- Witness for `partitions_overlap_amended` on the 5-point chain: the two
partitions share only the chosen root 2, and all local edge indices are below
the local point counts. -/
theorem partitions_overlap_amended_witness :
    ∃ inlets : List ℤ,
      chosenInlets [-1, 0, -1, 1, -1] [0, 1, 2, 3] [1, 2, 3, 4] 2
        (fun _ => 0) (fun _ => 0) 100 = Except.ok inlets ∧
      (∀ pa ∈ [(⟨[0, 1], [1, 2], [(0, 0, 0), (1, 0, 0), (2, 0, 0)],
            [0, 1, 2]⟩ : PartOut),
          ⟨[0, 1], [1, 2], [(2, 0, 0), (3, 0, 0), (4, 0, 0)], [2, 3, 4]⟩],
        ∃ s ∈ inlets, pa.sampling[0]? = some s) ∧
      (∀ pa ∈ [(⟨[0, 1], [1, 2], [(0, 0, 0), (1, 0, 0), (2, 0, 0)],
            [0, 1, 2]⟩ : PartOut),
          ⟨[0, 1], [1, 2], [(2, 0, 0), (3, 0, 0), (4, 0, 0)], [2, 3, 4]⟩],
        ∀ pb ∈ [(⟨[0, 1], [1, 2], [(0, 0, 0), (1, 0, 0), (2, 0, 0)],
            [0, 1, 2]⟩ : PartOut),
          ⟨[0, 1], [1, 2], [(2, 0, 0), (3, 0, 0), (4, 0, 0)], [2, 3, 4]⟩],
        ∀ x : ℤ, x ∈ pa.sampling → x ∈ pb.sampling →
          x ∈ inlets ∨ pa.sampling[0]? = pb.sampling[0]?) ∧
      (∀ pa ∈ [(⟨[0, 1], [1, 2], [(0, 0, 0), (1, 0, 0), (2, 0, 0)],
            [0, 1, 2]⟩ : PartOut),
          ⟨[0, 1], [1, 2], [(2, 0, 0), (3, 0, 0), (4, 0, 0)], [2, 3, 4]⟩],
        (∀ e ∈ pa.edges1, ∃ m : ℕ, e = Int.ofNat m ∧ m < pa.sampling.length) ∧
        (∀ e ∈ pa.edges2, ∃ m : ℕ, e = Int.ofNat m ∧ m < pa.sampling.length)) :=
  partitions_overlap_amended
    [((0 : ℚ), (0 : ℚ), (0 : ℚ)), (1, 0, 0), (2, 0, 0), (3, 0, 0), (4, 0, 0)]
    [-1, 0, -1, 1, -1] [0, 1, 2, 3] [1, 2, 3, 4] 2 (fun _ => 0) (fun _ => 0)
    100
    [⟨[0, 1], [1, 2], [(0, 0, 0), (1, 0, 0), (2, 0, 0)], [0, 1, 2]⟩,
     ⟨[0, 1], [1, 2], [(2, 0, 0), (3, 0, 0), (4, 0, 0)], [2, 3, 4]⟩]
    (fun k1 k2 v h1 h2 =>
      nodup_getElem?_inj ([1, 2, 3, 4] : List ℤ) (by decide) k1 k2 v h1 h2)
    (by with_unfolding_all rfl)

end Grom
